import Mathlib

/-!
# upd72020x-load: register-level handshake protocol

A shallow embedding of the protocol engine of `upd72020x-load.c`
(`pci_cfg_read16` ... `write_firmware`) and theorems about the register traces
it produces.

Modelling conventions.

* The device behind the configuration-space file descriptor is an oracle
  `Device`: given the history of all accesses made so far and the next access,
  it answers with the return value of `read`/`write` (a byte count, negative on
  error) and, for a read, with the bytes delivered (as a little-endian number).
* Every access is appended to a `Trace`, oldest access first.  Delays
  (`usleep`, `sleep`) and `printf` leave no mark in the trace.
* `u_int` variables are natural numbers below `2 ^ 32`; `int` return codes are
  integers.
* A local variable that the C code leaves uninitialised starts with the
  content `u`, an arbitrary word handed to every function.
* The image file is a list of bytes; `read(ifile, &val32, 4)` takes the next
  (at most four) bytes of it.
-/

namespace Upd72020x

/-! ## Constants -/

abbrev LOOPNB : Nat := 100000
abbrev EXT_FW_DLOAD_CTRL_STATUS : Nat := 0xF4
abbrev EXT_ROM_CTRL_STATUS : Nat := 0xF6
abbrev EXT_DATA0 : Nat := 0xF8
abbrev EXT_DATA1 : Nat := 0xFC

abbrev ROM_ACCESS_ENABLE : Nat := 0
abbrev ROM_SET_DATA0 : Nat := 8
abbrev ROM_SET_DATA1 : Nat := 9
abbrev ROM_GET_DATA0 : Nat := 10
abbrev ROM_GET_DATA1 : Nat := 11
abbrev ROM_EXISTS : Nat := 15
abbrev FW_DLOAD_ENABLE : Nat := 0

abbrev RESULT_BITMASK : Nat := 0x0070
abbrev RESULT_INVALID : Nat := 0x0000
abbrev RESULT_SUCCESS : Nat := 0x0010

/-- The macro `DATAREG(index)`: the odd indices select `EXT_DATA1`. -/
def DATAREG (index : Nat) : Nat :=
  if index &&& 0x1 ≠ 0 then EXT_DATA1 else EXT_DATA0

/-! ## Device, accesses and traces -/

/-- One `lseek` + `read`/`write` on the configuration space. -/
inductive Access where
  | read16 (off : Nat)
  | write16 (off : Nat) (val : Nat)
  | read32 (off : Nat)
  | write32 (off : Nat) (val : Nat)
  deriving DecidableEq, Repr

/-- Which helper of the program made a 16-bit access.  The device does not see
it in the access itself; it is a record of the call: `bits m` is the read of
`read_bitmask` with bitmask `m`, `rmw m` the read and the write of
`write_bitmask` with bitmask `m`, `plain` a direct `pci_cfg_*` call. -/
inductive Tag where
  | plain
  | bits (mask : Nat)
  | rmw (mask : Nat)
  deriving DecidableEq, Repr

/-- An access together with what the device answered: the return value `rc` of
`read`/`write` and the bytes delivered by a read (`0` for a write), and the
helper that made the access. -/
structure Event where
  acc : Access
  rc : Int
  data : Nat
  tag : Tag
  deriving DecidableEq, Repr

abbrev Trace := List Event

/-- The device: from the history and the next access to `(rc, data)`. -/
abbrev Device := Trace → Access → Int × Nat

/-- Content of a `u_int` variable after `read(fd, &var, w)` returned `rc` and
delivered `data`: the first `min rc w` bytes (the low ones, little-endian) are
replaced, the others keep the old content. -/
def storeBytes (w : Nat) (rc : Int) (old data : Nat) : Nat :=
  let n := min rc.toNat w
  (((old >>> (8 * n)) <<< (8 * n)) ||| (data % 2 ^ (8 * n))) % 2 ^ 32

/-- Source `pci_cfg_read16`: returns `(rc, new content of *val16, trace)`. -/
def pci_cfg_read16 (dev : Device) (tag : Tag) (off old : Nat) (tr : Trace) :
    Int × Nat × Trace :=
  let r := dev tr (.read16 off)
  (r.1, storeBytes 2 r.1 old r.2, tr ++ [⟨.read16 off, r.1, r.2, tag⟩])

/-- Source `pci_cfg_write16`: the two low bytes of `val16` are written. -/
def pci_cfg_write16 (dev : Device) (tag : Tag) (off val16 : Nat) (tr : Trace) :
    Int × Trace :=
  let a := Access.write16 off (val16 % 2 ^ 16)
  ((dev tr a).1, tr ++ [⟨a, (dev tr a).1, 0, tag⟩])

/-- Source `pci_cfg_read32`. -/
def pci_cfg_read32 (dev : Device) (off old : Nat) (tr : Trace) : Int × Nat × Trace :=
  let r := dev tr (.read32 off)
  (r.1, storeBytes 4 r.1 old r.2, tr ++ [⟨.read32 off, r.1, r.2, .plain⟩])

/-- Source `pci_cfg_write32`. -/
def pci_cfg_write32 (dev : Device) (off val32 : Nat) (tr : Trace) : Int × Trace :=
  let a := Access.write32 off (val32 % 2 ^ 32)
  ((dev tr a).1, tr ++ [⟨a, (dev tr a).1, 0, .plain⟩])

/-! ## BitField helpers -/

/-- Source `read_bitmask`: `*value &= bitmask` is done whatever `read` returned. -/
def read_bitmask (dev : Device) (reg bitmask old : Nat) (tr : Trace) : Int × Nat × Trace :=
  let r := pci_cfg_read16 dev (.bits bitmask) reg old tr
  (r.1, r.2.1 &&& bitmask, r.2.2)

/-- Source `write_bitmask`.  `~bitmask` on a `u_int` is `bitmask ^ 0xFFFFFFFF`;
the local `val` is uninitialised before the read. -/
def write_bitmask (dev : Device) (u reg bitmask value : Nat) (tr : Trace) : Int × Trace :=
  let r := pci_cfg_read16 dev (.rmw bitmask) reg u tr
  if r.1 ≥ 0 then
    let val := r.2.1 &&& (bitmask ^^^ 0xFFFFFFFF)
    let val := val ||| (value &&& bitmask)
    pci_cfg_write16 dev (.rmw bitmask) reg val r.2.2
  else
    (r.1, r.2.2)

/-- Source `read_bit`. -/
def read_bit (dev : Device) (reg bit old : Nat) (tr : Trace) : Int × Nat × Trace :=
  read_bitmask dev reg (1 <<< bit) old tr

/-- Source `write_bit`. -/
def write_bit (dev : Device) (u reg bit value : Nat) (tr : Trace) : Int × Trace :=
  write_bitmask dev u reg (1 <<< bit) ((value <<< bit) % 2 ^ 32) tr

/-! ## RomAccessGate -/

/-- Source `eeprom_exists`. -/
def eeprom_exists (dev : Device) (u : Nat) (tr : Trace) : Int × Trace :=
  let r := read_bit dev EXT_ROM_CTRL_STATUS ROM_EXISTS u tr
  if r.1 < 0 then (-1, r.2.2)
  else (if r.2.1 = 0 then -1 else 0, r.2.2)

/-- The polling loop of `external_rom_access`, with `n` iterations left and
`reg` the current content of the local `reg`; the return value of
`pci_cfg_read16` is not looked at. -/
def rom_access_poll (dev : Device) : Nat → Nat → Trace → Int × Trace
  | 0, _, tr => (-1, tr)
  | n + 1, reg, tr =>
    let r := pci_cfg_read16 dev .plain EXT_ROM_CTRL_STATUS reg tr
    if r.2.1 &&& RESULT_BITMASK = RESULT_INVALID then (0, r.2.2)
    else rom_access_poll dev n r.2.1 r.2.2

/-- Source `external_rom_access`. -/
def external_rom_access (dev : Device) (u : Nat) (enable : Bool) (tr : Trace) : Int × Trace :=
  let e := eeprom_exists dev u tr
  if e.1 < 0 then (-1, e.2)
  else if enable then
    let w := pci_cfg_write32 dev EXT_DATA0 0x53524F4D e.2
    if w.1 < 0 then (-1, w.2)
    else
      let b := write_bit dev u EXT_ROM_CTRL_STATUS ROM_ACCESS_ENABLE 1 w.2
      if b.1 < 0 then (-1, b.2)
      else rom_access_poll dev LOOPNB u b.2
  else
    let b := write_bit dev u EXT_ROM_CTRL_STATUS ROM_ACCESS_ENABLE 0 e.2
    if b.1 < 0 then (-1, b.2)
    else (0, b.2)

/-! ## DwordPump -/

/-- The loop `for (jx = 0; jx < LOOPNB; jx++)` shared by `do_upload` and
`read_eeprom`, with `n` iterations left: it stops at the first `read_bit`
that returns a non-negative count and leaves `status == 0`.  The result is
`(found, status, trace)`; `found = false` is the source's `jx == LOOPNB`. -/
def poll_bit_zero (dev : Device) (reg bit : Nat) : Nat → Nat → Trace → Bool × Nat × Trace
  | 0, status, tr => (false, status, tr)
  | n + 1, status, tr =>
    let r := read_bit dev reg bit status tr
    if r.1 ≥ 0 ∧ r.2.1 = 0 then (true, r.2.1, r.2.2)
    else poll_bit_zero dev reg bit n r.2.1 r.2.2

/-- The four bytes read into `val32`, little-endian. -/
def le32 (b0 b1 b2 b3 : Nat) : Nat :=
  b0 % 256 + 256 * (b1 % 256) + 65536 * (b2 % 256) + 16777216 * (b3 % 256)

/-- The body of the loop of `do_upload` once four bytes `val32` were read
(the poll, the write of the data register, the trigger):
`(0 or -1, status, trace)`, where `-1` stands for the `return -1` of a
`RETURN_ON_ERR`. -/
def do_upload_body (dev : Device) (u ctrl_reg i status val32 : Nat) (tr : Trace) :
    Int × Nat × Trace :=
  let data01 := i &&& 1
  let databit := ROM_SET_DATA0 + data01
  let p := poll_bit_zero dev ctrl_reg databit LOOPNB status tr
  if p.1 = false then (-1, p.2.1, p.2.2)
  else
    let w := pci_cfg_write32 dev (DATAREG data01) val32 p.2.2
    if w.1 < 0 then (-1, p.2.1, w.2)
    else if i = 1 then
      let mask := (1 <<< ROM_SET_DATA0) ||| (1 <<< ROM_SET_DATA1)
      let s := write_bitmask dev u ctrl_reg mask mask w.2
      if s.1 < 0 then (-1, p.2.1, s.2) else (0, p.2.1, s.2)
    else if i > 1 then
      let s := write_bit dev u ctrl_reg databit 1 w.2
      if s.1 < 0 then (-1, p.2.1, s.2) else (0, p.2.1, s.2)
    else (0, p.2.1, w.2)

/-- The loop of `do_upload` over the rest of the image file, with `i` the
32-bit loop counter and `status` the local of that name.  A chunk of 1, 2 or
3 bytes is `rc != 4`; `rc < 0` cannot hold since `rc` is a `u_int`. -/
def do_upload_loop (dev : Device) (u ctrl_reg : Nat) :
    List Nat → Nat → Nat → Trace → Int × Trace
  | [], _, _, tr => (0, tr)
  | [_], _, _, tr => (-1, tr)
  | [_, _], _, _, tr => (-1, tr)
  | [_, _, _], _, _, tr => (-1, tr)
  | b0 :: b1 :: b2 :: b3 :: rest, i, status, tr =>
    let r := do_upload_body dev u ctrl_reg i status (le32 b0 b1 b2 b3) tr
    if r.1 < 0 then (-1, r.2.2)
    else do_upload_loop dev u ctrl_reg rest ((i + 1) % 2 ^ 32) r.2.1 r.2.2

/-- Source `do_upload`, on the bytes of the opened image file. -/
def do_upload (dev : Device) (u : Nat) (ifile : List Nat) (ctrl_reg : Nat) (tr : Trace) :
    Int × Trace :=
  do_upload_loop dev u ctrl_reg ifile 0 u tr

/-! ## CompletionChecker -/

/-- The polling loop of `test_upload_result` with `n` iterations left. -/
def test_upload_poll (dev : Device) (ctrl_reg : Nat) : Nat → Nat → Trace → Nat × Trace
  | 0, status, tr => (status, tr)
  | n + 1, status, tr =>
    let r := pci_cfg_read32 dev ctrl_reg status tr
    if r.1 < 0 then test_upload_poll dev ctrl_reg n 0xFFFFFFFF r.2.2
    else if r.2.1 &&& RESULT_BITMASK = RESULT_SUCCESS then (r.2.1, r.2.2)
    else test_upload_poll dev ctrl_reg n r.2.1 r.2.2

/-- Source `test_upload_result`: `(return value, status printed on failure, trace)`. -/
def test_upload_result (dev : Device) (u ctrl_reg : Nat) (tr : Trace) : Int × Nat × Trace :=
  let p := test_upload_poll dev ctrl_reg LOOPNB u tr
  if p.1 &&& RESULT_BITMASK ≠ RESULT_SUCCESS then (-1, p.1, p.2)
  else (0, p.1, p.2)

/-! ## TransferOrchestrator -/

/-- Source `write_eeprom`; `ifile = none` is a failed `open`. -/
def write_eeprom (dev : Device) (u : Nat) (ifile : Option (List Nat)) (tr : Trace) :
    Int × Trace :=
  match ifile with
  | none => (-1, tr)
  | some bytes =>
    let e := external_rom_access dev u true tr
    if e.1 < 0 then (-1, e.2)
    else
      let d := do_upload dev u bytes EXT_ROM_CTRL_STATUS e.2
      if d.1 < 0 then (-1, d.2)
      else
        let x := external_rom_access dev u false d.2
        if x.1 < 0 then (-1, x.2)
        else
          let t := test_upload_result dev u EXT_ROM_CTRL_STATUS x.2
          if t.1 < 0 then (-1, t.2.2)
          else (0, t.2.2)

/-- Source `write_firmware`; `ifile = none` is a failed `open`. -/
def write_firmware (dev : Device) (u : Nat) (ifile : Option (List Nat)) (tr : Trace) :
    Int × Trace :=
  match ifile with
  | none => (-1, tr)
  | some bytes =>
    let e := write_bit dev u EXT_FW_DLOAD_CTRL_STATUS FW_DLOAD_ENABLE 1 tr
    if e.1 < 0 then (-1, e.2)
    else
      let d := do_upload dev u bytes EXT_FW_DLOAD_CTRL_STATUS e.2
      if d.1 < 0 then (-1, d.2)
      else
        let x := write_bit dev u EXT_FW_DLOAD_CTRL_STATUS FW_DLOAD_ENABLE 0 d.2
        if x.1 < 0 then (-1, x.2)
        else
          let t := test_upload_result dev u EXT_FW_DLOAD_CTRL_STATUS x.2
          if t.1 < 0 then (-1, t.2.2)
          else (0, t.2.2)

/-- The locals of `read_eeprom` that live across iterations, the dwords written
to the output file so far, and the trace. -/
structure RdState where
  status : Nat
  val32 : Nat
  out : List Nat
  tr : Trace

/-- The body of the inner loop of `read_eeprom` (the poll, the read of the data
register, the append to the output file, the acknowledge): `(0 or -1, state)`,
where `-1` stands for the `return -1` of a `RETURN_ON_ERR`. -/
def read_eeprom_body (dev : Device) (u data01 : Nat) (s : RdState) : Int × RdState :=
  let databit := ROM_GET_DATA0 + data01
  let p := poll_bit_zero dev EXT_ROM_CTRL_STATUS databit LOOPNB s.status s.tr
  if p.1 = false then (-1, ⟨p.2.1, s.val32, s.out, p.2.2⟩)
  else
    let r := pci_cfg_read32 dev (DATAREG databit) s.val32 p.2.2
    if r.1 < 0 then (-1, ⟨p.2.1, r.2.1, s.out, r.2.2⟩)
    else
      let out := s.out ++ [r.2.1]
      let b := write_bit dev u EXT_ROM_CTRL_STATUS databit 1 r.2.2
      if b.1 < 0 then (-1, ⟨p.2.1, r.2.1, out, b.2⟩)
      else (0, ⟨p.2.1, r.2.1, out, b.2⟩)

/-- The loop `for (data01 = 0; data01 < 2; data01++)` of `read_eeprom`, with
`n` iterations left. -/
def read_eeprom_inner (dev : Device) (u : Nat) : Nat → Nat → RdState → Int × RdState
  | 0, _, s => (0, s)
  | n + 1, data01, s =>
    let r := read_eeprom_body dev u data01 s
    if r.1 < 0 then r
    else read_eeprom_inner dev u n (data01 + 1) r.2

/-- The loop `for (ix = 0; ix < len / 8; ix++)` of `read_eeprom`, with `n`
iterations left. -/
def read_eeprom_outer (dev : Device) (u : Nat) : Nat → RdState → Int × RdState
  | 0, s => (0, s)
  | n + 1, s =>
    let r := read_eeprom_inner dev u 2 0 s
    if r.1 < 0 then r
    else read_eeprom_outer dev u n r.2

/-- Source `read_eeprom`: `(return value, dwords written to the output file,
trace)`; `ofileOk = false` is a failed `open`, and `write(ofile, &val32, 4)`
appends one dword. -/
def read_eeprom (dev : Device) (u : Nat) (ofileOk : Bool) (len : Nat) (tr : Trace) :
    Int × List Nat × Trace :=
  if ofileOk = false then (-1, [], tr)
  else
    let e := external_rom_access dev u true tr
    if e.1 < 0 then (-1, [], e.2)
    else
      let g0 := write_bit dev u EXT_ROM_CTRL_STATUS ROM_GET_DATA0 1 e.2
      if g0.1 < 0 then (-1, [], g0.2)
      else
        let g1 := write_bit dev u EXT_ROM_CTRL_STATUS ROM_GET_DATA1 1 g0.2
        if g1.1 < 0 then (-1, [], g1.2)
        else
          let l := read_eeprom_outer dev u ((len % 2 ^ 32) / 8) ⟨u, u, [], g1.2⟩
          if l.1 < 0 then (-1, l.2.out, l.2.tr)
          else
            let x := external_rom_access dev u false l.2.tr
            if x.1 < 0 then (-1, l.2.out, x.2)
            else (0, l.2.out, x.2)

/-! ## Vocabulary of the statements -/

/-- What an event shows of the program: the access and the helper that made it,
the value of a read-modify-write reduced to the bits under its mask. -/
def Event.step (e : Event) : Access × Tag :=
  match e.acc, e.tag with
  | .write16 off v, .rmw m => (.write16 off (v &&& m), .rmw m)
  | a, t => (a, t)

/-- A step made by `read_bitmask`: a poll of some bits. -/
def isPollStep (s : Access × Tag) : Bool :=
  match s.2 with
  | .bits _ => true
  | _ => false

/-- A write to the configuration space. -/
def Event.isWrite (e : Event) : Bool :=
  match e.acc with
  | .write16 _ _ => true
  | .write32 _ _ => true
  | _ => false

/-- A 32-bit write to one of the two data registers. -/
def isDataWrite (s : Access × Tag) : Bool :=
  match s with
  | (.write32 off _, .plain) => off = EXT_DATA0 || off = EXT_DATA1
  | _ => false

/-- The combined signal: the masked write that sets bits 8 and 9 of `ctrl`
together. -/
def isCombined (ctrl : Nat) (s : Access × Tag) : Bool :=
  s = (.write16 ctrl 0x300, .rmw 0x300)

/-- A single signal: the masked write that sets bit 8 alone, or bit 9 alone. -/
def isSingle (ctrl : Nat) (s : Access × Tag) : Bool :=
  s = (.write16 ctrl 0x100, .rmw 0x100) || s = (.write16 ctrl 0x200, .rmw 0x200)

/-- A masked write to `reg` whose mask holds bit 0 and that writes 0 there:
the step that clears the access-enable (or firmware-download-enable) bit. -/
def isClearEnable (reg : Nat) (s : Access × Tag) : Bool :=
  match s with
  | (.write16 off b, .rmw m) => off = reg && m.testBit 0 && !b.testBit 0
  | _ => false

/-- The steps `do_upload` can make on the control register `ctrl`: a poll of
bit 8 or of bit 9, a write of a data register, and the read and the write of
a masked write that sets bits 8 and 9, bit 8 or bit 9. -/
def isPumpStep (ctrl : Nat) (s : Access × Tag) : Bool :=
  match s with
  | (.read16 off, .bits m) => off = ctrl && (m = 0x100 || m = 0x200)
  | (.read16 off, .rmw m) => off = ctrl && (m = 0x300 || m = 0x100 || m = 0x200)
  | (.write16 off b, .rmw m) => off = ctrl && b = m && (m = 0x300 || m = 0x100 || m = 0x200)
  | (.write32 off _, .plain) => off = EXT_DATA0 || off = EXT_DATA1
  | _ => false

/-- A poll of bit `bit` that did not find it clear: the read failed, or it was
complete and showed the bit set. -/
def Event.pollMiss (bit : Nat) (e : Event) : Prop :=
  e.tag = .bits (1 <<< bit) ∧ (e.rc < 0 ∨ (2 ≤ e.rc ∧ e.data.testBit bit = true))

/-- In `evs`, every write of a data register comes directly after a poll of the
set bit of its lane (bit 8 for DATA0, bit 9 for DATA1) on `ctrl` that returned
a non-negative count and, when the read was complete, showed the bit clear. -/
def PolledBeforeWrite (ctrl : Nat) (evs : List Event) : Prop :=
  ∀ pre e post lane v, evs = pre ++ e :: post → lane < 2 →
    e.step = (.write32 (if lane = 0 then EXT_DATA0 else EXT_DATA1) v, .plain) →
    ∃ pre1 p, pre = pre1 ++ [p] ∧ p.step = (.read16 ctrl, .bits (1 <<< (8 + lane))) ∧
      0 ≤ p.rc ∧ (2 ≤ p.rc → p.data.testBit (8 + lane) = false)

/-- In `evs`, a block of `LOOPNB` consecutive polls of one bit that all missed
is followed by nothing, and the return value `rc` is then -1. -/
def TimeoutEnds (rc : Int) (evs : List Event) : Prop :=
  ∀ pre blk post bit, evs = pre ++ blk ++ post → blk.length = LOOPNB →
    (∀ e ∈ blk, e.pollMiss bit) → post = [] ∧ rc = -1

/-- The dwords of an image file, a trailing chunk of 1, 2 or 3 bytes left out. -/
def dwords : List Nat → List Nat
  | b0 :: b1 :: b2 :: b3 :: rest => le32 b0 b1 b2 b3 :: dwords rest
  | _ => []

/-- The steps that signal dword number `i` (the 32-bit counter of `do_upload`):
nothing for `i = 0`, the combined signal for `i = 1`, the lane of `i` alone
afterwards. -/
def signalSteps (ctrl i : Nat) : List (Access × Tag) :=
  if i = 1 then [(.read16 ctrl, .rmw 0x300), (.write16 ctrl 0x300, .rmw 0x300)]
  else if i > 1 then
    [(.read16 ctrl, .rmw (1 <<< (8 + i % 2))),
     (.write16 ctrl (1 <<< (8 + i % 2)), .rmw (1 <<< (8 + i % 2)))]
  else []

/-- The steps of an upload of the dwords `ds`, the first of them being dword
number `k` of the file, on a device that never makes the pump wait: one poll
of the lane bit, the write of the data register of lane `k % 2`, the signal
of the counter value `k % 2 ^ 32`. -/
def pumpSteps (ctrl : Nat) : Nat → List Nat → List (Access × Tag)
  | _, [] => []
  | k, d :: ds =>
    (.read16 ctrl, .bits (1 <<< (8 + k % 2))) ::
    (.write32 (if k % 2 = 0 then EXT_DATA0 else EXT_DATA1) d, .plain) ::
    (signalSteps ctrl (k % 2 ^ 32) ++ pumpSteps ctrl (k + 1) ds)

/-- The `status` that `test_upload_result` holds after the polls `evs`, each of
which failed or transferred its four bytes: the marker `0xFFFFFFFF` after a
failed read, the value read otherwise. -/
def lastStatus (status : Nat) (evs : List Event) : Nat :=
  match evs.getLast? with
  | none => status
  | some e => if e.rc < 0 then 0xFFFFFFFF else e.data % 2 ^ 32

/-- A complete read that shows bit `bit` clear. -/
def Event.showsClear (bit : Nat) (e : Event) : Prop :=
  2 ≤ e.rc ∧ e.data.testBit bit = false

/-- A device that never makes the pump on `ctrl` wait and on which every access
succeeds: a 16-bit read of `ctrl` is complete and shows the lane bits 8 and 9
clear, and no write fails. -/
def PumpReady (dev : Device) (ctrl : Nat) : Prop :=
  (∀ h, 2 ≤ (dev h (.read16 ctrl)).1 ∧ (dev h (.read16 ctrl)).2.testBit 8 = false ∧
    (dev h (.read16 ctrl)).2.testBit 9 = false) ∧
  (∀ h off v, 0 ≤ (dev h (.write32 off v)).1) ∧
  (∀ h v, 0 ≤ (dev h (.write16 ctrl v)).1)

/-- A device on which the EEPROM exists and the gate settles at once: a 16-bit
read of the ROM control register is complete and shows the exists bit 15 set
and the result field (bits 4 to 6) pending, and no write fails. -/
def GateReady (dev : Device) : Prop :=
  (∀ h, 2 ≤ (dev h (.read16 EXT_ROM_CTRL_STATUS)).1 ∧
    (dev h (.read16 EXT_ROM_CTRL_STATUS)).2.testBit 15 = true ∧
    (dev h (.read16 EXT_ROM_CTRL_STATUS)).2 &&& RESULT_BITMASK = RESULT_INVALID) ∧
  (∀ h off v, 0 ≤ (dev h (.write32 off v)).1) ∧
  (∀ h v, 0 ≤ (dev h (.write16 EXT_ROM_CTRL_STATUS v)).1)

/-- A device on which every get bit reads 0 at once: a 16-bit read of the ROM
control register shows the get bits 10 and 11 clear. -/
def GetReady (dev : Device) : Prop :=
  ∀ h, (dev h (.read16 EXT_ROM_CTRL_STATUS)).2.testBit 10 = false ∧
    (dev h (.read16 EXT_ROM_CTRL_STATUS)).2.testBit 11 = false

/-- A device on which the completion check of `ctrl` succeeds at once: a 32-bit
read of `ctrl` is complete and shows the result field equal to success. -/
def CheckReady (dev : Device) (ctrl : Nat) : Prop :=
  ∀ h, 4 ≤ (dev h (.read32 ctrl)).1 ∧
    (dev h (.read32 ctrl)).2 &&& RESULT_BITMASK = RESULT_SUCCESS

/-- A write step. -/
def isWriteStep (s : Access × Tag) : Bool :=
  match s.1 with
  | .write16 _ _ => true
  | .write32 _ _ => true
  | _ => false

/-- A 32-bit read of one of the two data registers. -/
def isDataRead (s : Access × Tag) : Bool :=
  match s with
  | (.read32 off, .plain) => off = EXT_DATA0 || off = EXT_DATA1
  | _ => false

/-- The steps of the download of one dword from lane `lane` on a device that
never makes the pump wait: the poll of get bit `10 + lane`, the read of the
data register, the masked write that sets the same get bit. -/
def laneSteps (lane : Nat) : List (Access × Tag) :=
  [(.read16 EXT_ROM_CTRL_STATUS, .bits (1 <<< (10 + lane))),
   (.read32 (if lane = 0 then EXT_DATA0 else EXT_DATA1), .plain),
   (.read16 EXT_ROM_CTRL_STATUS, .rmw (1 <<< (10 + lane))),
   (.write16 EXT_ROM_CTRL_STATUS (1 <<< (10 + lane)), .rmw (1 <<< (10 + lane)))]

/-- The steps `read_eeprom` can make after the enable sequence and before the
disable sequence: polls and masked writes of the get bits 10 and 11, reads of
the data registers. -/
def isGetStep (s : Access × Tag) : Bool :=
  match s with
  | (.read16 off, .bits m) => off = EXT_ROM_CTRL_STATUS && (m = 0x400 || m = 0x800)
  | (.read16 off, .rmw m) => off = EXT_ROM_CTRL_STATUS && (m = 0x400 || m = 0x800)
  | (.write16 off b, .rmw m) => off = EXT_ROM_CTRL_STATUS && b = m && (m = 0x400 || m = 0x800)
  | (.read32 off, .plain) => off = EXT_DATA0 || off = EXT_DATA1
  | _ => false

/-- The steps of the enable sequence before its polls. -/
def enableHead : List (Access × Tag) :=
  [(.read16 EXT_ROM_CTRL_STATUS, .bits 0x8000),
   (.write32 EXT_DATA0 0x53524F4D, .plain),
   (.read16 EXT_ROM_CTRL_STATUS, .rmw 1),
   (.write16 EXT_ROM_CTRL_STATUS 1, .rmw 1)]

/-- The steps of the disable sequence. -/
def disableSteps : List (Access × Tag) :=
  [(.read16 EXT_ROM_CTRL_STATUS, .bits 0x8000),
   (.read16 EXT_ROM_CTRL_STATUS, .rmw 1),
   (.write16 EXT_ROM_CTRL_STATUS 0, .rmw 1)]

/-- A device whose data registers can be read: a 32-bit read of DATA0 or DATA1
is complete. -/
def DataReady (dev : Device) : Prop :=
  ∀ h, 4 ≤ (dev h (.read32 EXT_DATA0)).1 ∧ 4 ≤ (dev h (.read32 EXT_DATA1)).1

/-- The steps of the download of `n` groups of 8 bytes on a ready device: for
each group lane 0, then lane 1. -/
def downloadLoopSteps : Nat → List (Access × Tag)
  | 0 => []
  | n + 1 => laneSteps 0 ++ laneSteps 1 ++ downloadLoopSteps n

/-- The dwords that the device delivered in the reads of the data registers. -/
def readData (evs : List Event) : List Nat :=
  evs.filterMap (fun e => if isDataRead e.step then some (e.data % 2 ^ 32) else none)

/-- The output of `n` groups when DATA0 always delivers `d0` and DATA1 `d1`. -/
def constOutput (d0 d1 : Nat) : Nat → List Nat
  | 0 => []
  | n + 1 => d0 % 2 ^ 32 :: d1 % 2 ^ 32 :: constOutput d0 d1 n

/-- The steps that prime the two get bits. -/
def primeSteps : List (Access × Tag) :=
  [(.read16 EXT_ROM_CTRL_STATUS, .rmw 0x400),
   (.write16 EXT_ROM_CTRL_STATUS 0x400, .rmw 0x400),
   (.read16 EXT_ROM_CTRL_STATUS, .rmw 0x800),
   (.write16 EXT_ROM_CTRL_STATUS 0x800, .rmw 0x800)]

/-! ## Simulated devices -/

/-- A device on which everything goes well at once: every transfer is complete,
the control registers read `0x8000` (EEPROM exists, result pending, lane bits
clear) on a 16-bit read and `0x8010` (result success) on a 32-bit read, and
the data registers expose `d0` and `d1`. -/
def simDev (d0 d1 : Nat) : Device := fun _ a =>
  match a with
  | .read16 _ => (2, 0x8000)
  | .write16 _ _ => (2, 0)
  | .read32 off => (4, if off = EXT_DATA0 then d0 else if off = EXT_DATA1 then d1 else 0x8010)
  | .write32 _ _ => (4, 0)

/-- A simulated device whose set-data0 bit never clears: every 16-bit read is
complete and delivers `0x100`. -/
def stuckDev : Device := fun _ _ => (2, 0x100)

/-- A simulated device like `simDev 0 0`, except that the 16-bit write of the
value `0x8400` (get bit 10 set) fails. -/
def primeFailDev : Device := fun _ a =>
  match a with
  | .read16 _ => (2, 0x8000)
  | .write16 _ v => (if v = 0x8400 then -1 else 2, 0)
  | .read32 _ => (4, 0)
  | .write32 _ _ => (4, 0)

/-- A simulated device whose 16-bit reads are short: each transfers one byte,
`0xFF`, and returns 1; every other access is complete. -/
def shortDev : Device := fun _ a =>
  match a with
  | .read16 _ => (1, 0xFF)
  | .write16 _ _ => (2, 0)
  | .read32 _ => (4, 0)
  | .write32 _ _ => (4, 0)

/-- The content of the 16-bit register at offset `off` after the accesses `h`,
when the register is plain memory that held `cur` before them: the value of
the last 16-bit write to `off`, or `cur` when there is none. -/
def regValue (off cur : Nat) (h : Trace) : Nat :=
  h.foldl (fun c e =>
    match e.acc with
    | .write16 o v => if o = off then v % 2 ^ 16 else c
    | _ => c) (cur % 2 ^ 16)

/-- A device whose 16-bit registers are plain memory: a 16-bit read of `off` is
complete and delivers the last value written to `off` (`init off` before the
first write), and every write succeeds. -/
def memDev (init : Nat → Nat) : Device := fun h a =>
  match a with
  | .read16 off => (2, regValue off (init off) h)
  | .write16 _ _ => (2, 0)
  | .read32 _ => (4, 0)
  | .write32 _ _ => (4, 0)

/-- A simulated device without EEPROM on which no access fails: every transfer
is complete and every read delivers 0, so the exists bit reads 0. -/
def absentDev : Device := fun _ a =>
  match a with
  | .read16 _ => (2, 0)
  | .write16 _ _ => (2, 0)
  | .read32 _ => (4, 0)
  | .write32 _ _ => (4, 0)

/-- The content of the local `reg` of `external_rom_access` after the polls
`polls`, when it held `reg` before them: each read replaces the bytes it
transferred and leaves the others. -/
def regAfter (reg : Nat) (polls : List Event) : Nat :=
  polls.foldl (fun c e => storeBytes 2 e.rc c e.data) reg

/-- The offset at which an access is made. -/
def Access.off : Access → Nat
  | .read16 off => off
  | .write16 off _ => off
  | .read32 off => off
  | .write32 off _ => off

/-- The accesses open to the firmware upload of a file with dwords `ds`: a
16-bit read or write and a 32-bit read of the firmware control register
0xF4, and a 32-bit write of one of the `ds` to DATA0 or DATA1. -/
def isFirmwareAccess (ds : List Nat) (a : Access) : Bool :=
  match a with
  | .read16 off => off = EXT_FW_DLOAD_CTRL_STATUS
  | .write16 off _ => off = EXT_FW_DLOAD_CTRL_STATUS
  | .read32 off => off = EXT_FW_DLOAD_CTRL_STATUS
  | .write32 off v => (off = EXT_DATA0 || off = EXT_DATA1) && decide (v ∈ ds)

/-- An access, of any width, at one of the two data registers. -/
def isDataAccess (a : Access) : Bool :=
  a.off = EXT_DATA0 || a.off = EXT_DATA1

/-- The write that sets the access-enable bit: the masked write of bit 0 of the
ROM control register with value 1. -/
def isSetEnable (s : Access × Tag) : Bool :=
  s = (.write16 EXT_ROM_CTRL_STATUS 1, .rmw 1)

/-- In `evs`, every access of a data register either is the write of the magic
value that comes directly after the existence check at the start of `evs`, or
comes after a successful write that sets the access-enable bit; and no access of
a data register comes after a write that clears the access-enable bit. -/
def GateOrdered (evs : List Event) : Prop :=
  ∀ pre e post, evs = pre ++ e :: post → isDataAccess e.acc = true →
    ((pre.map Event.step = [(.read16 EXT_ROM_CTRL_STATUS, .bits 0x8000)] ∧
        e.step = (.write32 EXT_DATA0 0x53524F4D, .plain)) ∨
      ∃ s ∈ pre, isSetEnable s.step = true ∧ 0 ≤ s.rc) ∧
    ∀ s ∈ pre, isClearEnable EXT_ROM_CTRL_STATUS s.step = false

/-- A poll of a get bit: the read that `read_bit` makes of bit 10 or of bit 11
of the ROM control register. -/
def isGetPoll (s : Access × Tag) : Bool :=
  s = (.read16 EXT_ROM_CTRL_STATUS, .bits 0x400) || s = (.read16 EXT_ROM_CTRL_STATUS, .bits 0x800)

/-- A poll of the result field by the enable sequence: a direct 16-bit read of
the ROM control register. -/
def isResultPoll (s : Access × Tag) : Bool :=
  s = (.read16 EXT_ROM_CTRL_STATUS, .plain)

/-- The content of the local `status` of `test_upload_result` after the polls
`polls`, when it held `status` before them: a failed read (negative count)
leaves `0xFFFFFFFF`, any other read replaces the bytes it transferred and
leaves the others. -/
def statusAfter (status : Nat) (polls : List Event) : Nat :=
  polls.foldl (fun c e => if e.rc < 0 then 0xFFFFFFFF else storeBytes 4 e.rc c e.data) status

/-- A simulated device whose 32-bit reads transfer nothing: each returns 0 and
delivers no byte; every other access is complete. -/
def noDataDev : Device := fun _ a =>
  match a with
  | .read16 _ => (2, 0x8000)
  | .write16 _ _ => (2, 0)
  | .read32 _ => (0, 0)
  | .write32 _ _ => (4, 0)

/-- A simulated device on which the EEPROM exists and no write fails, but whose
16-bit reads fail once a 16-bit write was made: a 16-bit read is complete and
delivers `0x8000` while the history holds no 16-bit write, and returns -1,
transferring nothing, afterwards. -/
def pollFailDev : Device := fun h a =>
  match a with
  | .read16 _ =>
    if h.any (fun e => match e.acc with
      | .write16 _ _ => true
      | _ => false) then (-1, 0xFFFF) else (2, 0x8000)
  | .write16 _ _ => (2, 0)
  | .read32 _ => (4, 0)
  | .write32 _ _ => (4, 0)

/-! ## Bit-level facts -/

theorem and_one_shiftLeft_eq_zero (x b : Nat) :
    x &&& (1 <<< b) = 0 ↔ x.testBit b = false := by
  rw [Nat.one_shiftLeft]
  constructor
  · intro h
    have := congrArg (fun t => t.testBit b) h
    simpa using this
  · intro h
    apply Nat.eq_of_testBit_eq
    intro i
    simp only [Nat.testBit_and, Nat.testBit_two_pow, Nat.zero_testBit]
    by_cases hb : b = i
    · subst hb; simp [h]
    · simp [hb]

theorem storeBytes_two_testBit (rc : Int) (old d i : Nat) (hrc : 2 ≤ rc) (hi : i < 16) :
    (storeBytes 2 rc old d).testBit i = d.testBit i := by
  have hn : min rc.toNat 2 = 2 := by omega
  simp only [storeBytes, hn, Nat.testBit_mod_two_pow, Nat.testBit_or, Nat.testBit_shiftLeft]
  have h1 : i < 32 := by omega
  have h2 : ¬ (i ≥ 8 * 2) := by omega
  simp [h1, h2, hi]

theorem storeBytes_four (rc : Int) (old d : Nat) (hrc : 4 ≤ rc) :
    storeBytes 4 rc old d = d % 2 ^ 32 := by
  have hn : min rc.toNat 4 = 4 := by omega
  apply Nat.eq_of_testBit_eq
  intro i
  simp only [storeBytes, hn, Nat.testBit_mod_two_pow, Nat.testBit_or, Nat.testBit_shiftLeft]
  by_cases h1 : i < 32
  · have h2 : ¬ (i ≥ 8 * 4) := by omega
    simp [h1, h2]
  · simp [h1]

theorem testBit_ffffffff (i : Nat) : Nat.testBit 0xFFFFFFFF i = decide (i < 32) := by
  have h := Nat.testBit_two_pow_sub_one 32 i
  have e : (2 : Nat) ^ 32 - 1 = 0xFFFFFFFF := by norm_num
  rw [e] at h
  exact h

theorem testBit_eq_false_of_lt (m i n : Nat) (hm : m < 2 ^ n) (hi : n ≤ i) :
    m.testBit i = false := by
  apply Nat.testBit_lt_two_pow
  calc m < 2 ^ n := hm
    _ ≤ 2 ^ i := Nat.pow_le_pow_right (by norm_num) hi

theorem rmw_and_mask (val value m : Nat) (hm : m < 2 ^ 16) :
    (((val &&& (m ^^^ 0xFFFFFFFF)) ||| (value &&& m)) % 2 ^ 16) &&& m = value &&& m := by
  apply Nat.eq_of_testBit_eq
  intro i
  simp only [Nat.testBit_and, Nat.testBit_mod_two_pow, Nat.testBit_or, Nat.testBit_xor,
    testBit_ffffffff]
  by_cases hi : i < 16
  · have h32 : i < 32 := by omega
    cases hmi : m.testBit i <;> simp [hi, h32]
  · have : m.testBit i = false := testBit_eq_false_of_lt m i 16 hm (by omega)
    simp [this]

theorem mod_and_small (d m : Nat) (hm : m < 2 ^ 32) : d % 2 ^ 32 &&& m = d &&& m := by
  apply Nat.eq_of_testBit_eq
  intro i
  simp only [Nat.testBit_and, Nat.testBit_mod_two_pow]
  by_cases hi : i < 32
  · simp [hi]
  · have : m.testBit i = false := testBit_eq_false_of_lt m i 32 hm (by omega)
    simp [this]

theorem lastStatus_cons_cons (s t : Nat) (e0 a : Event) (l : List Event) :
    lastStatus s (e0 :: a :: l) = lastStatus t (a :: l) := by
  unfold lastStatus
  rw [List.getLast?_cons_cons]
  cases h : (a :: l).getLast? with
  | none => simp at h
  | some e => rfl

theorem test_upload_poll_spec (dev : Device) (ctrl : Nat)
    (hfull : ∀ h, (dev h (.read32 ctrl)).1 < 0 ∨ 4 ≤ (dev h (.read32 ctrl)).1) :
    ∀ (n status : Nat) (tr : Trace),
      ∃ evs, (test_upload_poll dev ctrl n status tr).2 = tr ++ evs ∧ evs.length ≤ n ∧
        (∀ e ∈ evs, e.acc = .read32 ctrl ∧ e.tag = .plain) ∧
        (test_upload_poll dev ctrl n status tr).1 = lastStatus status evs ∧
        ((∃ e, evs.getLast? = some e ∧ 0 ≤ e.rc ∧ e.data &&& 0x70 = 0x10) ∨
          (evs.length = n ∧ ∀ e ∈ evs, ¬ (0 ≤ e.rc ∧ e.data &&& 0x70 = 0x10))) := by
  intro n
  induction n with
  | zero =>
    intro status tr
    exact ⟨[], by simp [test_upload_poll], by simp, by simp, by simp [test_upload_poll, lastStatus],
      Or.inr (by simp)⟩
  | succ n ih =>
    intro status tr
    rw [test_upload_poll]
    simp only [pci_cfg_read32]
    have hf := hfull tr
    rcases hdev : dev tr (.read32 ctrl) with ⟨rc, d⟩
    rw [hdev] at hf
    simp only at hf ⊢
    have step : ∀ st, (∃ evs, (test_upload_poll dev ctrl n st (tr ++ [⟨.read32 ctrl, rc, d, .plain⟩])).2
          = tr ++ evs ∧ evs.length ≤ n + 1 ∧
        (∀ e ∈ evs, e.acc = .read32 ctrl ∧ e.tag = .plain) ∧
        (test_upload_poll dev ctrl n st (tr ++ [⟨.read32 ctrl, rc, d, .plain⟩])).1 =
          lastStatus st (evs.drop 1) ∧ evs.head? = some ⟨.read32 ctrl, rc, d, .plain⟩ ∧
        ((∃ e, (evs.drop 1).getLast? = some e ∧ 0 ≤ e.rc ∧ e.data &&& 0x70 = 0x10) ∨
          (evs.length = n + 1 ∧ ∀ e ∈ evs.drop 1, ¬ (0 ≤ e.rc ∧ e.data &&& 0x70 = 0x10)))) := by
      intro st
      obtain ⟨evs, h1, h2, h3, h4, h5⟩ := ih st (tr ++ [⟨.read32 ctrl, rc, d, .plain⟩])
      refine ⟨⟨.read32 ctrl, rc, d, .plain⟩ :: evs, by rw [h1]; simp, by simp; omega, ?_, by simpa using h4,
        by simp, ?_⟩
      · intro e he
        rcases List.mem_cons.1 he with rfl | he
        · simp
        · exact h3 e he
      · rcases h5 with h | ⟨hl, hall⟩
        · left; simpa using h
        · right; exact ⟨by simp [hl], by simpa using hall⟩
    have last_cons : ∀ (e0 : Event) (l : List Event) (e : Event), l.getLast? = some e →
        (e0 :: l).getLast? = some e := by
      intro e0 l e h
      cases l with
      | nil => simp at h
      | cons a l => simpa [List.getLast?_cons_cons] using h
    rcases hf with hneg | hok
    · rw [if_pos hneg]
      obtain ⟨evs, h1, h2, h3, h4, hh, h5⟩ := step 0xFFFFFFFF
      cases evs with
      | nil => simp at hh
      | cons e0 l =>
        simp only [List.head?_cons, Option.some.injEq] at hh
        subst hh
        simp only [List.drop_succ_cons, List.drop_zero] at h4 h5
        refine ⟨_, h1, h2, h3, ?_, ?_⟩
        · rw [h4]
          cases l with
          | nil => simp [lastStatus, hneg]
          | cons a l => exact (lastStatus_cons_cons _ _ _ _ _).symm
        · rcases h5 with ⟨e, he, hh⟩ | ⟨hl, hall⟩
          · exact Or.inl ⟨e, last_cons _ _ _ he, hh⟩
          · right
            refine ⟨hl, ?_⟩
            intro e he
            rcases List.mem_cons.1 he with rfl | he
            · simp; intro h0; omega
            · exact hall e he
    · have hnn : ¬ rc < 0 := by omega
      rw [if_neg hnn, storeBytes_four _ _ _ hok, mod_and_small _ _ (by norm_num)]
      by_cases hs : d &&& RESULT_BITMASK = RESULT_SUCCESS
      · rw [if_pos hs]
        refine ⟨[⟨.read32 ctrl, rc, d, .plain⟩], rfl, by simp, by simp, ?_, Or.inl ⟨_, rfl, ?_, hs⟩⟩
        · simp [lastStatus, hnn]
        · simp; omega
      · rw [if_neg hs]
        obtain ⟨evs, h1, h2, h3, h4, hh, h5⟩ := step (d % 2 ^ 32)
        cases evs with
        | nil => simp at hh
        | cons e0 l =>
          simp only [List.head?_cons, Option.some.injEq] at hh
          subst hh
          simp only [List.drop_succ_cons, List.drop_zero] at h4 h5
          refine ⟨_, h1, h2, h3, ?_, ?_⟩
          · rw [h4]
            cases l with
            | nil => simp [lastStatus, hnn]
            | cons a l => exact (lastStatus_cons_cons _ _ _ _ _).symm
          · rcases h5 with ⟨e, he, hh⟩ | ⟨hl, hall⟩
            · exact Or.inl ⟨e, last_cons _ _ _ he, hh⟩
            · right
              refine ⟨hl, ?_⟩
              intro e he
              rcases List.mem_cons.1 he with rfl | he
              · simp; intro _; exact hs
              · exact hall e he

theorem read_bit_eq (dev : Device) (reg bit old : Nat) (tr : Trace) :
    read_bit dev reg bit old tr =
      ((dev tr (.read16 reg)).1,
       storeBytes 2 (dev tr (.read16 reg)).1 old (dev tr (.read16 reg)).2 &&& (1 <<< bit),
       tr ++ [⟨.read16 reg, (dev tr (.read16 reg)).1, (dev tr (.read16 reg)).2, .bits (1 <<< bit)⟩]) :=
  rfl

theorem read_bit_status_zero (rc : Int) (old d bit : Nat) (hbit : bit < 16) (hrc : 2 ≤ rc) :
    storeBytes 2 rc old d &&& (1 <<< bit) = 0 ↔ d.testBit bit = false := by
  rw [and_one_shiftLeft_eq_zero, storeBytes_two_testBit rc old d bit hrc hbit]

theorem poll_bit_zero_spec (dev : Device) (reg bit : Nat) (hbit : bit < 16) :
    ∀ (n status : Nat) (tr : Trace),
      ∃ polls, (poll_bit_zero dev reg bit n status tr).2.2 = tr ++ polls ∧ polls.length ≤ n ∧
        (∀ e ∈ polls, e.acc = .read16 reg ∧ e.tag = .bits (1 <<< bit)) ∧
        (((poll_bit_zero dev reg bit n status tr).1 = false ∧ polls.length = n ∧
            ∀ e ∈ polls, ¬ e.showsClear bit) ∨
          ((poll_bit_zero dev reg bit n status tr).1 = true ∧
            ∃ init h, polls = init ++ [h] ∧ 0 ≤ h.rc ∧ (2 ≤ h.rc → h.data.testBit bit = false) ∧
              ∀ e ∈ init, ¬ e.showsClear bit)) := by
  intro n
  induction n with
  | zero =>
    intro status tr
    exact ⟨[], by simp [poll_bit_zero], by simp, by simp, Or.inl (by simp [poll_bit_zero])⟩
  | succ n ih =>
    intro status tr
    rw [poll_bit_zero, read_bit_eq]
    rcases hdev : dev tr (.read16 reg) with ⟨rc, d⟩
    simp only
    by_cases hhit : rc ≥ 0 ∧ storeBytes 2 rc status d &&& (1 <<< bit) = 0
    · rw [if_pos hhit]
      refine ⟨[⟨.read16 reg, rc, d, .bits (1 <<< bit)⟩], rfl, by simp, by simp, Or.inr ⟨rfl, [], _, rfl, hhit.1, ?_, by simp⟩⟩
      intro h2
      exact (read_bit_status_zero rc status d bit hbit h2).1 hhit.2
    · rw [if_neg hhit]
      obtain ⟨polls, h1, h2, h3, h4⟩ := ih (storeBytes 2 rc status d &&& (1 <<< bit))
        (tr ++ [⟨.read16 reg, rc, d, .bits (1 <<< bit)⟩])
      have hmiss : ¬ (⟨.read16 reg, rc, d, .bits (1 <<< bit)⟩ : Event).showsClear bit := by
        intro hc
        apply hhit
        have h2 : (2 : Int) ≤ rc := hc.1
        exact ⟨by omega, (read_bit_status_zero rc status d bit hbit h2).2 hc.2⟩
      refine ⟨⟨.read16 reg, rc, d, .bits (1 <<< bit)⟩ :: polls, by rw [h1]; simp, by simp; omega, ?_, ?_⟩
      · intro e he
        rcases List.mem_cons.1 he with rfl | he
        · simp
        · exact h3 e he
      · rcases h4 with ⟨hf, hl, hall⟩ | ⟨hf, init, h, hp, hh1, hh2, hall⟩
        · left
          refine ⟨hf, by simp [hl], ?_⟩
          intro e he
          rcases List.mem_cons.1 he with rfl | he
          · exact hmiss
          · exact hall e he
        · right
          refine ⟨hf, ⟨.read16 reg, rc, d, .bits (1 <<< bit)⟩ :: init, h, by rw [hp]; simp, hh1, hh2, ?_⟩
          intro e he
          rcases List.mem_cons.1 he with rfl | he
          · exact hmiss
          · exact hall e he

theorem step_read16 (off : Nat) (rc : Int) (d : Nat) (t : Tag) :
    (⟨.read16 off, rc, d, t⟩ : Event).step = (.read16 off, t) := rfl

theorem step_read32 (off : Nat) (rc : Int) (d : Nat) (t : Tag) :
    (⟨.read32 off, rc, d, t⟩ : Event).step = (.read32 off, t) := rfl

theorem step_write32 (off v : Nat) (rc : Int) (d : Nat) (t : Tag) :
    (⟨.write32 off v, rc, d, t⟩ : Event).step = (.write32 off v, t) := rfl

theorem step_write16_rmw (off v m : Nat) (rc : Int) (d : Nat) :
    (⟨.write16 off v, rc, d, .rmw m⟩ : Event).step = (.write16 off (v &&& m), .rmw m) := rfl

theorem DATAREG_eq (i : Nat) : DATAREG i = if i % 2 = 0 then EXT_DATA0 else EXT_DATA1 := by
  unfold DATAREG
  rw [Nat.and_one_is_mod]
  rcases Nat.mod_two_eq_zero_or_one i with h | h <;> simp [h]

/-- Any run of `write_bitmask`: the read, then (unless the read failed) the
write of the masked bits; the return value is non-negative only in the second
case. -/
theorem write_bitmask_spec (dev : Device) (u reg m value : Nat) (tr : Trace) (hm : m < 2 ^ 16) :
    ∃ sig, (write_bitmask dev u reg m value tr).2 = tr ++ sig ∧
      ((sig.map Event.step = [(.read16 reg, .rmw m)] ∧ (write_bitmask dev u reg m value tr).1 < 0) ∨
        (sig.map Event.step = [(.read16 reg, .rmw m), (.write16 reg (value &&& m), .rmw m)] ∧
          ∃ s, sig.getLast? = some s ∧ (write_bitmask dev u reg m value tr).1 = s.rc)) := by
  unfold write_bitmask pci_cfg_read16 pci_cfg_write16
  rcases hdev : dev tr (.read16 reg) with ⟨rc, d⟩
  simp only
  by_cases h : rc ≥ 0
  · rw [if_pos h]
    refine ⟨[⟨.read16 reg, rc, d, .rmw m⟩,
      ⟨.write16 reg (((storeBytes 2 rc u d &&& (m ^^^ 0xFFFFFFFF)) ||| (value &&& m)) % 2 ^ 16),
        (dev (tr ++ [⟨.read16 reg, rc, d, .rmw m⟩]) (.write16 reg
          (((storeBytes 2 rc u d &&& (m ^^^ 0xFFFFFFFF)) ||| (value &&& m)) % 2 ^ 16))).1, 0, .rmw m⟩],
      by simp, Or.inr ⟨?_, _, rfl, ?_⟩⟩
    · simp only [List.map_cons, List.map_nil, step_read16, step_write16_rmw,
        rmw_and_mask _ _ _ hm]
    · simp
  · rw [if_neg h]
    exact ⟨[⟨.read16 reg, rc, d, .rmw m⟩], rfl, Or.inl ⟨rfl, by simpa using h⟩⟩

theorem one_shiftLeft_lt (b : Nat) (hb : b < 16) : 1 <<< b < 2 ^ 16 := by
  rw [Nat.one_shiftLeft]
  exact Nat.pow_lt_pow_right (by norm_num) hb

theorem write_bit_one_value (b : Nat) (hb : b < 16) :
    ((1 <<< b) % 2 ^ 32) &&& (1 <<< b) = 1 <<< b := by
  rw [Nat.mod_eq_of_lt, Nat.and_self]
  calc 1 <<< b < 2 ^ 16 := one_shiftLeft_lt b hb
    _ < 2 ^ 32 := by norm_num

theorem write_bit_zero_value (b : Nat) : ((0 <<< b) % 2 ^ 32) &&& (1 <<< b) = 0 := by
  simp

/-- Any run of `write_bit` with value 1. -/
theorem write_bit_one_spec (dev : Device) (u reg b : Nat) (tr : Trace) (hb : b < 16) :
    ∃ sig, (write_bit dev u reg b 1 tr).2 = tr ++ sig ∧
      ((sig.map Event.step = [(.read16 reg, .rmw (1 <<< b))] ∧ (write_bit dev u reg b 1 tr).1 < 0) ∨
        (sig.map Event.step =
            [(.read16 reg, .rmw (1 <<< b)), (.write16 reg (1 <<< b), .rmw (1 <<< b))] ∧
          ∃ s, sig.getLast? = some s ∧ (write_bit dev u reg b 1 tr).1 = s.rc)) := by
  have h := write_bitmask_spec dev u reg (1 <<< b) ((1 <<< b) % 2 ^ 32) tr (one_shiftLeft_lt b hb)
  rw [write_bit_one_value b hb] at h
  exact h

/-- Any run of `write_bit` with value 0. -/
theorem write_bit_zero_spec (dev : Device) (u reg b : Nat) (tr : Trace) (hb : b < 16) :
    ∃ sig, (write_bit dev u reg b 0 tr).2 = tr ++ sig ∧
      ((sig.map Event.step = [(.read16 reg, .rmw (1 <<< b))] ∧ (write_bit dev u reg b 0 tr).1 < 0) ∨
        (sig.map Event.step =
            [(.read16 reg, .rmw (1 <<< b)), (.write16 reg 0, .rmw (1 <<< b))] ∧
          ∃ s, sig.getLast? = some s ∧ (write_bit dev u reg b 0 tr).1 = s.rc)) := by
  have h := write_bitmask_spec dev u reg (1 <<< b) ((0 <<< b) % 2 ^ 32) tr (one_shiftLeft_lt b hb)
  rw [write_bit_zero_value b] at h
  exact h

theorem step_of_read16 (e : Event) (off : Nat) (t : Tag) (h1 : e.acc = .read16 off) (h2 : e.tag = t) :
    e.step = (.read16 off, t) := by
  cases e with
  | mk acc rc data tag =>
    simp only at h1 h2
    subst h1 h2
    rfl

/-- Any run of the body of the loop of `do_upload`, for counter `i` and dword
`val`: polls of the lane bit, then (when a poll found the bit clear) the write
of the data register and an initial part of the signal steps, all of them when
the body returns 0. -/
theorem do_upload_body_spec (dev : Device) (u ctrl i status val : Nat) (tr : Trace)
    (hval : val < 2 ^ 32) :
    ∃ polls tail, (do_upload_body dev u ctrl i status val tr).2.2 = tr ++ (polls ++ tail) ∧
      (∀ e ∈ polls, e.step = (.read16 ctrl, .bits (1 <<< (8 + i % 2)))) ∧
      (((do_upload_body dev u ctrl i status val tr).1 = -1 ∧ tail = [] ∧
          polls.length = LOOPNB ∧ ∀ e ∈ polls, ¬ e.showsClear (8 + i % 2)) ∨
        ((∃ init h, polls = init ++ [h] ∧ init.length < LOOPNB ∧ 0 ≤ h.rc ∧
            (2 ≤ h.rc → h.data.testBit (8 + i % 2) = false) ∧
            ∀ e ∈ init, ¬ e.showsClear (8 + i % 2)) ∧
          ∃ w sig, tail = w :: sig ∧
            w.step = (.write32 (if i % 2 = 0 then EXT_DATA0 else EXT_DATA1) val, .plain) ∧
            ((do_upload_body dev u ctrl i status val tr).1 = 0 ∨
              (do_upload_body dev u ctrl i status val tr).1 = -1) ∧
            ((do_upload_body dev u ctrl i status val tr).1 = 0 →
              sig.map Event.step = signalSteps ctrl i) ∧
            ∃ k, sig.map Event.step = (signalSteps ctrl i).take k)) := by
  have hbit : 8 + i % 2 < 16 := by omega
  unfold do_upload_body
  simp only [Nat.and_one_is_mod, DATAREG_eq, Nat.mod_mod]
  obtain ⟨polls, hp1, hp2, hp3, hp4⟩ :=
    poll_bit_zero_spec dev ctrl (8 + i % 2) hbit LOOPNB status tr
  have hpstep : ∀ e ∈ polls, e.step = (.read16 ctrl, .bits (1 <<< (8 + i % 2))) :=
    fun e he => step_of_read16 e _ _ (hp3 e he).1 (hp3 e he).2
  rcases hp4 with ⟨hf, hl, hall⟩ | ⟨hf, init, h, hpi, hh1, hh2, hall⟩
  · rw [if_pos hf]
    exact ⟨polls, [], by simpa using hp1, hpstep, Or.inl ⟨rfl, rfl, hl, hall⟩⟩
  · have hf' : ¬ (poll_bit_zero dev ctrl (ROM_SET_DATA0 + i % 2) LOOPNB status tr).1 = false := by
      simp [hf]
    rw [if_neg hf']
    have hinit : init.length < LOOPNB := by
      rw [hpi] at hp2
      simp at hp2
      omega
    have hv : val % 2 ^ 32 = val := Nat.mod_eq_of_lt hval
    simp only [pci_cfg_write32, hp1, hv]
    set tr1 := tr ++ polls with htr1
    set w : Event := ⟨.write32 (if i % 2 = 0 then EXT_DATA0 else EXT_DATA1) val,
      (dev tr1 (.write32 (if i % 2 = 0 then EXT_DATA0 else EXT_DATA1) val)).1, 0, .plain⟩ with hw
    have hwstep : w.step = (.write32 (if i % 2 = 0 then EXT_DATA0 else EXT_DATA1) val, .plain) := rfl
    by_cases hwrc : w.rc < 0
    · rw [if_pos hwrc]
      refine ⟨polls, [w], by simp [htr1], hpstep, Or.inr ⟨⟨init, h, hpi, hinit, hh1, hh2, hall⟩,
        w, [], rfl, hwstep, Or.inr rfl, by simp, 0, by simp⟩⟩
    · rw [if_neg hwrc]
      by_cases hi1 : i = 1
      · rw [if_pos hi1]
        obtain ⟨sig, hs1, hs2⟩ := write_bitmask_spec dev u ctrl
          ((1 <<< ROM_SET_DATA0) ||| (1 <<< ROM_SET_DATA1))
          ((1 <<< ROM_SET_DATA0) ||| (1 <<< ROM_SET_DATA1)) (tr1 ++ [w]) (by decide)
        have hmask : (1 <<< ROM_SET_DATA0) ||| (1 <<< ROM_SET_DATA1) = 0x300 := by decide
        rw [hmask] at hs1 hs2
        simp only [hmask, Nat.and_self]
        simp only [Nat.and_self] at hs2
        have hsig : signalSteps ctrl i =
            [(.read16 ctrl, .rmw 0x300), (.write16 ctrl 0x300, .rmw 0x300)] := by
          simp [signalSteps, hi1]
        rcases hs2 with ⟨hm, hneg⟩ | ⟨hm, s, _, hrc⟩
        · rw [if_pos hneg]
          refine ⟨polls, w :: sig, by rw [hs1]; simp [htr1], hpstep,
            Or.inr ⟨⟨init, h, hpi, hinit, hh1, hh2, hall⟩, w, sig, rfl, hwstep, Or.inr rfl,
              by simp, 1, by rw [hm, hsig]; rfl⟩⟩
        · split
          · refine ⟨polls, w :: sig, by rw [hs1]; simp [htr1], hpstep,
              Or.inr ⟨⟨init, h, hpi, hinit, hh1, hh2, hall⟩, w, sig, rfl, hwstep, Or.inr rfl,
                by simp, 2, by rw [hm, hsig]; rfl⟩⟩
          · refine ⟨polls, w :: sig, by rw [hs1]; simp [htr1], hpstep,
              Or.inr ⟨⟨init, h, hpi, hinit, hh1, hh2, hall⟩, w, sig, rfl, hwstep, Or.inl rfl,
                by intro _; rw [hm, hsig], 2, by rw [hm, hsig]; rfl⟩⟩
      · rw [if_neg hi1]
        by_cases hi2 : i > 1
        · rw [if_pos hi2]
          obtain ⟨sig, hs1, hs2⟩ := write_bit_one_spec dev u ctrl (ROM_SET_DATA0 + i % 2)
            (tr1 ++ [w]) hbit
          have hsig : signalSteps ctrl i =
              [(.read16 ctrl, .rmw (1 <<< (8 + i % 2))),
               (.write16 ctrl (1 <<< (8 + i % 2)), .rmw (1 <<< (8 + i % 2)))] := by
            simp [signalSteps, hi1, hi2]
          rcases hs2 with ⟨hm, hneg⟩ | ⟨hm, s, _, hrc⟩
          · rw [if_pos hneg]
            refine ⟨polls, w :: sig, by rw [hs1]; simp [htr1], hpstep,
              Or.inr ⟨⟨init, h, hpi, hinit, hh1, hh2, hall⟩, w, sig, rfl, hwstep, Or.inr rfl,
                by simp, 1, by rw [hm, hsig]; rfl⟩⟩
          · split
            · refine ⟨polls, w :: sig, by rw [hs1]; simp [htr1], hpstep,
                Or.inr ⟨⟨init, h, hpi, hinit, hh1, hh2, hall⟩, w, sig, rfl, hwstep, Or.inr rfl,
                  by simp, 2, by rw [hm, hsig]; rfl⟩⟩
            · refine ⟨polls, w :: sig, by rw [hs1]; simp [htr1], hpstep,
                Or.inr ⟨⟨init, h, hpi, hinit, hh1, hh2, hall⟩, w, sig, rfl, hwstep, Or.inl rfl,
                  by intro _; rw [hm, hsig], 2, by rw [hm, hsig]; rfl⟩⟩
        · rw [if_neg hi2]
          have hsig : signalSteps ctrl i = [] := by
            simp [signalSteps, hi1, hi2]
          refine ⟨polls, [w], by simp [htr1], hpstep,
            Or.inr ⟨⟨init, h, hpi, hinit, hh1, hh2, hall⟩, w, [], rfl, hwstep, Or.inl rfl,
              by intro _; rw [hsig]; rfl, 0, by simp⟩⟩

theorem le32_lt (b0 b1 b2 b3 : Nat) : le32 b0 b1 b2 b3 < 2 ^ 32 := by
  unfold le32
  omega

/-- Induction over an image file, four bytes at a time. -/
theorem four_bytes_induction {P : List Nat → Prop} (h0 : P [])
    (h1 : ∀ a, P [a]) (h2 : ∀ a b, P [a, b]) (h3 : ∀ a b c, P [a, b, c])
    (h4 : ∀ a b c d rest, P rest → P (a :: b :: c :: d :: rest)) : ∀ l, P l
  | [] => h0
  | [a] => h1 a
  | [a, b] => h2 a b
  | [a, b, c] => h3 a b c
  | a :: b :: c :: d :: rest => h4 a b c d rest (four_bytes_induction h0 h1 h2 h3 h4 rest)

theorem do_upload_loop_cons (dev : Device) (u ctrl b0 b1 b2 b3 : Nat) (rest : List Nat)
    (i status : Nat) (tr : Trace) :
    do_upload_loop dev u ctrl (b0 :: b1 :: b2 :: b3 :: rest) i status tr =
      if (do_upload_body dev u ctrl i status (le32 b0 b1 b2 b3) tr).1 < 0 then
        (-1, (do_upload_body dev u ctrl i status (le32 b0 b1 b2 b3) tr).2.2)
      else do_upload_loop dev u ctrl rest ((i + 1) % 2 ^ 32)
        (do_upload_body dev u ctrl i status (le32 b0 b1 b2 b3) tr).2.1
        (do_upload_body dev u ctrl i status (le32 b0 b1 b2 b3) tr).2.2 := by
  rw [do_upload_loop]

theorem signalSteps_filter (ctrl i : Nat) :
    (signalSteps ctrl i).filter (fun s => !isPollStep s) = signalSteps ctrl i := by
  unfold signalSteps
  split
  · rfl
  · split <;> rfl

theorem polls_filter (polls : List Event) (a : Access) (m : Nat)
    (h : ∀ e ∈ polls, e.step = (a, .bits m)) :
    (polls.map Event.step).filter (fun s => !isPollStep s) = [] := by
  rw [List.filter_eq_nil_iff]
  intro s hs
  obtain ⟨e, he, rfl⟩ := List.mem_map.1 hs
  rw [h e he]
  simp [isPollStep]

/-- C5. When the 16-bit read of the ROM control register (0xF6) is complete and
shows the exists bit (bit 15) as 0, `external_rom_access(fd, true)` returns -1
and the trace grows by that single read: no write is made, neither of the
magic value to DATA0 nor of the access-enable bit. -/
theorem C5_enable_not_present (dev : Device) (u : Nat) (tr : Trace) (rc : Int) (d : Nat)
    (hdev : dev tr (.read16 EXT_ROM_CTRL_STATUS) = (rc, d)) (hrc : 2 ≤ rc)
    (hbit : d.testBit ROM_EXISTS = false) :
    external_rom_access dev u true tr =
        (-1, tr ++ [⟨.read16 EXT_ROM_CTRL_STATUS, rc, d, .bits (1 <<< ROM_EXISTS)⟩]) ∧
      ∀ e ∈ (external_rom_access dev u true tr).2.drop tr.length, e.isWrite = false := by
  have h0 : storeBytes 2 rc u d &&& (1 <<< ROM_EXISTS) = 0 :=
    (read_bit_status_zero rc u d ROM_EXISTS (by decide) hrc).2 hbit
  have hnn : ¬ rc < 0 := by omega
  have key : external_rom_access dev u true tr =
      (-1, tr ++ [⟨.read16 EXT_ROM_CTRL_STATUS, rc, d, .bits (1 <<< ROM_EXISTS)⟩]) := by
    unfold external_rom_access eeprom_exists
    rw [read_bit_eq, hdev]
    simp only [hnn, h0, if_true, if_false]
    simp
  refine ⟨key, ?_⟩
  rw [key]
  intro e he
  simp only [List.drop_left, List.mem_singleton] at he
  subst he
  rfl

/-- C5, at the simulated device whose control register reads 0 (no EEPROM). -/
theorem C5_enable_not_present_witness :
    external_rom_access (fun _ _ => (2, 0)) 0 true [] =
        (-1, [] ++ [⟨.read16 EXT_ROM_CTRL_STATUS, 2, 0, .bits (1 <<< ROM_EXISTS)⟩]) ∧
      ∀ e ∈ (external_rom_access (fun _ _ => (2, 0)) 0 true []).2.drop ([] : Trace).length,
        e.isWrite = false :=
  C5_enable_not_present (fun _ _ => (2, 0)) 0 [] 2 0 rfl (by decide) (by decide)

/-- The completion check on a device whose 32-bit reads of the control register
either fail or transfer their four bytes: between 1 and 100,000 polls and
nothing else; 0 is returned exactly when one of these polls succeeded with a
result field (`data & 0x70`) equal to `0x10`, and that poll is then the last
one; otherwise -1 is returned after exactly 100,000 polls.  The status
reported is that of the last poll: the value read, or `0xFFFFFFFF` when that
read failed. -/
theorem test_upload_result_complete (dev : Device) (u ctrl : Nat) (tr : Trace)
    (hfull : ∀ h, (dev h (.read32 ctrl)).1 < 0 ∨ 4 ≤ (dev h (.read32 ctrl)).1) :
    ∃ evs, (test_upload_result dev u ctrl tr).2.2 = tr ++ evs ∧
      1 ≤ evs.length ∧ evs.length ≤ LOOPNB ∧
      (∀ e ∈ evs, e.acc = .read32 ctrl) ∧
      ((test_upload_result dev u ctrl tr).1 = 0 ∨ (test_upload_result dev u ctrl tr).1 = -1) ∧
      ((test_upload_result dev u ctrl tr).1 = 0 ↔
        ∃ e ∈ evs, 0 ≤ e.rc ∧ e.data &&& RESULT_BITMASK = RESULT_SUCCESS) ∧
      ((test_upload_result dev u ctrl tr).1 = 0 →
        ∃ e, evs.getLast? = some e ∧ 0 ≤ e.rc ∧ e.data &&& RESULT_BITMASK = RESULT_SUCCESS) ∧
      ((test_upload_result dev u ctrl tr).1 = -1 → evs.length = LOOPNB) ∧
      (test_upload_result dev u ctrl tr).2.1 = lastStatus u evs := by
  obtain ⟨evs, h1, h2, h3, h4, h5⟩ := test_upload_poll_spec dev ctrl hfull LOOPNB u tr
  have hne : 1 ≤ evs.length := by
    rcases h5 with ⟨e, he, _⟩ | ⟨hl, _⟩
    · cases evs with
      | nil => simp at he
      | cons a l => simp
    · rw [hl]; decide
  -- the field of the reported status is that of the last poll
  have hfield : ∀ e, evs.getLast? = some e →
      (lastStatus u evs &&& RESULT_BITMASK = RESULT_SUCCESS ↔
        (0 ≤ e.rc ∧ e.data &&& RESULT_BITMASK = RESULT_SUCCESS)) := by
    intro e he
    unfold lastStatus
    rw [he]
    simp only
    by_cases hrc : e.rc < 0
    · rw [if_pos hrc]
      constructor
      · intro h; exact absurd h (by decide)
      · intro h; omega
    · rw [if_neg hrc, mod_and_small _ _ (by norm_num)]
      constructor
      · intro h; exact ⟨by omega, h⟩
      · intro h; exact h.2
  have hlast : ∃ e, evs.getLast? = some e := by
    cases hev : evs.getLast? with
    | none =>
      rw [List.getLast?_eq_none_iff] at hev
      rw [hev] at hne
      simp at hne
    | some e => exact ⟨e, rfl⟩
  obtain ⟨el, hel⟩ := hlast
  have hmem : el ∈ evs := List.mem_of_getLast?_eq_some hel
  have hres : (test_upload_result dev u ctrl tr).1 =
      if lastStatus u evs &&& RESULT_BITMASK ≠ RESULT_SUCCESS then -1 else 0 := by
    unfold test_upload_result
    simp only [h4]
    split <;> rfl
  have hstat : (test_upload_result dev u ctrl tr).2.1 = lastStatus u evs := by
    unfold test_upload_result
    simp only [h4]
    split <;> rfl
  have htr : (test_upload_result dev u ctrl tr).2.2 = tr ++ evs := by
    unfold test_upload_result
    simp only [h1]
    split <;> rfl
  refine ⟨evs, htr, hne, h2, fun e he => (h3 e he).1, ?_, ?_, ?_, ?_, hstat⟩
  · rw [hres]; split
    · right; rfl
    · left; rfl
  · rw [hres]
    constructor
    · intro h
      by_cases hs : lastStatus u evs &&& RESULT_BITMASK = RESULT_SUCCESS
      · exact ⟨el, hmem, (hfield el hel).1 hs⟩
      · rw [if_pos hs] at h; exact absurd h (by decide)
    · rintro ⟨e, he, hok⟩
      rcases h5 with ⟨e', he', hok'⟩ | ⟨_, hall⟩
      · have hs := (hfield e' he').2 hok'
        simp [hs]
      · exact absurd hok (hall e he)
  · rw [hres]
    intro h
    by_cases hs : lastStatus u evs &&& RESULT_BITMASK = RESULT_SUCCESS
    · exact ⟨el, hel, (hfield el hel).1 hs⟩
    · rw [if_pos hs] at h; exact absurd h (by decide)
  · rw [hres]
    intro h
    rcases h5 with ⟨e', he', hok'⟩ | ⟨hl, _⟩
    · have hs := (hfield e' he').2 hok'
      simp [hs] at h
    · exact hl

theorem pumpSteps_cons_filter (ctrl k d : Nat) (ds : List Nat) :
    (pumpSteps ctrl k (d :: ds)).filter (fun s => !isPollStep s) =
      (.write32 (if k % 2 = 0 then EXT_DATA0 else EXT_DATA1) d, .plain) ::
        (signalSteps ctrl (k % 2 ^ 32) ++
          (pumpSteps ctrl (k + 1) ds).filter (fun s => !isPollStep s)) := by
  rw [pumpSteps]
  simp only [List.filter_cons, List.filter_append, signalSteps_filter]
  simp [isPollStep]

/-- Any run of the loop of `do_upload`: it returns 0 or -1, and when it returns
0 the file is a whole number of dwords and the steps other than the polls are
those of `pumpSteps`. -/
theorem do_upload_loop_steps (dev : Device) (u ctrl : Nat) :
    ∀ (file : List Nat) (k status : Nat) (tr : Trace),
      ∃ evs, (do_upload_loop dev u ctrl file (k % 2 ^ 32) status tr).2 = tr ++ evs ∧
        ((do_upload_loop dev u ctrl file (k % 2 ^ 32) status tr).1 = 0 ∨
          (do_upload_loop dev u ctrl file (k % 2 ^ 32) status tr).1 = -1) ∧
        ((do_upload_loop dev u ctrl file (k % 2 ^ 32) status tr).1 = 0 →
          file.length % 4 = 0 ∧
          (evs.map Event.step).filter (fun s => !isPollStep s) =
            (pumpSteps ctrl k (dwords file)).filter (fun s => !isPollStep s)) := by
  intro file
  induction file using four_bytes_induction with
  | h0 => intro k status tr; exact ⟨[], by simp [do_upload_loop], Or.inl rfl, fun _ => ⟨rfl, rfl⟩⟩
  | h1 a =>
    intro k status tr
    exact ⟨[], by simp [do_upload_loop], Or.inr rfl, fun h => by simp [do_upload_loop] at h⟩
  | h2 a b =>
    intro k status tr
    exact ⟨[], by simp [do_upload_loop], Or.inr rfl, fun h => by simp [do_upload_loop] at h⟩
  | h3 a b c =>
    intro k status tr
    exact ⟨[], by simp [do_upload_loop], Or.inr rfl, fun h => by simp [do_upload_loop] at h⟩
  | h4 b0 b1 b2 b3 rest ih =>
    intro k status tr
    rw [do_upload_loop_cons]
    obtain ⟨polls, tail, hb1, hb2, hb3⟩ :=
      do_upload_body_spec dev u ctrl (k % 2 ^ 32) status (le32 b0 b1 b2 b3) tr (le32_lt _ _ _ _)
    have hk2 : k % 2 ^ 32 % 2 = k % 2 := by omega
    have hk1 : (k % 2 ^ 32 + 1) % 2 ^ 32 = (k + 1) % 2 ^ 32 := by omega
    rw [hk1]
    by_cases hneg : (do_upload_body dev u ctrl (k % 2 ^ 32) status (le32 b0 b1 b2 b3) tr).1 < 0
    · rw [if_pos hneg]
      exact ⟨polls ++ tail, hb1, Or.inr rfl, fun h => by simp at h⟩
    · rw [if_neg hneg]
      obtain ⟨evs, he1, he2, he3⟩ := ih (k + 1)
        (do_upload_body dev u ctrl (k % 2 ^ 32) status (le32 b0 b1 b2 b3) tr).2.1
        (do_upload_body dev u ctrl (k % 2 ^ 32) status (le32 b0 b1 b2 b3) tr).2.2
      refine ⟨polls ++ tail ++ evs, by rw [he1, hb1]; simp, he2, ?_⟩
      intro hok
      obtain ⟨hlen, hsteps⟩ := he3 hok
      refine ⟨by simp only [List.length_cons]; omega, ?_⟩
      rcases hb3 with ⟨hm1, _⟩ | ⟨_, w, sig, htail, hw, hrc, hsig, _⟩
      · rw [hm1] at hneg; exact absurd (by decide) hneg
      · have hz : (do_upload_body dev u ctrl (k % 2 ^ 32) status (le32 b0 b1 b2 b3) tr).1 = 0 := by
          rcases hrc with h | h
          · exact h
          · rw [h] at hneg; exact absurd (by decide) hneg
        have hsig' := hsig hz
        rw [dwords, pumpSteps_cons_filter, ← hsteps, htail]
        simp only [List.map_append, List.map_cons, List.filter_append, List.filter_cons,
          polls_filter polls _ _ hb2, hw, hsig', signalSteps_filter, hk2]
        simp [isPollStep]

theorem poll_bit_zero_hit (dev : Device) (reg bit n status : Nat) (tr : Trace) (hbit : bit < 16)
    (hrc : 2 ≤ (dev tr (.read16 reg)).1) (hclear : (dev tr (.read16 reg)).2.testBit bit = false) :
    poll_bit_zero dev reg bit (n + 1) status tr =
      (true, 0, tr ++ [⟨.read16 reg, (dev tr (.read16 reg)).1, (dev tr (.read16 reg)).2,
        .bits (1 <<< bit)⟩]) := by
  rw [poll_bit_zero, read_bit_eq]
  have h0 := (read_bit_status_zero _ status _ bit hbit hrc).2 hclear
  have hge : (dev tr (.read16 reg)).1 ≥ 0 := by omega
  simp only [h0, hge, and_self, if_true]

/-- A run of `write_bitmask` whose read and write succeed. -/
theorem write_bitmask_ok (dev : Device) (u reg m value : Nat) (tr : Trace) (hm : m < 2 ^ 16)
    (hr : 0 ≤ (dev tr (.read16 reg)).1) (hw : ∀ h v, 0 ≤ (dev h (.write16 reg v)).1) :
    0 ≤ (write_bitmask dev u reg m value tr).1 ∧
      ∃ sig, (write_bitmask dev u reg m value tr).2 = tr ++ sig ∧
        sig.map Event.step = [(.read16 reg, .rmw m), (.write16 reg (value &&& m), .rmw m)] := by
  obtain ⟨sig, h1, h2⟩ := write_bitmask_spec dev u reg m value tr hm
  have hrc : 0 ≤ (write_bitmask dev u reg m value tr).1 := by
    unfold write_bitmask pci_cfg_read16 pci_cfg_write16
    simp only [ge_iff_le, hr, if_true]
    exact hw _ _
  refine ⟨hrc, sig, h1, ?_⟩
  rcases h2 with ⟨_, hneg⟩ | ⟨h, _⟩
  · omega
  · exact h

/-- The body of the loop of `do_upload` on a ready device: one poll, the write
of the data register, the signal. -/
theorem do_upload_body_ready (dev : Device) (u ctrl i status val : Nat) (tr : Trace)
    (hval : val < 2 ^ 32) (hdev : PumpReady dev ctrl) :
    (do_upload_body dev u ctrl i status val tr).1 = 0 ∧
      ∃ evs, (do_upload_body dev u ctrl i status val tr).2.2 = tr ++ evs ∧
        evs.map Event.step =
          (.read16 ctrl, .bits (1 <<< (8 + i % 2))) ::
          (.write32 (if i % 2 = 0 then EXT_DATA0 else EXT_DATA1) val, .plain) ::
          signalSteps ctrl i := by
  obtain ⟨hrd, hw32, hw16⟩ := hdev
  have hbit : 8 + i % 2 < 16 := by omega
  have hclear : (dev tr (.read16 ctrl)).2.testBit (8 + i % 2) = false := by
    rcases Nat.mod_two_eq_zero_or_one i with h | h
    · rw [h]; exact (hrd tr).2.1
    · rw [h]; exact (hrd tr).2.2
  have hpoll := poll_bit_zero_hit dev ctrl (8 + i % 2) 99999 status tr hbit (hrd tr).1 hclear
  have hv : val % 2 ^ 32 = val := Nat.mod_eq_of_lt hval
  unfold do_upload_body
  simp only [Nat.and_one_is_mod, DATAREG_eq, Nat.mod_mod]
  have hL : LOOPNB = 99999 + 1 := rfl
  rw [hL, hpoll]
  simp only [pci_cfg_write32, hv, Bool.true_eq_false, if_false]
  set p : Event := ⟨.read16 ctrl, (dev tr (.read16 ctrl)).1, (dev tr (.read16 ctrl)).2,
    .bits (1 <<< (8 + i % 2))⟩ with hp
  set w : Event := ⟨.write32 (if i % 2 = 0 then EXT_DATA0 else EXT_DATA1) val,
    (dev (tr ++ [p]) (.write32 (if i % 2 = 0 then EXT_DATA0 else EXT_DATA1) val)).1, 0, .plain⟩
    with hw
  have hwrc : ¬ (dev (tr ++ [p]) (.write32 (if i % 2 = 0 then EXT_DATA0 else EXT_DATA1) val)).1 < 0 := by
    have := hw32 (tr ++ [p]) (if i % 2 = 0 then EXT_DATA0 else EXT_DATA1) val
    omega
  rw [if_neg hwrc]
  by_cases hi1 : i = 1
  · rw [if_pos hi1]
    have hmask : (1 <<< ROM_SET_DATA0) ||| (1 <<< ROM_SET_DATA1) = 0x300 := by decide
    obtain ⟨hok, sig, hs1, hs2⟩ := write_bitmask_ok dev u ctrl 0x300 0x300 (tr ++ [p] ++ [w])
      (by decide) (by have := (hrd (tr ++ [p] ++ [w])).1; omega) hw16
    simp only [hmask]
    have hnn : ¬ (write_bitmask dev u ctrl 0x300 0x300 (tr ++ [p] ++ [w])).1 < 0 := by omega
    rw [if_neg hnn]
    have hsig : signalSteps ctrl i =
        [(.read16 ctrl, .rmw 0x300), (.write16 ctrl 0x300, .rmw 0x300)] := by
      simp [signalSteps, hi1]
    refine ⟨rfl, p :: w :: sig, by rw [hs1]; simp, ?_⟩
    rw [hsig, List.map_cons, List.map_cons, hs2]
    rfl
  · rw [if_neg hi1]
    by_cases hi2 : i > 1
    · rw [if_pos hi2]
      obtain ⟨hok, sig, hs1, hs2⟩ := write_bitmask_ok dev u ctrl (1 <<< (8 + i % 2))
        ((1 <<< (8 + i % 2)) % 2 ^ 32) (tr ++ [p] ++ [w])
        (one_shiftLeft_lt _ hbit) (by have := (hrd (tr ++ [p] ++ [w])).1; omega) hw16
      rw [write_bit_one_value _ hbit] at hs2
      have hnn : ¬ (write_bit dev u ctrl (ROM_SET_DATA0 + i % 2) 1 (tr ++ [p] ++ [w])).1 < 0 :=
        not_lt.mpr hok
      rw [if_neg hnn]
      have hsig : signalSteps ctrl i =
          [(.read16 ctrl, .rmw (1 <<< (8 + i % 2))),
           (.write16 ctrl (1 <<< (8 + i % 2)), .rmw (1 <<< (8 + i % 2)))] := by
        simp [signalSteps, hi1, hi2]
      have hs1' : (write_bit dev u ctrl (ROM_SET_DATA0 + i % 2) 1 (tr ++ [p] ++ [w])).2 =
          tr ++ [p] ++ [w] ++ sig := hs1
      refine ⟨rfl, p :: w :: sig, by rw [hs1']; simp, ?_⟩
      rw [hsig, List.map_cons, List.map_cons, hs2]
      rfl
    · rw [if_neg hi2]
      have hsig : signalSteps ctrl i = [] := by
        simp [signalSteps, hi1, hi2]
      refine ⟨rfl, [p, w], by simp, ?_⟩
      rw [hsig]
      rfl

/-- The loop of `do_upload` on a ready device and a file of whole dwords: it
returns 0 and its steps are those of `pumpSteps`. -/
theorem do_upload_loop_ready (dev : Device) (u ctrl : Nat) (hdev : PumpReady dev ctrl) :
    ∀ (file : List Nat) (k status : Nat) (tr : Trace), file.length % 4 = 0 →
      (do_upload_loop dev u ctrl file (k % 2 ^ 32) status tr).1 = 0 ∧
      ∃ evs, (do_upload_loop dev u ctrl file (k % 2 ^ 32) status tr).2 = tr ++ evs ∧
        evs.map Event.step = pumpSteps ctrl k (dwords file) := by
  intro file
  induction file using four_bytes_induction with
  | h0 => intro k status tr _; exact ⟨rfl, [], by simp [do_upload_loop], rfl⟩
  | h1 a => intro k status tr h; simp at h
  | h2 a b => intro k status tr h; simp at h
  | h3 a b c => intro k status tr h; simp at h
  | h4 b0 b1 b2 b3 rest ih =>
    intro k status tr hlen
    have hlen' : rest.length % 4 = 0 := by
      simp only [List.length_cons] at hlen
      omega
    rw [do_upload_loop_cons]
    obtain ⟨hb0, bevs, hb1, hb2⟩ :=
      do_upload_body_ready dev u ctrl (k % 2 ^ 32) status (le32 b0 b1 b2 b3) tr (le32_lt _ _ _ _) hdev
    have hk2 : k % 2 ^ 32 % 2 = k % 2 := by omega
    have hk1 : (k % 2 ^ 32 + 1) % 2 ^ 32 = (k + 1) % 2 ^ 32 := by omega
    rw [hk1, hb0]
    simp only [lt_self_iff_false, if_false]
    obtain ⟨h0, evs, he1, he2⟩ := ih (k + 1)
      (do_upload_body dev u ctrl (k % 2 ^ 32) status (le32 b0 b1 b2 b3) tr).2.1
      (do_upload_body dev u ctrl (k % 2 ^ 32) status (le32 b0 b1 b2 b3) tr).2.2 hlen'
    refine ⟨h0, bevs ++ evs, by rw [he1, hb1]; simp, ?_⟩
    rw [List.map_append, hb2, he2, dwords, pumpSteps, hk2]
    simp

theorem dwords_length (file : List Nat) : (dwords file).length = file.length / 4 := by
  induction file using four_bytes_induction with
  | h0 => rfl
  | h1 a => simp [dwords]
  | h2 a b => simp [dwords]
  | h3 a b c => simp [dwords]
  | h4 b0 b1 b2 b3 rest ih =>
    rw [dwords, List.length_cons, ih]
    simp only [List.length_cons]
    omega

theorem signalSteps_count_data (ctrl i : Nat) :
    (signalSteps ctrl i).countP isDataWrite = 0 := by
  unfold signalSteps
  split
  · rfl
  · split <;> rfl

theorem signalSteps_count_combined (ctrl i : Nat) :
    (signalSteps ctrl i).countP (isCombined ctrl) = if i = 1 then 1 else 0 := by
  unfold signalSteps
  by_cases h1 : i = 1
  · simp [h1, isCombined]
  · by_cases h2 : i > 1
    · rcases Nat.mod_two_eq_zero_or_one i with h | h <;>
        simp [h1, h2, h, isCombined]
    · simp [h1, h2]

theorem signalSteps_count_single (ctrl i : Nat) :
    (signalSteps ctrl i).countP (isSingle ctrl) = if i > 1 then 1 else 0 := by
  unfold signalSteps
  by_cases h1 : i = 1
  · simp [h1, isSingle]
  · by_cases h2 : i > 1
    · rcases Nat.mod_two_eq_zero_or_one i with h | h <;>
        simp [h1, h2, h, isSingle]
    · simp [h1, h2]

theorem pumpSteps_append (ctrl : Nat) (l1 l2 : List Nat) :
    ∀ k, pumpSteps ctrl k (l1 ++ l2) = pumpSteps ctrl k l1 ++ pumpSteps ctrl (k + l1.length) l2 := by
  induction l1 with
  | nil => intro k; simp [pumpSteps]
  | cons d ds ih =>
    intro k
    rw [List.cons_append, pumpSteps, pumpSteps, ih (k + 1)]
    simp only [List.length_cons, List.cons_append, List.append_assoc]
    have : k + 1 + ds.length = k + (ds.length + 1) := by omega
    rw [this]

theorem pumpSteps_count_data (ctrl : Nat) (ds : List Nat) :
    ∀ k, (pumpSteps ctrl k ds).countP isDataWrite = ds.length := by
  induction ds with
  | nil => intro k; rfl
  | cons d ds ih =>
    intro k
    rw [pumpSteps, List.countP_cons, List.countP_cons, List.countP_append,
      signalSteps_count_data, ih (k + 1)]
    rcases Nat.mod_two_eq_zero_or_one k with h | h <;> simp [isDataWrite, h]

theorem pumpSteps_count_combined (ctrl : Nat) (ds : List Nat) :
    ∀ k, k + ds.length ≤ 2 ^ 32 + 1 →
      (pumpSteps ctrl k ds).countP (isCombined ctrl) =
        if k ≤ 1 ∧ 2 ≤ k + ds.length then 1 else 0 := by
  induction ds with
  | nil =>
    intro k _
    simp only [pumpSteps, List.countP_nil, List.length_nil, Nat.add_zero]
    split_ifs <;> omega
  | cons d ds ih =>
    intro k hk
    simp only [List.length_cons] at hk
    rw [pumpSteps, List.countP_cons, List.countP_cons, List.countP_append,
      signalSteps_count_combined, ih (k + 1) (by omega)]
    have e1 : isCombined ctrl (.read16 ctrl, .bits (1 <<< (8 + k % 2))) = false := by
      simp [isCombined]
    have e2 : isCombined ctrl
        (.write32 (if k % 2 = 0 then EXT_DATA0 else EXT_DATA1) d, .plain) = false := by
      simp [isCombined]
    simp only [e1, e2, List.length_cons, Bool.false_eq_true, if_false, Nat.add_zero]
    split_ifs <;> omega

theorem pumpSteps_count_single (ctrl : Nat) (ds : List Nat) :
    ∀ k, k + ds.length ≤ 2 ^ 32 →
      (pumpSteps ctrl k ds).countP (isSingle ctrl) = (k + ds.length - 2) - (k - 2) := by
  induction ds with
  | nil => intro k _; simp [pumpSteps]
  | cons d ds ih =>
    intro k hk
    simp only [List.length_cons] at hk
    have hkm : k % 2 ^ 32 = k := Nat.mod_eq_of_lt (by omega)
    rw [pumpSteps, List.countP_cons, List.countP_cons, List.countP_append,
      signalSteps_count_single, ih (k + 1) (by omega), hkm]
    have e1 : isSingle ctrl (.read16 ctrl, .bits (1 <<< (8 + k % 2))) = false := by
      simp [isSingle]
    have e2 : isSingle ctrl
        (.write32 (if k % 2 = 0 then EXT_DATA0 else EXT_DATA1) d, .plain) = false := by
      simp [isSingle]
    simp only [e1, e2, List.length_cons, Bool.false_eq_true, if_false, Nat.add_zero]
    split_ifs <;> omega

theorem simDev_ready (d0 d1 ctrl : Nat) : PumpReady (simDev d0 d1) ctrl := by
  refine ⟨fun h => ⟨?_, ?_, ?_⟩, fun h off v => ?_, fun h v => ?_⟩
  · exact le_refl (2 : Int)
  · show Nat.testBit 0x8000 8 = false
    decide
  · show Nat.testBit 0x8000 9 = false
    decide
  · show (0 : Int) ≤ 4
    decide
  · show (0 : Int) ≤ 2
    decide

/-- On a ready device, a file of `2 ^ 32 + 1` dwords gets `2 ^ 32 - 2` single
signals: the counter of `do_upload` is 0 again at the last dword. -/
theorem do_upload_wrap_single (dev : Device) (u ctrl : Nat) (tr : Trace) (file : List Nat)
    (hdev : PumpReady dev ctrl) (hlen : file.length = 4 * (2 ^ 32 + 1)) :
    ∃ evs, (do_upload dev u file ctrl tr).2 = tr ++ evs ∧
      (evs.map Event.step).countP (isSingle ctrl) = 2 ^ 32 - 2 := by
  obtain ⟨_, evs, h1, h2⟩ := do_upload_loop_ready dev u ctrl hdev file 0 u tr (by omega)
  refine ⟨evs, h1, ?_⟩
  have hd : (dwords file).length = 2 ^ 32 + 1 := by rw [dwords_length, hlen]; omega
  rw [h2, ← List.take_append_drop (2 ^ 32) (dwords file), pumpSteps_append, List.countP_append]
  have ht : ((dwords file).take (2 ^ 32)).length = 2 ^ 32 := by
    rw [List.length_take, hd]; omega
  have hdr : ((dwords file).drop (2 ^ 32)).length = 1 := by
    rw [List.length_drop, hd]; omega
  obtain ⟨d, hd1⟩ := List.length_eq_one.1 hdr
  rw [pumpSteps_count_single ctrl _ 0 (by rw [ht]; omega), ht, hd1, pumpSteps]
  simp only [List.countP_cons, List.countP_append, signalSteps_count_single, pumpSteps,
    List.countP_nil]
  have e1 : ∀ k, isSingle ctrl (.read16 ctrl, .bits (1 <<< (8 + k % 2))) = false := by
    intro k; simp [isSingle]
  have e2 : ∀ k, isSingle ctrl
      (.write32 (if k % 2 = 0 then EXT_DATA0 else EXT_DATA1) d, .plain) = false := by
    intro k; simp [isSingle]
  rw [e1, e2]
  have hz : (0 + 2 ^ 32) % 2 ^ 32 = 0 := by norm_num
  rw [hz]
  simp only [Bool.false_eq_true, if_false]
  norm_num

/-- C1 (amended). On a device whose 16-bit reads of the control register are
complete and show the lane bits 8 and 9 clear and on which no write fails,
`do_upload` over a file of `4 * N` bytes returns 0; its steps are those of
`pumpSteps`, with exactly `N` writes of a data register; when `N ≤ 2 ^ 32 + 1`
there is one combined signal if `N ≥ 2` and none if `N < 2`, and when
`N ≤ 2 ^ 32` there are `N - 2` single signals (none if `N < 2`). -/
theorem C1_pump_counts (dev : Device) (u ctrl : Nat) (tr : Trace) (file : List Nat) (N : Nat)
    (hdev : PumpReady dev ctrl) (hlen : file.length = 4 * N) :
    (do_upload dev u file ctrl tr).1 = 0 ∧
      ∃ evs, (do_upload dev u file ctrl tr).2 = tr ++ evs ∧
        evs.map Event.step = pumpSteps ctrl 0 (dwords file) ∧
        (evs.map Event.step).countP isDataWrite = N ∧
        (N ≤ 2 ^ 32 + 1 →
          (evs.map Event.step).countP (isCombined ctrl) = if 2 ≤ N then 1 else 0) ∧
        (N ≤ 2 ^ 32 → (evs.map Event.step).countP (isSingle ctrl) = N - 2) := by
  obtain ⟨h0, evs, h1, h2⟩ := do_upload_loop_ready dev u ctrl hdev file 0 u tr (by omega)
  have hd : (dwords file).length = N := by rw [dwords_length, hlen]; omega
  refine ⟨h0, evs, h1, h2, ?_, ?_, ?_⟩
  · rw [h2, pumpSteps_count_data, hd]
  · intro hN
    rw [h2, pumpSteps_count_combined ctrl _ 0 (by omega), hd]
    simp
  · intro hN
    rw [h2, pumpSteps_count_single ctrl _ 0 (by omega), hd]
    simp

/-- C1 at `N = 5` on the simulated device: 5 data writes, one combined signal,
3 single signals. -/
theorem C1_pump_counts_witness :
    PumpReady (simDev 0 0) EXT_ROM_CTRL_STATUS ∧
      (List.replicate 20 0).length = 4 * 5 ∧
      (do_upload (simDev 0 0) 0 (List.replicate 20 0) EXT_ROM_CTRL_STATUS []).1 = 0 ∧
      ∃ evs, (do_upload (simDev 0 0) 0 (List.replicate 20 0) EXT_ROM_CTRL_STATUS []).2 =
          [] ++ evs ∧
        (evs.map Event.step).countP isDataWrite = 5 ∧
        (evs.map Event.step).countP (isCombined EXT_ROM_CTRL_STATUS) = 1 ∧
        (evs.map Event.step).countP (isSingle EXT_ROM_CTRL_STATUS) = 3 := by
  have h := C1_pump_counts (simDev 0 0) 0 EXT_ROM_CTRL_STATUS [] (List.replicate 20 0) 5
    (simDev_ready 0 0 _) (by decide)
  obtain ⟨h0, evs, h1, _, h3, h4, h5⟩ := h
  exact ⟨simDev_ready 0 0 _, by decide, h0, evs, h1, h3, by simpa using h4 (by norm_num),
    by simpa using h5 (by norm_num)⟩

/-- C1 fails as stated at `N = 2 ^ 32 + 1`: on the simulated device the file of
`4 * (2 ^ 32 + 1)` zero bytes gets `2 ^ 32 - 2` single signals, not
`N - 2 = 2 ^ 32 - 1`. -/
theorem C1_counterexample :
    PumpReady (simDev 0 0) EXT_ROM_CTRL_STATUS ∧
      (List.replicate (4 * (2 ^ 32 + 1)) 0).length = 4 * (2 ^ 32 + 1) ∧
      (((do_upload (simDev 0 0) 0 (List.replicate (4 * (2 ^ 32 + 1)) 0)
          EXT_ROM_CTRL_STATUS []).2).map Event.step).countP (isSingle EXT_ROM_CTRL_STATUS) =
        2 ^ 32 - 2 ∧
      (((do_upload (simDev 0 0) 0 (List.replicate (4 * (2 ^ 32 + 1)) 0)
          EXT_ROM_CTRL_STATUS []).2).map Event.step).countP (isSingle EXT_ROM_CTRL_STATUS) ≠
        (2 ^ 32 + 1) - 2 := by
  obtain ⟨evs, h1, h2⟩ := do_upload_wrap_single (simDev 0 0) 0 EXT_ROM_CTRL_STATUS []
    (List.replicate (4 * (2 ^ 32 + 1)) 0) (simDev_ready 0 0 _) (List.length_replicate _ _)
  rw [List.nil_append] at h1
  rw [h1]
  exact ⟨simDev_ready 0 0 _, List.length_replicate _ _, h2, by rw [h2]; norm_num⟩

/-! ## Lists: blocks and neighbours -/

theorem no_head_block {α : Type} (P : α → Prop) (m : α) (hm : ¬ P m) :
    ∀ (X Z blk post : List α), X.length < blk.length → (∀ e ∈ blk, P e) →
      X ++ m :: Z = blk ++ post → False := by
  intro X
  induction X with
  | nil =>
    intro Z blk post hlen hB h
    cases blk with
    | nil => simp at hlen
    | cons b blk =>
      simp only [List.nil_append, List.cons_append, List.cons.injEq] at h
      exact hm (h.1 ▸ hB b (List.mem_cons_self _ _))
  | cons x X ih =>
    intro Z blk post hlen hB h
    cases blk with
    | nil => simp at hlen
    | cons b blk =>
      simp only [List.cons_append, List.cons.injEq] at h
      exact ih Z blk post (by simpa using hlen) (fun e he => hB e (List.mem_cons_of_mem _ he)) h.2

theorem skip_block {α : Type} (P : α → Prop) :
    ∀ (M Z pre blk post : List α), (∀ e ∈ M, ¬ P e) → (∀ e ∈ blk, P e) → blk ≠ [] →
      M ++ Z = pre ++ blk ++ post → ∃ pre1, pre = M ++ pre1 ∧ Z = pre1 ++ blk ++ post := by
  intro M
  induction M with
  | nil => intro Z pre blk post _ _ _ h; exact ⟨pre, rfl, by simpa using h⟩
  | cons m M ih =>
    intro Z pre blk post hM hB hne h
    cases pre with
    | nil =>
      cases blk with
      | nil => exact absurd rfl hne
      | cons b blk =>
        simp only [List.nil_append, List.cons_append, List.cons.injEq] at h
        exact absurd (h.1 ▸ hB b (List.mem_cons_self _ _)) (hM m (List.mem_cons_self _ _))
    | cons p pre =>
      simp only [List.cons_append, List.cons.injEq] at h
      obtain ⟨pre1, h1, h2⟩ := ih Z pre blk post (fun e he => hM e (List.mem_cons_of_mem _ he))
        hB hne h.2
      exact ⟨pre1, by rw [h.1, h1]; rfl, h2⟩

theorem block_after {α : Type} (P : α → Prop) (m : α) (hm : ¬ P m) :
    ∀ (X M Z pre blk post : List α), X.length < blk.length → (∀ e ∈ M, ¬ P e) →
      (∀ e ∈ blk, P e) → X ++ m :: M ++ Z = pre ++ blk ++ post →
      ∃ pre1, pre = X ++ m :: M ++ pre1 ∧ Z = pre1 ++ blk ++ post := by
  intro X
  induction X with
  | nil =>
    intro M Z pre blk post hlen hM hB h
    have hne : blk ≠ [] := by
      intro h0; rw [h0] at hlen; simp at hlen
    have hM' : ∀ e ∈ m :: M, ¬ P e := by
      intro e he
      rcases List.mem_cons.1 he with rfl | he
      · exact hm
      · exact hM e he
    exact skip_block P (m :: M) Z pre blk post hM' hB hne (by simpa using h)
  | cons x X ih =>
    intro M Z pre blk post hlen hM hB h
    cases pre with
    | nil =>
      exfalso
      refine no_head_block P m hm (x :: X) (M ++ Z) blk post hlen hB ?_
      simpa using h
    | cons p pre =>
      simp only [List.cons_append, List.cons.injEq] at h
      have hlen' : X.length < blk.length := by
        simp only [List.length_cons] at hlen
        omega
      obtain ⟨pre1, h1, h2⟩ := ih M Z pre blk post hlen' hM hB (by simpa using h.2)
      exact ⟨pre1, by rw [h.1, h1]; simp, h2⟩

theorem unique_split {α : Type} (Q : α → Prop) :
    ∀ (A B pre post : List α) (w e : α), (∀ a ∈ A, ¬ Q a) → (∀ b ∈ B, ¬ Q b) → Q e →
      A ++ w :: B = pre ++ e :: post → pre = A ∧ e = w ∧ post = B := by
  intro A
  induction A with
  | nil =>
    intro B pre post w e _ hB he h
    cases pre with
    | nil =>
      simp only [List.nil_append, List.cons.injEq] at h
      exact ⟨rfl, h.1.symm, h.2.symm⟩
    | cons p pre =>
      simp only [List.nil_append, List.cons_append, List.cons.injEq] at h
      exact absurd he (hB e (by rw [h.2]; simp))
  | cons a A ih =>
    intro B pre post w e hA hB he h
    cases pre with
    | nil =>
      simp only [List.nil_append, List.cons_append, List.cons.injEq] at h
      exact absurd (h.1 ▸ he) (hA a (List.mem_cons_self _ _))
    | cons p pre =>
      simp only [List.cons_append, List.cons.injEq] at h
      obtain ⟨h1, h2, h3⟩ := ih B pre post w e (fun x hx => hA x (List.mem_cons_of_mem _ hx))
        hB he h.2
      exact ⟨by rw [h.1, h1], h2, h3⟩

theorem polledBeforeWrite_nil (ctrl : Nat) : PolledBeforeWrite ctrl [] := by
  intro pre e post lane v h
  simp at h

theorem polledBeforeWrite_append (ctrl : Nat) (l1 l2 : List Event)
    (h1 : PolledBeforeWrite ctrl l1) (h2 : PolledBeforeWrite ctrl l2) :
    PolledBeforeWrite ctrl (l1 ++ l2) := by
  intro pre e post lane v h hl he
  rcases List.append_eq_append_iff.1 h with ⟨a, ha1, ha2⟩ | ⟨c, hc1, hc2⟩
  · -- pre = l1 ++ a, l2 = a ++ e :: post
    obtain ⟨pre1, p, hp, hh⟩ := h2 a e post lane v ha2 hl he
    exact ⟨l1 ++ pre1, p, by rw [ha1, hp]; simp, hh⟩
  · -- l1 = pre ++ c, e :: post = c ++ l2
    cases c with
    | nil =>
      simp only [List.nil_append] at hc2
      obtain ⟨pre1, p, hp, _⟩ := h2 [] e post lane v (by rw [← hc2]; rfl) hl he
      simp at hp
    | cons c0 c =>
      simp only [List.cons_append, List.cons.injEq] at hc2
      rw [← hc2.1] at hc1
      exact h1 pre e c lane v hc1 hl he

theorem step_snd (e : Event) : e.step.2 = e.tag := by
  cases e with
  | mk acc rc data tag =>
    cases acc <;> cases tag <;> rfl

theorem signalSteps_tag (ctrl i : Nat) (s : Access × Tag) (hs : s ∈ signalSteps ctrl i) :
    ∃ m, s.2 = .rmw m := by
  unfold signalSteps at hs
  split at hs
  · simp only [List.mem_cons, List.mem_singleton, List.not_mem_nil, or_false] at hs
    rcases hs with rfl | rfl <;> exact ⟨_, rfl⟩
  · split at hs
    · simp only [List.mem_cons, List.mem_singleton, List.not_mem_nil, or_false] at hs
      rcases hs with rfl | rfl <;> exact ⟨_, rfl⟩
    · simp at hs

theorem signalSteps_isPumpStep (ctrl i : Nat) (s : Access × Tag) (hs : s ∈ signalSteps ctrl i) :
    isPumpStep ctrl s = true := by
  unfold signalSteps at hs
  split at hs
  · simp only [List.mem_cons, List.mem_singleton, List.not_mem_nil, or_false] at hs
    rcases hs with rfl | rfl <;> simp [isPumpStep]
  · split at hs
    · simp only [List.mem_cons, List.mem_singleton, List.not_mem_nil, or_false] at hs
      rcases Nat.mod_two_eq_zero_or_one i with h | h <;> rw [h] at hs <;>
        rcases hs with rfl | rfl <;> simp [isPumpStep]
    · simp at hs

theorem one_shiftLeft_inj (a b : Nat) (h : 1 <<< a = 1 <<< b) : a = b := by
  rw [Nat.one_shiftLeft, Nat.one_shiftLeft] at h
  exact Nat.pow_right_injective (le_refl 2) h

/-- What the events of one run of the body of the loop of `do_upload` look
like, in the terms of the trace predicates. -/
theorem do_upload_body_facts (dev : Device) (u ctrl i status val : Nat) (tr : Trace)
    (hval : val < 2 ^ 32) :
    ∃ evs, (do_upload_body dev u ctrl i status val tr).2.2 = tr ++ evs ∧
      ((do_upload_body dev u ctrl i status val tr).1 = 0 ∨
        (do_upload_body dev u ctrl i status val tr).1 = -1) ∧
      PolledBeforeWrite ctrl evs ∧
      (∀ e ∈ evs, isPumpStep ctrl e.step = true) ∧
      (((do_upload_body dev u ctrl i status val tr).1 = -1 ∧ evs.length = LOOPNB) ∨
        ∃ init m M, evs = init ++ m :: M ∧ init.length < LOOPNB ∧
          ∀ e ∈ m :: M, ∀ bit, ¬ e.pollMiss bit) := by
  obtain ⟨polls, tail, h1, h2, h3⟩ := do_upload_body_spec dev u ctrl i status val tr hval
  have hpollstep : ∀ e ∈ polls, isPumpStep ctrl e.step = true := by
    intro e he
    rw [h2 e he]
    rcases Nat.mod_two_eq_zero_or_one i with h | h <;> rw [h] <;> simp [isPumpStep]
  have hpollnw : ∀ e ∈ polls, ¬ ∃ lane v, e.step =
      (.write32 (if lane = 0 then EXT_DATA0 else EXT_DATA1) v, Tag.plain) := by
    intro e he ⟨lane, v, hs⟩
    rw [h2 e he] at hs
    simp at hs
  rcases h3 with ⟨hrc, htail, hlen, _⟩ | ⟨⟨init, h, hpi, hinit, hh1, hh2, _⟩, w, sig, htail, hw,
      hrc, _, k, hk⟩
  · subst htail
    refine ⟨polls, by simpa using h1, Or.inr hrc, ?_, by simpa using hpollstep,
      Or.inl ⟨hrc, hlen⟩⟩
    intro pre e post lane v he _ hs
    exact absurd ⟨lane, v, hs⟩ (hpollnw e (by rw [he]; simp))
  · have hsigmem : ∀ e ∈ sig, e.step ∈ signalSteps ctrl i := by
      intro e he
      have : e.step ∈ sig.map Event.step := List.mem_map_of_mem _ he
      rw [hk] at this
      exact List.mem_of_mem_take this
    have hsigtag : ∀ e ∈ sig, ∃ m, e.tag = .rmw m := by
      intro e he
      obtain ⟨m, hm⟩ := signalSteps_tag ctrl i _ (hsigmem e he)
      exact ⟨m, by rw [← step_snd, hm]⟩
    have hwtag : w.tag = .plain := by rw [← step_snd, hw]
    have hhtag : h.tag = .bits (1 <<< (8 + i % 2)) := by
      rw [← step_snd, h2 h (by rw [hpi]; simp)]
    refine ⟨polls ++ tail, h1, hrc, ?_, ?_, Or.inr ⟨init, h, tail, by rw [hpi]; simp, hinit, ?_⟩⟩
    · -- the only write of a data register is `w`, right after the hit `h`
      intro pre e post lane v he hl hs
      have hsplit : polls ++ w :: sig = pre ++ e :: post := by rw [← htail]; exact he
      have hQ : ∀ a ∈ polls, ¬ (∃ lane v, a.step =
          (.write32 (if lane = 0 then EXT_DATA0 else EXT_DATA1) v, Tag.plain)) := hpollnw
      have hQ2 : ∀ a ∈ sig, ¬ (∃ lane v, a.step =
          (.write32 (if lane = 0 then EXT_DATA0 else EXT_DATA1) v, Tag.plain)) := by
        intro a ha ⟨l, v, hs⟩
        obtain ⟨m, hm⟩ := hsigtag a ha
        have := step_snd a
        rw [hs, hm] at this
        simp at this
      obtain ⟨hpre, hew, _⟩ := unique_split _ polls sig pre post w e hQ hQ2 ⟨lane, v, hs⟩ hsplit
      subst hew
      have hlane : lane = i % 2 := by
        rw [hw] at hs
        simp only [Prod.mk.injEq, Access.write32.injEq, and_true] at hs
        have h01 := hs.1
        rcases Nat.mod_two_eq_zero_or_one i with hi | hi <;> rw [hi] at h01 ⊢
        · by_contra hne
          rw [if_pos rfl, if_neg hne] at h01
          exact absurd h01 (by decide)
        · by_contra hne
          have hl0 : lane = 0 := by omega
          rw [if_neg (by decide), if_pos hl0] at h01
          exact absurd h01 (by decide)
      subst hlane
      exact ⟨init, h, by rw [hpre, hpi], h2 h (by rw [hpi]; simp), hh1, hh2⟩
    · intro e he
      rcases List.mem_append.1 he with he | he
      · exact hpollstep e he
      · rw [htail] at he
        rcases List.mem_cons.1 he with rfl | he
        · rw [hw]
          rcases Nat.mod_two_eq_zero_or_one i with hi | hi <;> rw [hi] <;> simp [isPumpStep]
        · exact signalSteps_isPumpStep ctrl i _ (hsigmem e he)
    · intro e he bit hmiss
      rcases List.mem_cons.1 he with rfl | he
      · have ht := hmiss.1
        rw [hhtag] at ht
        have hb : 8 + i % 2 = bit := one_shiftLeft_inj _ _ (Tag.bits.inj ht)
        subst hb
        rcases hmiss.2 with hneg | ⟨h2', hset⟩
        · omega
        · rw [hh2 h2'] at hset
          exact absurd hset (by decide)
      · rw [htail] at he
        rcases List.mem_cons.1 he with rfl | he
        · have ht := hmiss.1
          rw [hwtag] at ht
          exact absurd ht (by simp)
        · obtain ⟨m, hm⟩ := hsigtag e he
          have ht := hmiss.1
          rw [hm] at ht
          exact absurd ht (by simp)

theorem timeoutEnds_nil (rc : Int) : TimeoutEnds rc [] := by
  intro pre blk post bit h hlen _
  have : blk = [] := by
    have h' := congrArg List.length h
    simp only [List.length_nil, List.length_append] at h'
    exact List.length_eq_zero.1 (by omega)
  rw [this] at hlen
  simp at hlen

/-- Any run of the loop of `do_upload`: every write of a data register comes
directly after a successful poll of its lane bit, every step is a pump step on
`ctrl`, and a full block of missed polls ends the run with -1. -/
theorem do_upload_loop_facts (dev : Device) (u ctrl : Nat) :
    ∀ (file : List Nat) (i status : Nat) (tr : Trace),
      ∃ evs, (do_upload_loop dev u ctrl file i status tr).2 = tr ++ evs ∧
        PolledBeforeWrite ctrl evs ∧
        (∀ e ∈ evs, isPumpStep ctrl e.step = true) ∧
        TimeoutEnds (do_upload_loop dev u ctrl file i status tr).1 evs := by
  intro file
  induction file using four_bytes_induction with
  | h0 =>
    intro i status tr
    exact ⟨[], by simp [do_upload_loop], polledBeforeWrite_nil _, by simp, timeoutEnds_nil _⟩
  | h1 a =>
    intro i status tr
    exact ⟨[], by simp [do_upload_loop], polledBeforeWrite_nil _, by simp, timeoutEnds_nil _⟩
  | h2 a b =>
    intro i status tr
    exact ⟨[], by simp [do_upload_loop], polledBeforeWrite_nil _, by simp, timeoutEnds_nil _⟩
  | h3 a b c =>
    intro i status tr
    exact ⟨[], by simp [do_upload_loop], polledBeforeWrite_nil _, by simp, timeoutEnds_nil _⟩
  | h4 b0 b1 b2 b3 rest ih =>
    intro i status tr
    rw [do_upload_loop_cons]
    obtain ⟨bevs, hb1, hb2, hb3, hb4, hb5⟩ :=
      do_upload_body_facts dev u ctrl i status (le32 b0 b1 b2 b3) tr (le32_lt _ _ _ _)
    by_cases hneg : (do_upload_body dev u ctrl i status (le32 b0 b1 b2 b3) tr).1 < 0
    · rw [if_pos hneg]
      refine ⟨bevs, hb1, hb3, hb4, ?_⟩
      intro pre blk post bit h hlen hmiss
      rcases hb5 with ⟨_, hl⟩ | ⟨init, m, M, hev, hinit, hnm⟩
      · have h' := congrArg List.length h
        simp only [List.length_append] at h'
        exact ⟨List.length_eq_zero.1 (by omega), rfl⟩
      · exfalso
        have hsplit : init ++ m :: M ++ [] = pre ++ blk ++ post := by
          rw [List.append_nil, ← hev]; exact h
        obtain ⟨pre1, _, hz⟩ := block_after (fun e => e.pollMiss bit) m
          (hnm m (List.mem_cons_self _ _) bit) init M [] pre blk post (by omega)
          (fun e he => hnm e (List.mem_cons_of_mem _ he) bit) hmiss hsplit
        have h' := congrArg List.length hz
        simp only [List.length_nil, List.length_append] at h'
        omega
    · rw [if_neg hneg]
      obtain ⟨evs, he1, he2, he3, he4⟩ := ih ((i + 1) % 2 ^ 32)
        (do_upload_body dev u ctrl i status (le32 b0 b1 b2 b3) tr).2.1
        (do_upload_body dev u ctrl i status (le32 b0 b1 b2 b3) tr).2.2
      refine ⟨bevs ++ evs, by rw [he1, hb1]; simp, polledBeforeWrite_append _ _ _ hb3 he2, ?_, ?_⟩
      · intro e he
        rcases List.mem_append.1 he with he | he
        · exact hb4 e he
        · exact he3 e he
      · intro pre blk post bit h hlen hmiss
        rcases hb5 with ⟨hm1, _⟩ | ⟨init, m, M, hev, hinit, hnm⟩
        · rw [hm1] at hneg; exact absurd (by decide) hneg
        · have hsplit : init ++ m :: M ++ evs = pre ++ blk ++ post := by
            rw [← hev]; exact h
          obtain ⟨pre1, _, hz⟩ := block_after (fun e => e.pollMiss bit) m
            (hnm m (List.mem_cons_self _ _) bit) init M evs pre blk post (by omega)
            (fun e he => hnm e (List.mem_cons_of_mem _ he) bit) hmiss hsplit
          exact he4 pre1 blk post bit hz hlen hmiss

theorem countP_combined_filter (ctrl : Nat) (l : List (Access × Tag)) :
    (l.filter (fun s => !isPollStep s)).countP (isCombined ctrl) = l.countP (isCombined ctrl) := by
  induction l with
  | nil => rfl
  | cons s l ih =>
    by_cases hp : isPollStep s = true
    · have hc : isCombined ctrl s = false := by
        rcases s with ⟨a, t⟩
        cases t <;> simp [isPollStep, isCombined] at hp ⊢
      rw [List.filter_cons_of_neg (by simp [hp]), List.countP_cons_of_neg _ _ (by simp [hc]), ih]
    · rw [List.filter_cons_of_pos (by simpa using hp), List.countP_cons, List.countP_cons, ih]

theorem filter_data_filter (l : List (Access × Tag)) :
    (l.filter (fun s => !isPollStep s)).filter isDataWrite = l.filter isDataWrite := by
  rw [List.filter_filter]
  apply List.filter_congr
  intro s _
  rcases s with ⟨a, t⟩
  cases a <;> cases t <;> simp [isPollStep, isDataWrite]

theorem signalSteps_filter_data (ctrl i : Nat) :
    (signalSteps ctrl i).filter isDataWrite = [] := by
  unfold signalSteps
  split
  · rfl
  · split <;> rfl

/-- The writes of the data registers in `pumpSteps`: dword number `j` goes to
the register of lane `j % 2`, in the order of the file. -/
theorem pumpSteps_filter_data (ctrl : Nat) (ds : List Nat) :
    ∀ k, (pumpSteps ctrl k ds).filter isDataWrite =
      (List.enumFrom k ds).map
        (fun jd => (Access.write32 (if jd.1 % 2 = 0 then EXT_DATA0 else EXT_DATA1) jd.2, Tag.plain)) := by
  induction ds with
  | nil => intro k; rfl
  | cons d ds ih =>
    intro k
    rw [pumpSteps, List.enumFrom_cons, List.map_cons, ← ih (k + 1)]
    rw [List.filter_cons_of_neg (by simp [isDataWrite]), List.filter_cons_of_pos,
      List.filter_append, signalSteps_filter_data, List.nil_append]
    rcases Nat.mod_two_eq_zero_or_one k with h | h <;> simp [isDataWrite, h]

theorem pumpSteps_shift (ctrl : Nat) (ds : List Nat) :
    ∀ k, pumpSteps ctrl (k + 2 ^ 32) ds = pumpSteps ctrl k ds := by
  induction ds with
  | nil => intro k; rfl
  | cons d ds ih =>
    intro k
    have h1 : (k + 2 ^ 32) % 2 = k % 2 := by omega
    have h2 : (k + 2 ^ 32) % 2 ^ 32 = k % 2 ^ 32 := by omega
    have h3 : k + 2 ^ 32 + 1 = (k + 1) + 2 ^ 32 := by omega
    rw [pumpSteps, pumpSteps, h1, h2, h3, ih (k + 1)]

/-- On a ready device, a file of `2 ^ 32 + 2` dwords gets two combined signals:
the counter of `do_upload` is 1 again at dword number `2 ^ 32 + 1`. -/
theorem do_upload_wrap_combined (dev : Device) (u ctrl : Nat) (tr : Trace) (file : List Nat)
    (hdev : PumpReady dev ctrl) (hlen : file.length = 4 * (2 ^ 32 + 2)) :
    (do_upload dev u file ctrl tr).1 = 0 ∧
    ∃ evs, (do_upload dev u file ctrl tr).2 = tr ++ evs ∧
      (evs.map Event.step).countP (isCombined ctrl) = 2 := by
  obtain ⟨h0, evs, h1, h2⟩ := do_upload_loop_ready dev u ctrl hdev file 0 u tr (by omega)
  refine ⟨h0, evs, h1, ?_⟩
  have hd : (dwords file).length = 2 ^ 32 + 2 := by rw [dwords_length, hlen]; omega
  rw [h2, ← List.take_append_drop (2 ^ 32) (dwords file), pumpSteps_append, List.countP_append]
  have ht : ((dwords file).take (2 ^ 32)).length = 2 ^ 32 := by
    rw [List.length_take, hd]; omega
  have hdr : ((dwords file).drop (2 ^ 32)).length = 2 := by
    rw [List.length_drop, hd]; omega
  rw [ht, pumpSteps_shift, pumpSteps_count_combined ctrl _ 0 (by rw [ht]; omega),
    pumpSteps_count_combined ctrl _ 0 (by rw [hdr]; omega), ht, hdr]
  norm_num

/-- C2 (amended). In every run of `do_upload` that returns 0, on any device:
the steps other than the polls are those of `pumpSteps`, so that dword number
`j` of the file is written unchanged, in file order, to the data register of
lane `j % 2` (DATA0 = 0xF8 for even `j`, DATA1 = 0xFC for odd `j`); every such
write comes directly after a poll of set bit `8 + j % 2`; dword 0 is followed
by no signal and the masked write of bits 8 and 9 together comes directly
after the write of dword 1 and before that of dword 2; and that masked write
occurs exactly once when the file has between 2 and `2 ^ 32 + 1` dwords. -/
theorem C2_pump_order (dev : Device) (u ctrl : Nat) (tr : Trace) (file : List Nat) (N : Nat)
    (hlen : file.length = 4 * N) (hok : (do_upload dev u file ctrl tr).1 = 0) :
    ∃ evs, (do_upload dev u file ctrl tr).2 = tr ++ evs ∧
      (evs.map Event.step).filter (fun s => !isPollStep s) =
        (pumpSteps ctrl 0 (dwords file)).filter (fun s => !isPollStep s) ∧
      (evs.map Event.step).filter isDataWrite =
        (List.enumFrom 0 (dwords file)).map
          (fun jd => (Access.write32 (if jd.1 % 2 = 0 then EXT_DATA0 else EXT_DATA1) jd.2,
            Tag.plain)) ∧
      PolledBeforeWrite ctrl evs ∧
      (∀ d0 d1 ds, dwords file = d0 :: d1 :: ds →
        (evs.map Event.step).filter (fun s => !isPollStep s) =
          (.write32 EXT_DATA0 d0, .plain) :: (.write32 EXT_DATA1 d1, .plain) ::
          (.read16 ctrl, .rmw 0x300) :: (.write16 ctrl 0x300, .rmw 0x300) ::
          (pumpSteps ctrl 2 ds).filter (fun s => !isPollStep s)) ∧
      (N ≤ 2 ^ 32 + 1 →
        (evs.map Event.step).countP (isCombined ctrl) = if 2 ≤ N then 1 else 0) := by
  obtain ⟨evs, h1, _, h3⟩ := do_upload_loop_steps dev u ctrl file 0 u tr
  obtain ⟨evs', h1', hp, _, _⟩ := do_upload_loop_facts dev u ctrl file 0 u tr
  have h1a : (do_upload dev u file ctrl tr).2 = tr ++ evs := h1
  have h1b : (do_upload dev u file ctrl tr).2 = tr ++ evs' := h1'
  have hev : evs' = evs := List.append_cancel_left (h1b.symm.trans h1a)
  subst hev
  obtain ⟨_, hsteps⟩ := h3 hok
  have hd : (dwords file).length = N := by rw [dwords_length, hlen]; omega
  refine ⟨evs', h1a, hsteps, ?_, hp, ?_, ?_⟩
  · rw [← filter_data_filter, hsteps, filter_data_filter, pumpSteps_filter_data]
  · intro d0 d1 ds hds
    rw [hsteps, hds, pumpSteps_cons_filter, pumpSteps_cons_filter]
    simp [signalSteps]
  · intro hN
    rw [← countP_combined_filter, hsteps, countP_combined_filter,
      pumpSteps_count_combined ctrl _ 0 (by omega), hd]
    simp

/-- C2 at a file of 5 dwords on the simulated device. -/
theorem C2_pump_order_witness :
    (List.replicate 20 0).length = 4 * 5 ∧
      (do_upload (simDev 0 0) 0 (List.replicate 20 0) EXT_ROM_CTRL_STATUS []).1 = 0 ∧
      ∃ evs, (do_upload (simDev 0 0) 0 (List.replicate 20 0) EXT_ROM_CTRL_STATUS []).2 =
          [] ++ evs ∧
        PolledBeforeWrite EXT_ROM_CTRL_STATUS evs ∧
        (evs.map Event.step).countP (isCombined EXT_ROM_CTRL_STATUS) = 1 := by
  have hok : (do_upload (simDev 0 0) 0 (List.replicate 20 0) EXT_ROM_CTRL_STATUS []).1 = 0 := by
    decide
  obtain ⟨evs, h1, _, _, h4, _, h6⟩ := C2_pump_order (simDev 0 0) 0 EXT_ROM_CTRL_STATUS []
    (List.replicate 20 0) 5 (by decide) hok
  exact ⟨by decide, hok, evs, h1, h4, by simpa using h6 (by norm_num)⟩

/-- C2 fails as stated at a file of `2 ^ 32 + 2` dwords: on the simulated
device the run returns 0 and makes the masked write of bits 8 and 9 twice. -/
theorem C2_counterexample :
    (do_upload (simDev 0 0) 0 (List.replicate (4 * (2 ^ 32 + 2)) 0) EXT_ROM_CTRL_STATUS []).1 = 0 ∧
      (((do_upload (simDev 0 0) 0 (List.replicate (4 * (2 ^ 32 + 2)) 0)
          EXT_ROM_CTRL_STATUS []).2).map Event.step).countP (isCombined EXT_ROM_CTRL_STATUS) = 2 := by
  obtain ⟨h0, evs, h1, h2⟩ := do_upload_wrap_combined (simDev 0 0) 0 EXT_ROM_CTRL_STATUS []
    (List.replicate (4 * (2 ^ 32 + 2)) 0) (simDev_ready 0 0 _) (List.length_replicate _ _)
  rw [List.nil_append] at h1
  rw [h1]
  exact ⟨h0, h2⟩

theorem storeBytes_two_and (rc : Int) (old d m : Nat) (hrc : 2 ≤ rc) (hm : m < 2 ^ 16) :
    storeBytes 2 rc old d &&& m = d &&& m := by
  apply Nat.eq_of_testBit_eq
  intro i
  simp only [Nat.testBit_and]
  by_cases hi : i < 16
  · rw [storeBytes_two_testBit rc old d i hrc hi]
  · rw [testBit_eq_false_of_lt m i 16 hm (by omega)]
    simp

theorem eeprom_exists_ready (dev : Device) (u : Nat) (tr : Trace) (hdev : GateReady dev) :
    (eeprom_exists dev u tr).1 = 0 ∧
      ∃ evs, (eeprom_exists dev u tr).2 = tr ++ evs ∧
        evs.map Event.step = [(.read16 EXT_ROM_CTRL_STATUS, .bits 0x8000)] := by
  obtain ⟨hrc, h15, _⟩ := hdev.1 tr
  have hne : storeBytes 2 (dev tr (.read16 EXT_ROM_CTRL_STATUS)).1 u
      (dev tr (.read16 EXT_ROM_CTRL_STATUS)).2 &&& (1 <<< ROM_EXISTS) ≠ 0 := by
    intro h0
    rw [read_bit_status_zero _ _ _ _ (by decide) hrc, h15] at h0
    exact absurd h0 (by decide)
  have hnn : ¬ (dev tr (.read16 EXT_ROM_CTRL_STATUS)).1 < 0 := by omega
  unfold eeprom_exists
  rw [read_bit_eq]
  simp only [hnn, hne, if_false]
  exact ⟨trivial, _, rfl, rfl⟩

theorem rom_access_poll_ready (dev : Device) (n reg : Nat) (tr : Trace) (hdev : GateReady dev) :
    (rom_access_poll dev (n + 1) reg tr).1 = 0 ∧
      ∃ evs, (rom_access_poll dev (n + 1) reg tr).2 = tr ++ evs ∧
        evs.map Event.step = [(.read16 EXT_ROM_CTRL_STATUS, .plain)] := by
  obtain ⟨hrc, _, hres⟩ := hdev.1 tr
  rw [rom_access_poll]
  simp only [pci_cfg_read16, storeBytes_two_and _ _ _ _ hrc (show RESULT_BITMASK < 2 ^ 16 by decide),
    hres, if_true]
  exact ⟨trivial, _, rfl, rfl⟩

theorem write_bit_one_ok (dev : Device) (u reg b : Nat) (tr : Trace) (hb : b < 16)
    (hr : 0 ≤ (dev tr (.read16 reg)).1) (hw : ∀ h v, 0 ≤ (dev h (.write16 reg v)).1) :
    0 ≤ (write_bit dev u reg b 1 tr).1 ∧
      ∃ sig, (write_bit dev u reg b 1 tr).2 = tr ++ sig ∧
        sig.map Event.step =
          [(.read16 reg, .rmw (1 <<< b)), (.write16 reg (1 <<< b), .rmw (1 <<< b))] := by
  have h := write_bitmask_ok dev u reg (1 <<< b) ((1 <<< b) % 2 ^ 32) tr (one_shiftLeft_lt b hb)
    hr hw
  rw [write_bit_one_value b hb] at h
  exact h

theorem write_bit_zero_ok (dev : Device) (u reg b : Nat) (tr : Trace) (hb : b < 16)
    (hr : 0 ≤ (dev tr (.read16 reg)).1) (hw : ∀ h v, 0 ≤ (dev h (.write16 reg v)).1) :
    0 ≤ (write_bit dev u reg b 0 tr).1 ∧
      ∃ sig, (write_bit dev u reg b 0 tr).2 = tr ++ sig ∧
        sig.map Event.step =
          [(.read16 reg, .rmw (1 <<< b)), (.write16 reg 0, .rmw (1 <<< b))] := by
  have h := write_bitmask_ok dev u reg (1 <<< b) ((0 <<< b) % 2 ^ 32) tr (one_shiftLeft_lt b hb)
    hr hw
  rw [write_bit_zero_value b] at h
  exact h

/-- The enable sequence on a ready device: the exists check, the magic value
written to DATA0, the masked write that sets the access-enable bit, one poll of
the result field. -/
theorem enable_ready (dev : Device) (u : Nat) (tr : Trace) (hdev : GateReady dev) :
    (external_rom_access dev u true tr).1 = 0 ∧
      ∃ evs, (external_rom_access dev u true tr).2 = tr ++ evs ∧
        evs.map Event.step =
          [(.read16 EXT_ROM_CTRL_STATUS, .bits 0x8000),
           (.write32 EXT_DATA0 0x53524F4D, .plain),
           (.read16 EXT_ROM_CTRL_STATUS, .rmw 1),
           (.write16 EXT_ROM_CTRL_STATUS 1, .rmw 1),
           (.read16 EXT_ROM_CTRL_STATUS, .plain)] := by
  obtain ⟨he0, e1, he1, he2⟩ := eeprom_exists_ready dev u tr hdev
  unfold external_rom_access
  simp only [he0, lt_self_iff_false, if_false, if_true, he1, pci_cfg_write32]
  set w : Event := ⟨.write32 EXT_DATA0 (0x53524F4D % 2 ^ 32),
    (dev (tr ++ e1) (.write32 EXT_DATA0 (0x53524F4D % 2 ^ 32))).1, 0, .plain⟩ with hw
  have hwrc : ¬ (dev (tr ++ e1) (.write32 EXT_DATA0 (0x53524F4D % 2 ^ 32))).1 < 0 := by
    have := hdev.2.1 (tr ++ e1) EXT_DATA0 (0x53524F4D % 2 ^ 32)
    omega
  rw [if_neg hwrc]
  obtain ⟨hb0, sig, hs1, hs2⟩ := write_bit_one_ok dev u EXT_ROM_CTRL_STATUS ROM_ACCESS_ENABLE
    (tr ++ e1 ++ [w]) (by decide) (by have := (hdev.1 (tr ++ e1 ++ [w])).1; omega) hdev.2.2
  rw [if_neg (not_lt.mpr hb0), hs1]
  have hL : LOOPNB = 99999 + 1 := rfl
  rw [hL]
  obtain ⟨hp0, pe, hp1, hp2⟩ := rom_access_poll_ready dev 99999 u (tr ++ e1 ++ [w] ++ sig) hdev
  refine ⟨hp0, e1 ++ [w] ++ sig ++ pe, by rw [hp1]; simp, ?_⟩
  simp only [List.map_append, he2, hs2, hp2, List.map_cons, List.map_nil]
  rfl

/-- The disable sequence on a ready device: the exists check and the masked
write that clears the access-enable bit. -/
theorem disable_ready (dev : Device) (u : Nat) (tr : Trace) (hdev : GateReady dev) :
    (external_rom_access dev u false tr).1 = 0 ∧
      ∃ evs, (external_rom_access dev u false tr).2 = tr ++ evs ∧
        evs.map Event.step =
          [(.read16 EXT_ROM_CTRL_STATUS, .bits 0x8000),
           (.read16 EXT_ROM_CTRL_STATUS, .rmw 1),
           (.write16 EXT_ROM_CTRL_STATUS 0, .rmw 1)] := by
  obtain ⟨he0, e1, he1, he2⟩ := eeprom_exists_ready dev u tr hdev
  unfold external_rom_access
  simp only [he0, lt_self_iff_false, if_false, he1, Bool.false_eq_true]
  obtain ⟨hb0, sig, hs1, hs2⟩ := write_bit_zero_ok dev u EXT_ROM_CTRL_STATUS ROM_ACCESS_ENABLE
    (tr ++ e1) (by decide) (by have := (hdev.1 (tr ++ e1)).1; omega) hdev.2.2
  rw [if_neg (not_lt.mpr hb0), hs1]
  refine ⟨rfl, e1 ++ sig, by simp, ?_⟩
  simp only [List.map_append, he2, hs2]
  rfl

/-- The completion check on a device that shows success at once: one 32-bit
read of the control register. -/
theorem test_upload_result_ready (dev : Device) (u ctrl : Nat) (tr : Trace)
    (hdev : CheckReady dev ctrl) :
    (test_upload_result dev u ctrl tr).1 = 0 ∧
      ∃ evs, (test_upload_result dev u ctrl tr).2.2 = tr ++ evs ∧
        evs.map Event.step = [(.read32 ctrl, .plain)] := by
  obtain ⟨hrc, hres⟩ := hdev tr
  have hnn : ¬ (dev tr (.read32 ctrl)).1 < 0 := by omega
  have hL : LOOPNB = 99999 + 1 := rfl
  have hpoll : test_upload_poll dev ctrl LOOPNB u tr =
      ((dev tr (.read32 ctrl)).2 % 2 ^ 32,
        tr ++ [⟨.read32 ctrl, (dev tr (.read32 ctrl)).1, (dev tr (.read32 ctrl)).2, .plain⟩]) := by
    rw [hL, test_upload_poll]
    simp only [pci_cfg_read32, hnn, if_false, storeBytes_four _ _ _ hrc,
      mod_and_small _ _ (show RESULT_BITMASK < 2 ^ 32 by decide), hres, if_true]
  unfold test_upload_result
  rw [hpoll]
  simp only [mod_and_small _ _ (show RESULT_BITMASK < 2 ^ 32 by decide), hres, ne_eq,
    not_true_eq_false, if_false]
  exact ⟨trivial, _, rfl, rfl⟩

theorem list_length_four {α : Type} (l : List α) (h : l.length = 4) :
    ∃ a b c d, l = [a, b, c, d] := by
  match l, h with
  | [a, b, c, d], _ => exact ⟨a, b, c, d, rfl⟩

/-- C3. On a device on which the EEPROM exists, 16-bit reads of the ROM control
register show the result field pending and the set bits clear, the 32-bit read
of the completion check shows the result field success, and every access
succeeds, `write_eeprom` on an image of 16 bytes (dwords `d0 .. d3`) returns 0
and makes exactly these steps, in this order: the exists check, the magic
value 0x53524F4D to DATA0, the masked write setting the access-enable bit,
one poll of the result field; for each dword a poll of its lane bit and the
write to DATA0, DATA1, DATA0, DATA1, with no signal after dword 0, the masked
write of bits 8 and 9 together after dword 1, bit 8 after dword 2 and bit 9
after dword 3; the exists check and the masked write clearing the
access-enable bit; the 32-bit read of the ROM control register 0xF6. -/
theorem C3_write_eeprom_trace (dev : Device) (u : Nat) (tr : Trace) (file : List Nat)
    (hrom : GateReady dev) (hpump : PumpReady dev EXT_ROM_CTRL_STATUS)
    (hchk : CheckReady dev EXT_ROM_CTRL_STATUS)
    (hlen : file.length = 16) :
    (write_eeprom dev u (some file) tr).1 = 0 ∧
      ∃ evs d0 d1 d2 d3, dwords file = [d0, d1, d2, d3] ∧
        (write_eeprom dev u (some file) tr).2 = tr ++ evs ∧
        evs.map Event.step =
          [(.read16 0xF6, .bits 0x8000),
           (.write32 0xF8 0x53524F4D, .plain),
           (.read16 0xF6, .rmw 1),
           (.write16 0xF6 1, .rmw 1),
           (.read16 0xF6, .plain),
           (.read16 0xF6, .bits 0x100),
           (.write32 0xF8 d0, .plain),
           (.read16 0xF6, .bits 0x200),
           (.write32 0xFC d1, .plain),
           (.read16 0xF6, .rmw 0x300),
           (.write16 0xF6 0x300, .rmw 0x300),
           (.read16 0xF6, .bits 0x100),
           (.write32 0xF8 d2, .plain),
           (.read16 0xF6, .rmw 0x100),
           (.write16 0xF6 0x100, .rmw 0x100),
           (.read16 0xF6, .bits 0x200),
           (.write32 0xFC d3, .plain),
           (.read16 0xF6, .rmw 0x200),
           (.write16 0xF6 0x200, .rmw 0x200),
           (.read16 0xF6, .bits 0x8000),
           (.read16 0xF6, .rmw 1),
           (.write16 0xF6 0, .rmw 1),
           (.read32 0xF6, .plain)] := by
  obtain ⟨d0, d1, d2, d3, hd⟩ := list_length_four (dwords file)
    (by rw [dwords_length, hlen])
  obtain ⟨a0, ea, ha1, ha2⟩ := enable_ready dev u tr hrom
  obtain ⟨b0, eb, hb1, hb2⟩ := do_upload_loop_ready dev u EXT_ROM_CTRL_STATUS hpump file 0 u
    (tr ++ ea) (by omega)
  have hb0' : (do_upload dev u file EXT_ROM_CTRL_STATUS (tr ++ ea)).1 = 0 := b0
  have hb1' : (do_upload dev u file EXT_ROM_CTRL_STATUS (tr ++ ea)).2 = tr ++ ea ++ eb := hb1
  obtain ⟨c0, ec, hc1, hc2⟩ := disable_ready dev u (tr ++ ea ++ eb) hrom
  obtain ⟨t0, et, ht1, ht2⟩ := test_upload_result_ready dev u EXT_ROM_CTRL_STATUS
    (tr ++ ea ++ eb ++ ec) hchk
  have hres : write_eeprom dev u (some file) tr = (0, tr ++ ea ++ eb ++ ec ++ et) := by
    unfold write_eeprom
    simp only [a0, ha1, hb0', hb1', c0, hc1, t0, ht1, lt_self_iff_false, if_false]
  rw [hres]
  refine ⟨rfl, ea ++ eb ++ ec ++ et, d0, d1, d2, d3, hd, by simp, ?_⟩
  rw [List.map_append, List.map_append, List.map_append, ha2, hb2, hc2, ht2, hd]
  rfl

theorem simDev_gateReady (d0 d1 : Nat) : GateReady (simDev d0 d1) := by
  refine ⟨fun h => ⟨le_refl (2 : Int), ?_, ?_⟩, fun h off v => ?_, fun h v => ?_⟩
  · show Nat.testBit 0x8000 15 = true
    decide
  · show 0x8000 &&& RESULT_BITMASK = RESULT_INVALID
    decide
  · show (0 : Int) ≤ 4
    decide
  · show (0 : Int) ≤ 2
    decide

theorem simDev_getReady (d0 d1 : Nat) : GetReady (simDev d0 d1) := by
  intro h
  refine ⟨?_, ?_⟩
  · show Nat.testBit 0x8000 10 = false
    decide
  · show Nat.testBit 0x8000 11 = false
    decide

theorem simDev_checkReady (d0 d1 : Nat) : CheckReady (simDev d0 d1) EXT_ROM_CTRL_STATUS := by
  intro h
  refine ⟨le_refl (4 : Int), ?_⟩
  show 0x8010 &&& RESULT_BITMASK = RESULT_SUCCESS
  decide

/-- C3 on the simulated device with an image of 16 zero bytes. -/
theorem C3_write_eeprom_trace_witness :
    GateReady (simDev 0 0) ∧ PumpReady (simDev 0 0) EXT_ROM_CTRL_STATUS ∧
      CheckReady (simDev 0 0) EXT_ROM_CTRL_STATUS ∧
      (List.replicate 16 0).length = 16 ∧
      (write_eeprom (simDev 0 0) 0 (some (List.replicate 16 0)) []).1 = 0 :=
  ⟨simDev_gateReady 0 0, simDev_ready 0 0 _, simDev_checkReady 0 0, by decide,
    (C3_write_eeprom_trace (simDev 0 0) 0 [] (List.replicate 16 0) (simDev_gateReady 0 0)
      (simDev_ready 0 0 _) (simDev_checkReady 0 0) (by decide)).1⟩

/-- The poll loop on a device that never shows bit `bit` of `reg` clear: all
`n` polls miss. -/
theorem poll_bit_zero_never (dev : Device) (reg bit : Nat) (hbit : bit < 16)
    (hdev : ∀ h, (dev h (.read16 reg)).1 < 0 ∨
      (2 ≤ (dev h (.read16 reg)).1 ∧ (dev h (.read16 reg)).2.testBit bit = true)) :
    ∀ (n status : Nat) (tr : Trace),
      (poll_bit_zero dev reg bit n status tr).1 = false ∧
      ∃ polls, (poll_bit_zero dev reg bit n status tr).2.2 = tr ++ polls ∧ polls.length = n ∧
        ∀ e ∈ polls, e.step = (.read16 reg, .bits (1 <<< bit)) ∧ e.pollMiss bit := by
  intro n
  induction n with
  | zero => intro status tr; exact ⟨rfl, [], by simp [poll_bit_zero], rfl, by simp⟩
  | succ n ih =>
    intro status tr
    rw [poll_bit_zero, read_bit_eq]
    have hmiss : ¬ ((dev tr (.read16 reg)).1 ≥ 0 ∧
        storeBytes 2 (dev tr (.read16 reg)).1 status (dev tr (.read16 reg)).2 &&& (1 <<< bit) = 0) := by
      rintro ⟨h0, hz⟩
      rcases hdev tr with hneg | ⟨h2, hset⟩
      · omega
      · rw [read_bit_status_zero _ _ _ _ hbit h2, hset] at hz
        exact absurd hz (by decide)
    simp only [hmiss, if_false]
    obtain ⟨hf, polls, h1, h2, h3⟩ := ih
      (storeBytes 2 (dev tr (.read16 reg)).1 status (dev tr (.read16 reg)).2 &&& (1 <<< bit))
      (tr ++ [⟨.read16 reg, (dev tr (.read16 reg)).1, (dev tr (.read16 reg)).2, .bits (1 <<< bit)⟩])
    refine ⟨hf, ⟨.read16 reg, (dev tr (.read16 reg)).1, (dev tr (.read16 reg)).2,
      .bits (1 <<< bit)⟩ :: polls, by rw [h1]; simp, by simp [h2], ?_⟩
    intro e he
    rcases List.mem_cons.1 he with rfl | he
    · exact ⟨rfl, rfl, hdev tr⟩
    · exact h3 e he

/-- C6 (amended). For every device and every input, in the events of a run of
`do_upload`: every write of a data register comes directly after a poll of the
set bit of its lane that returned a non-negative count and (when the read was
complete) showed the bit clear; and a block of 100,000 consecutive missed
polls of one bit is followed by no further access, the call returning -1.
When the 16-bit reads of the control register never show set-data0 (bit 8)
clear and the input holds at least one complete dword (4 bytes or more),
`do_upload` returns -1 after exactly 100,000 polls of bit 8, all of them
missed, and makes no other access, so no write to a data register. -/
theorem C6_pump_timeout (dev : Device) (u ctrl : Nat) (tr : Trace) (file : List Nat) :
    ∃ evs, (do_upload dev u file ctrl tr).2 = tr ++ evs ∧
      PolledBeforeWrite ctrl evs ∧
      TimeoutEnds (do_upload dev u file ctrl tr).1 evs ∧
      (4 ≤ file.length →
        (∀ h, (dev h (.read16 ctrl)).1 < 0 ∨
          (2 ≤ (dev h (.read16 ctrl)).1 ∧ (dev h (.read16 ctrl)).2.testBit 8 = true)) →
        (do_upload dev u file ctrl tr).1 = -1 ∧ evs.length = LOOPNB ∧
          ∀ e ∈ evs, e.step = (.read16 ctrl, .bits 0x100) ∧ e.pollMiss 8 ∧ e.isWrite = false) := by
  obtain ⟨evs, h1, h2, _, h4⟩ := do_upload_loop_facts dev u ctrl file 0 u tr
  refine ⟨evs, h1, h2, h4, ?_⟩
  intro hlen hdev
  obtain ⟨hf, polls, hp1, hp2, hp3⟩ := poll_bit_zero_never dev ctrl 8 (by decide) hdev LOOPNB u tr
  match file, hlen with
  | b0 :: b1 :: b2 :: b3 :: rest, _ =>
    have hbody : do_upload_body dev u ctrl 0 u (le32 b0 b1 b2 b3) tr =
        (-1, (poll_bit_zero dev ctrl 8 LOOPNB u tr).2.1, tr ++ polls) := by
      unfold do_upload_body
      simp only [Nat.zero_and, Nat.add_zero, hf, if_true, hp1]
    have hrun : do_upload_loop dev u ctrl (b0 :: b1 :: b2 :: b3 :: rest) 0 u tr =
        (-1, tr ++ polls) := by
      rw [do_upload_loop_cons, hbody]
      simp
    show (do_upload_loop dev u ctrl (b0 :: b1 :: b2 :: b3 :: rest) 0 u tr).1 = -1 ∧ _
    rw [hrun] at h1 ⊢
    have hev : evs = polls := (List.append_cancel_left h1).symm
    subst hev
    refine ⟨rfl, hp2, ?_⟩
    intro e he
    obtain ⟨hs, hm⟩ := hp3 e he
    refine ⟨hs, hm, ?_⟩
    have hacc : e.acc = .read16 ctrl := by
      cases e with
      | mk acc rc data tag =>
        cases acc <;> cases tag <;> simp [Event.step] at hs ⊢
        all_goals exact hs.1
    simp [Event.isWrite, hacc]

/-- C6 on the device whose control register always reads bit 8 set, with an input
of one dword: the run fails after 100,000 polls. -/
theorem C6_pump_timeout_witness :
    (4 ≤ [0, 0, 0, 0].length) ∧
      (∀ h, (stuckDev h (.read16 EXT_ROM_CTRL_STATUS)).1 < 0 ∨
        (2 ≤ (stuckDev h (.read16 EXT_ROM_CTRL_STATUS)).1 ∧
          (stuckDev h (.read16 EXT_ROM_CTRL_STATUS)).2.testBit 8 = true)) ∧
      (do_upload stuckDev 0 [0, 0, 0, 0] EXT_ROM_CTRL_STATUS []).1 = -1 := by
  have hdev : ∀ h, (stuckDev h (.read16 EXT_ROM_CTRL_STATUS)).1 < 0 ∨
        (2 ≤ (stuckDev h (.read16 EXT_ROM_CTRL_STATUS)).1 ∧
          (stuckDev h (.read16 EXT_ROM_CTRL_STATUS)).2.testBit 8 = true) :=
    fun _ => Or.inr ⟨le_refl (2 : Int), by show Nat.testBit 0x100 8 = true; decide⟩
  obtain ⟨evs, _, _, _, h⟩ := C6_pump_timeout stuckDev 0 EXT_ROM_CTRL_STATUS [] [0, 0, 0, 0]
  exact ⟨by decide, hdev, (h (by decide) hdev).1⟩

/-- C6 fails as stated for a non-empty input shorter than a dword: with an input
of one byte, on the device whose control register always reads bit 8 set,
`do_upload` returns -1 without a single poll. -/
theorem C6_counterexample :
    (∀ h, (stuckDev h (.read16 EXT_ROM_CTRL_STATUS)).2.testBit 8 = true) ∧
      do_upload stuckDev 0 [0] EXT_ROM_CTRL_STATUS [] = (-1, []) :=
  ⟨fun _ => by show Nat.testBit 0x100 8 = true; decide, rfl⟩

theorem do_upload_loop_ragged (dev : Device) (u ctrl : Nat) :
    ∀ (file : List Nat) (i status : Nat) (tr : Trace), file.length % 4 ≠ 0 →
      do_upload_loop dev u ctrl file i status tr =
        (-1, (do_upload_loop dev u ctrl (file.take (file.length / 4 * 4)) i status tr).2) := by
  intro file
  induction file using four_bytes_induction with
  | h0 => intro i status tr h; simp at h
  | h1 a => intro i status tr _; simp [do_upload_loop]
  | h2 a b => intro i status tr _; simp [do_upload_loop]
  | h3 a b c => intro i status tr _; simp [do_upload_loop]
  | h4 b0 b1 b2 b3 rest ih =>
    intro i status tr h
    have hlen : rest.length % 4 ≠ 0 := by
      simp only [List.length_cons] at h
      omega
    have htake : (b0 :: b1 :: b2 :: b3 :: rest).take
        ((b0 :: b1 :: b2 :: b3 :: rest).length / 4 * 4) =
        b0 :: b1 :: b2 :: b3 :: rest.take (rest.length / 4 * 4) := by
      have : (b0 :: b1 :: b2 :: b3 :: rest).length / 4 * 4 = rest.length / 4 * 4 + 4 := by
        simp only [List.length_cons]
        omega
      rw [this]
      rfl
    rw [htake, do_upload_loop_cons, do_upload_loop_cons]
    split
    · rfl
    · exact ih _ _ _ hlen

theorem dwords_take (file : List Nat) :
    dwords (file.take (file.length / 4 * 4)) = dwords file := by
  induction file using four_bytes_induction with
  | h0 => rfl
  | h1 a => simp [dwords]
  | h2 a b => simp [dwords]
  | h3 a b c => simp [dwords]
  | h4 b0 b1 b2 b3 rest ih =>
    have : (b0 :: b1 :: b2 :: b3 :: rest).length / 4 * 4 = rest.length / 4 * 4 + 4 := by
      simp only [List.length_cons]
      omega
    rw [this]
    show dwords (b0 :: b1 :: b2 :: b3 :: rest.take (rest.length / 4 * 4)) = _
    rw [dwords, dwords, ih]

/-- C7. For every device and every input whose length is not a multiple of 4,
`do_upload` returns -1, and its trace is that of the run on the input cut
after its last complete dword: the complete dwords are polled for, written
and signalled as in that run, and nothing is done for the final chunk of 1, 2
or 3 bytes, which is never written to a data register.  When the run on the
complete dwords returns 0, these are the steps of `pumpSteps` (polls apart). -/
theorem C7_ragged_input (dev : Device) (u ctrl : Nat) (tr : Trace) (file : List Nat)
    (hlen : file.length % 4 ≠ 0) :
    (do_upload dev u file ctrl tr).1 = -1 ∧
      (do_upload dev u file ctrl tr).2 =
        (do_upload dev u (file.take (file.length / 4 * 4)) ctrl tr).2 ∧
      (file.take (file.length / 4 * 4)).length % 4 = 0 ∧
      dwords (file.take (file.length / 4 * 4)) = dwords file ∧
      ∃ evs, (do_upload dev u file ctrl tr).2 = tr ++ evs ∧
        ((do_upload dev u (file.take (file.length / 4 * 4)) ctrl tr).1 = 0 →
          (evs.map Event.step).filter (fun s => !isPollStep s) =
            (pumpSteps ctrl 0 (dwords file)).filter (fun s => !isPollStep s)) := by
  have h := do_upload_loop_ragged dev u ctrl file 0 u tr hlen
  have h' : do_upload dev u file ctrl tr =
      (-1, (do_upload dev u (file.take (file.length / 4 * 4)) ctrl tr).2) := h
  have hl : (file.take (file.length / 4 * 4)).length % 4 = 0 := by
    rw [List.length_take]
    omega
  obtain ⟨evs, h1, _, h3⟩ := do_upload_loop_steps dev u ctrl (file.take (file.length / 4 * 4)) 0 u tr
  have h1' : (do_upload dev u (file.take (file.length / 4 * 4)) ctrl tr).2 = tr ++ evs := h1
  refine ⟨by rw [h'], by rw [h'], hl, dwords_take file, evs, by rw [h', h1'], ?_⟩
  · intro hok
    have := (h3 hok).2
    rw [dwords_take] at this
    exact this

/-- C7 on the simulated device with an input of 6 bytes: the run fails, after
the one complete dword was written. -/
theorem C7_ragged_input_witness :
    [1, 2, 3, 4, 5, 6].length % 4 ≠ 0 ∧
      (do_upload (simDev 0 0) 0 [1, 2, 3, 4, 5, 6] EXT_ROM_CTRL_STATUS []).1 = -1 ∧
      (do_upload (simDev 0 0) 0 [1, 2, 3, 4, 5, 6] EXT_ROM_CTRL_STATUS []).2 =
        (do_upload (simDev 0 0) 0 [1, 2, 3, 4] EXT_ROM_CTRL_STATUS []).2 :=
  ⟨by decide,
    (C7_ragged_input (simDev 0 0) 0 EXT_ROM_CTRL_STATUS [] [1, 2, 3, 4, 5, 6] (by decide)).1,
    (C7_ragged_input (simDev 0 0) 0 EXT_ROM_CTRL_STATUS [] [1, 2, 3, 4, 5, 6] (by decide)).2.1⟩

/-- Any run of the body of the inner loop of `read_eeprom` for lane `data01`:
it returns 0 or -1, makes only get steps, appends at most one dword to the
output, and when it returns 0 it appended exactly one dword and its steps
other than the polls are the read of the data register and the masked write
of the get bit. -/
theorem read_eeprom_body_spec (dev : Device) (u data01 : Nat) (s : RdState) (hd : data01 < 2) :
    ∃ evs, (read_eeprom_body dev u data01 s).2.tr = s.tr ++ evs ∧
      ((read_eeprom_body dev u data01 s).1 = 0 ∨ (read_eeprom_body dev u data01 s).1 = -1) ∧
      (∀ e ∈ evs, isGetStep e.step = true) ∧
      ((read_eeprom_body dev u data01 s).2.out = s.out ∨
        ∃ x, (read_eeprom_body dev u data01 s).2.out = s.out ++ [x]) ∧
      ((read_eeprom_body dev u data01 s).1 = 0 →
        (∃ x, (read_eeprom_body dev u data01 s).2.out = s.out ++ [x]) ∧
        (evs.map Event.step).filter (fun t => !isPollStep t) = (laneSteps data01).tail) := by
  have hbit : 10 + data01 < 16 := by omega
  obtain ⟨polls, hp1, _, hp3, _⟩ :=
    poll_bit_zero_spec dev EXT_ROM_CTRL_STATUS (10 + data01) hbit LOOPNB s.status s.tr
  have hpstep : ∀ e ∈ polls, e.step =
      (.read16 EXT_ROM_CTRL_STATUS, .bits (1 <<< (10 + data01))) :=
    fun e he => step_of_read16 e _ _ (hp3 e he).1 (hp3 e he).2
  have hpget : ∀ e ∈ polls, isGetStep e.step = true := by
    intro e he
    rw [hpstep e he]
    have : data01 = 0 ∨ data01 = 1 := by omega
    rcases this with h | h <;> subst h <;> rfl
  have hreg : DATAREG (10 + data01) = if data01 = 0 then EXT_DATA0 else EXT_DATA1 := by
    have : data01 = 0 ∨ data01 = 1 := by omega
    rcases this with h | h <;> subst h <;> rfl
  unfold read_eeprom_body
  simp only [ROM_GET_DATA0, hreg, hp1, pci_cfg_read32]
  by_cases hf : (poll_bit_zero dev EXT_ROM_CTRL_STATUS (10 + data01) LOOPNB s.status
      s.tr).1 = false
  · rw [if_pos hf]
    exact ⟨polls, rfl, Or.inr rfl, hpget, Or.inl rfl, fun h => by simp at h⟩
  · rw [if_neg hf]
    set r : Event := ⟨.read32 (if data01 = 0 then EXT_DATA0 else EXT_DATA1),
      (dev (s.tr ++ polls) (.read32 (if data01 = 0 then EXT_DATA0 else EXT_DATA1))).1,
      (dev (s.tr ++ polls) (.read32 (if data01 = 0 then EXT_DATA0 else EXT_DATA1))).2, .plain⟩
      with hr
    have hrget : isGetStep r.step = true := by
      have : data01 = 0 ∨ data01 = 1 := by omega
      rcases this with h | h <;> subst h <;> simp [hr, Event.step, isGetStep]
    by_cases hrc : (dev (s.tr ++ polls)
        (.read32 (if data01 = 0 then EXT_DATA0 else EXT_DATA1))).1 < 0
    · rw [if_pos hrc]
      refine ⟨polls ++ [r], by simp, Or.inr rfl, ?_, Or.inl rfl, fun h => by simp at h⟩
      intro e he
      rcases List.mem_append.1 he with he | he
      · exact hpget e he
      · rw [List.mem_singleton.1 he]; exact hrget
    · rw [if_neg hrc]
      obtain ⟨sig, hs1, hs2⟩ := write_bit_one_spec dev u EXT_ROM_CTRL_STATUS
        (10 + data01) (s.tr ++ polls ++ [r]) hbit
      have hsigget : ∀ e ∈ sig, isGetStep e.step = true := by
        intro e he
        have hm : e.step ∈ sig.map Event.step := List.mem_map_of_mem _ he
        have hsub : e.step = (.read16 EXT_ROM_CTRL_STATUS, .rmw (1 <<< (10 + data01))) ∨
            e.step = (.write16 EXT_ROM_CTRL_STATUS (1 <<< (10 + data01)),
              .rmw (1 <<< (10 + data01))) := by
          rcases hs2 with ⟨h, _⟩ | ⟨h, _⟩
          · rw [h] at hm
            exact Or.inl (List.mem_singleton.1 hm)
          · rw [h] at hm
            simpa using hm
        have h01 : data01 = 0 ∨ data01 = 1 := by omega
        rcases hsub with h | h <;> rw [h] <;> rcases h01 with h1 | h1 <;> rw [h1] <;> rfl
      have hall : ∀ e ∈ polls ++ [r] ++ sig, isGetStep e.step = true := by
        intro e he
        rcases List.mem_append.1 he with he | he
        · rcases List.mem_append.1 he with he | he
          · exact hpget e he
          · rw [List.mem_singleton.1 he]; exact hrget
        · exact hsigget e he
      by_cases hb : (write_bit dev u EXT_ROM_CTRL_STATUS (10 + data01) 1
          (s.tr ++ polls ++ [r])).1 < 0
      · rw [if_pos hb]
        exact ⟨polls ++ [r] ++ sig, by rw [hs1]; simp, Or.inr rfl, hall, Or.inr ⟨_, rfl⟩,
          fun h => by simp at h⟩
      · rw [if_neg hb]
        refine ⟨polls ++ [r] ++ sig, by rw [hs1]; simp, Or.inl rfl, hall, Or.inr ⟨_, rfl⟩,
          fun _ => ⟨⟨_, rfl⟩, ?_⟩⟩
        rcases hs2 with ⟨_, hneg⟩ | ⟨h, _⟩
        · exact absurd hneg hb
        · simp only [List.map_append, List.filter_append, polls_filter polls _ _ hpstep, h,
            List.map_cons, List.map_nil, List.nil_append]
          rfl

theorem eeprom_exists_spec (dev : Device) (u : Nat) (tr : Trace) :
    ((eeprom_exists dev u tr).1 = 0 ∨ (eeprom_exists dev u tr).1 = -1) ∧
      ∃ e, (eeprom_exists dev u tr).2 = tr ++ [e] ∧
        e.step = (.read16 EXT_ROM_CTRL_STATUS, .bits 0x8000) := by
  unfold eeprom_exists
  rw [read_bit_eq]
  simp only
  split
  · exact ⟨Or.inr rfl, _, rfl, rfl⟩
  · split
    · exact ⟨Or.inr rfl, _, rfl, rfl⟩
    · exact ⟨Or.inl rfl, _, rfl, rfl⟩

theorem rom_access_poll_spec (dev : Device) :
    ∀ (n reg : Nat) (tr : Trace),
      ((rom_access_poll dev n reg tr).1 = 0 ∨ (rom_access_poll dev n reg tr).1 = -1) ∧
      ∃ polls, (rom_access_poll dev n reg tr).2 = tr ++ polls ∧ polls.length ≤ n ∧
        ∀ e ∈ polls, e.step = (.read16 EXT_ROM_CTRL_STATUS, .plain) := by
  intro n
  induction n with
  | zero => intro reg tr; exact ⟨Or.inr rfl, [], by simp [rom_access_poll], by simp, by simp⟩
  | succ n ih =>
    intro reg tr
    rw [rom_access_poll]
    simp only [pci_cfg_read16]
    split
    · exact ⟨Or.inl rfl, [_], rfl, by simp, by simp [step_read16]⟩
    · obtain ⟨hrc, polls, h1, h2, h3⟩ := ih
        (storeBytes 2 (dev tr (.read16 EXT_ROM_CTRL_STATUS)).1 reg
          (dev tr (.read16 EXT_ROM_CTRL_STATUS)).2)
        (tr ++ [⟨.read16 EXT_ROM_CTRL_STATUS, (dev tr (.read16 EXT_ROM_CTRL_STATUS)).1,
          (dev tr (.read16 EXT_ROM_CTRL_STATUS)).2, .plain⟩])
      refine ⟨hrc, ⟨.read16 EXT_ROM_CTRL_STATUS, (dev tr (.read16 EXT_ROM_CTRL_STATUS)).1,
        (dev tr (.read16 EXT_ROM_CTRL_STATUS)).2, .plain⟩ :: polls, by rw [h1]; simp,
        by simp; omega, ?_⟩
      intro e he
      rcases List.mem_cons.1 he with rfl | he
      · rfl
      · exact h3 e he

/-- Any run of the enable sequence: an initial part of `enableHead`, all of it
when the masked write succeeded, followed (then only) by at most `LOOPNB`
polls of the result field; all of `enableHead` when the run returns 0. -/
theorem enable_spec (dev : Device) (u : Nat) (tr : Trace) :
    ((external_rom_access dev u true tr).1 = 0 ∨ (external_rom_access dev u true tr).1 = -1) ∧
      ∃ evs k polls, (external_rom_access dev u true tr).2 = tr ++ evs ∧
        evs.map Event.step = enableHead.take k ++ polls ∧
        (∀ s ∈ polls, s = (.read16 EXT_ROM_CTRL_STATUS, .plain)) ∧
        ((external_rom_access dev u true tr).1 = 0 → k = 4) := by
  obtain ⟨he0, e, he1, he2⟩ := eeprom_exists_spec dev u tr
  unfold external_rom_access
  simp only [if_true, he1, pci_cfg_write32]
  by_cases h1 : (eeprom_exists dev u tr).1 < 0
  · rw [if_pos h1]
    exact ⟨Or.inr rfl, [e], 1, [], rfl, by simp [he2, enableHead], by simp, fun h => by simp at h⟩
  · rw [if_neg h1]
    set w : Event := ⟨.write32 EXT_DATA0 (0x53524F4D % 2 ^ 32),
      (dev (tr ++ [e]) (.write32 EXT_DATA0 (0x53524F4D % 2 ^ 32))).1, 0, .plain⟩ with hw
    have hwstep : w.step = (.write32 EXT_DATA0 0x53524F4D, .plain) := rfl
    by_cases h2 : (dev (tr ++ [e]) (.write32 EXT_DATA0 (0x53524F4D % 2 ^ 32))).1 < 0
    · rw [if_pos h2]
      exact ⟨Or.inr rfl, [e, w], 2, [], by simp, by simp [he2, hwstep, enableHead], by simp,
        fun h => by simp at h⟩
    · rw [if_neg h2]
      obtain ⟨sig, hs1, hs2⟩ := write_bit_one_spec dev u EXT_ROM_CTRL_STATUS ROM_ACCESS_ENABLE
        (tr ++ [e] ++ [w]) (by decide)
      by_cases h3 : (write_bit dev u EXT_ROM_CTRL_STATUS ROM_ACCESS_ENABLE 1
          (tr ++ [e] ++ [w])).1 < 0
      · rw [if_pos h3]
        rcases hs2 with ⟨h, _⟩ | ⟨h, _⟩
        · refine ⟨Or.inr rfl, e :: w :: sig, 3, [], by rw [hs1]; simp, ?_, by simp,
            fun h => by simp at h⟩
          simp only [List.map_cons, he2, hwstep, h]
          rfl
        · refine ⟨Or.inr rfl, e :: w :: sig, 4, [], by rw [hs1]; simp, ?_, by simp,
            fun h => by simp at h⟩
          simp only [List.map_cons, he2, hwstep, h]
          rfl
      · rw [if_neg h3]
        rcases hs2 with ⟨_, hneg⟩ | ⟨h, _⟩
        · exact absurd hneg h3
        · obtain ⟨hrc, polls, hp1, _, hp3⟩ := rom_access_poll_spec dev LOOPNB u
            (write_bit dev u EXT_ROM_CTRL_STATUS ROM_ACCESS_ENABLE 1 (tr ++ [e] ++ [w])).2
          refine ⟨hrc, e :: w :: sig ++ polls, 4, polls.map Event.step,
            by rw [hp1, hs1]; simp, ?_, ?_, fun _ => rfl⟩
          · simp only [List.map_append, List.map_cons, he2, hwstep, h]
            rfl
          · intro s hs
            obtain ⟨p, hp, rfl⟩ := List.mem_map.1 hs
            exact hp3 p hp

/-- Any run of the disable sequence: an initial part of `disableSteps`, all of
it when the run returns 0. -/
theorem disable_spec (dev : Device) (u : Nat) (tr : Trace) :
    ((external_rom_access dev u false tr).1 = 0 ∨ (external_rom_access dev u false tr).1 = -1) ∧
      ∃ evs k, (external_rom_access dev u false tr).2 = tr ++ evs ∧
        evs.map Event.step = disableSteps.take k ∧
        ((external_rom_access dev u false tr).1 = 0 → k = 3) := by
  obtain ⟨he0, e, he1, he2⟩ := eeprom_exists_spec dev u tr
  unfold external_rom_access
  simp only [Bool.false_eq_true, if_false, he1]
  by_cases h1 : (eeprom_exists dev u tr).1 < 0
  · rw [if_pos h1]
    exact ⟨Or.inr rfl, [e], 1, rfl, by simp [he2, disableSteps], fun h => by simp at h⟩
  · rw [if_neg h1]
    obtain ⟨sig, hs1, hs2⟩ := write_bit_zero_spec dev u EXT_ROM_CTRL_STATUS ROM_ACCESS_ENABLE
      (tr ++ [e]) (by decide)
    by_cases h3 : (write_bit dev u EXT_ROM_CTRL_STATUS ROM_ACCESS_ENABLE 0 (tr ++ [e])).1 < 0
    · rw [if_pos h3]
      rcases hs2 with ⟨h, _⟩ | ⟨h, _⟩
      · refine ⟨Or.inr rfl, e :: sig, 2, by rw [hs1]; simp, ?_, fun h => by simp at h⟩
        simp only [List.map_cons, he2, h]
        rfl
      · refine ⟨Or.inr rfl, e :: sig, 3, by rw [hs1]; simp, ?_, fun h => by simp at h⟩
        simp only [List.map_cons, he2, h]
        rfl
    · rw [if_neg h3]
      rcases hs2 with ⟨_, hneg⟩ | ⟨h, _⟩
      · exact absurd hneg h3
      · refine ⟨Or.inl rfl, e :: sig, 3, by rw [hs1]; simp, ?_, fun _ => rfl⟩
        simp only [List.map_cons, he2, h]
        rfl

theorem countP_dataRead_filter (l : List (Access × Tag)) :
    (l.filter (fun s => !isPollStep s)).countP isDataRead = l.countP isDataRead := by
  induction l with
  | nil => rfl
  | cons s l ih =>
    by_cases hp : isPollStep s = true
    · have hc : isDataRead s = false := by
        rcases s with ⟨a, t⟩
        cases a <;> cases t <;> simp [isPollStep, isDataRead] at hp ⊢
      rw [List.filter_cons_of_neg (by simp [hp]), List.countP_cons_of_neg _ _ (by simp [hc]), ih]
    · rw [List.filter_cons_of_pos (by simpa using hp), List.countP_cons, List.countP_cons, ih]

theorem laneSteps_tail_count (lane : Nat) (h : lane < 2) :
    (laneSteps lane).tail.countP isDataRead = 1 := by
  have : lane = 0 ∨ lane = 1 := by omega
  rcases this with h | h <;> subst h <;> rfl

/-- Any run of the inner loop of `read_eeprom`. -/
theorem read_eeprom_inner_spec (dev : Device) (u : Nat) :
    ∀ (n data01 : Nat) (s : RdState), data01 + n ≤ 2 →
      ∃ evs, (read_eeprom_inner dev u n data01 s).2.tr = s.tr ++ evs ∧
        ((read_eeprom_inner dev u n data01 s).1 = 0 ∨
          (read_eeprom_inner dev u n data01 s).1 = -1) ∧
        (∀ e ∈ evs, isGetStep e.step = true) ∧
        ((read_eeprom_inner dev u n data01 s).1 = 0 →
          (read_eeprom_inner dev u n data01 s).2.out.length = s.out.length + n ∧
          (evs.map Event.step).countP isDataRead = n) := by
  intro n
  induction n with
  | zero =>
    intro data01 s _
    exact ⟨[], by simp [read_eeprom_inner], Or.inl rfl, by simp, fun _ => ⟨rfl, rfl⟩⟩
  | succ n ih =>
    intro data01 s hd
    rw [read_eeprom_inner]
    obtain ⟨bevs, hb1, hb2, hb3, _, hb5⟩ := read_eeprom_body_spec dev u data01 s (by omega)
    by_cases hneg : (read_eeprom_body dev u data01 s).1 < 0
    · rw [if_pos hneg]
      refine ⟨bevs, hb1, hb2, hb3, fun h => ?_⟩
      rw [h] at hneg
      exact absurd hneg (by decide)
    · rw [if_neg hneg]
      have hz : (read_eeprom_body dev u data01 s).1 = 0 := by
        rcases hb2 with h | h
        · exact h
        · rw [h] at hneg; exact absurd (by decide) hneg
      obtain ⟨⟨x, hx⟩, hfil⟩ := hb5 hz
      obtain ⟨evs, h1, h2, h3, h4⟩ := ih (data01 + 1) (read_eeprom_body dev u data01 s).2 (by omega)
      refine ⟨bevs ++ evs, by rw [h1, hb1]; simp, h2, ?_, ?_⟩
      · intro e he
        rcases List.mem_append.1 he with he | he
        · exact hb3 e he
        · exact h3 e he
      · intro hok
        obtain ⟨hl, hc⟩ := h4 hok
        refine ⟨by rw [hl, hx]; simp; omega, ?_⟩
        rw [List.map_append, List.countP_append, hc, ← countP_dataRead_filter, hfil,
          laneSteps_tail_count data01 (by omega)]
        omega

/-- Any run of the outer loop of `read_eeprom`. -/
theorem read_eeprom_outer_spec (dev : Device) (u : Nat) :
    ∀ (n : Nat) (s : RdState),
      ∃ evs, (read_eeprom_outer dev u n s).2.tr = s.tr ++ evs ∧
        ((read_eeprom_outer dev u n s).1 = 0 ∨ (read_eeprom_outer dev u n s).1 = -1) ∧
        (∀ e ∈ evs, isGetStep e.step = true) ∧
        ((read_eeprom_outer dev u n s).1 = 0 →
          (read_eeprom_outer dev u n s).2.out.length = s.out.length + 2 * n ∧
          (evs.map Event.step).countP isDataRead = 2 * n) := by
  intro n
  induction n with
  | zero =>
    intro s
    exact ⟨[], by simp [read_eeprom_outer], Or.inl rfl, by simp, fun _ => ⟨rfl, rfl⟩⟩
  | succ n ih =>
    intro s
    rw [read_eeprom_outer]
    obtain ⟨bevs, hb1, hb2, hb3, hb4⟩ := read_eeprom_inner_spec dev u 2 0 s (by omega)
    by_cases hneg : (read_eeprom_inner dev u 2 0 s).1 < 0
    · rw [if_pos hneg]
      refine ⟨bevs, hb1, hb2, hb3, fun h => ?_⟩
      rw [h] at hneg
      exact absurd hneg (by decide)
    · rw [if_neg hneg]
      have hz : (read_eeprom_inner dev u 2 0 s).1 = 0 := by
        rcases hb2 with h | h
        · exact h
        · rw [h] at hneg; exact absurd (by decide) hneg
      obtain ⟨hl0, hc0⟩ := hb4 hz
      obtain ⟨evs, h1, h2, h3, h4⟩ := ih (read_eeprom_inner dev u 2 0 s).2
      refine ⟨bevs ++ evs, by rw [h1, hb1]; simp, h2, ?_, ?_⟩
      · intro e he
        rcases List.mem_append.1 he with he | he
        · exact hb3 e he
        · exact h3 e he
      · intro hok
        obtain ⟨hl, hc⟩ := h4 hok
        refine ⟨by rw [hl, hl0]; omega, ?_⟩
        rw [List.map_append, List.countP_append, hc, hc0]
        omega

theorem resultPolls_countP (polls : List (Access × Tag)) (p : Access × Tag → Bool)
    (hp : p (.read16 EXT_ROM_CTRL_STATUS, .plain) = false)
    (h : ∀ s ∈ polls, s = (.read16 EXT_ROM_CTRL_STATUS, .plain)) : polls.countP p = 0 := by
  rw [List.countP_eq_zero]
  intro s hs
  rw [h s hs, hp]
  simp

theorem resultPolls_filter (polls : List (Access × Tag)) (p : Access × Tag → Bool)
    (hp : p (.read16 EXT_ROM_CTRL_STATUS, .plain) = false)
    (h : ∀ s ∈ polls, s = (.read16 EXT_ROM_CTRL_STATUS, .plain)) : polls.filter p = [] := by
  rw [List.filter_eq_nil_iff]
  intro s hs
  rw [h s hs, hp]
  simp

/-- The stages of a run of `read_eeprom` that returns 0. -/
theorem read_eeprom_ok (dev : Device) (u len : Nat) (tr : Trace)
    (hok : (read_eeprom dev u true len tr).1 = 0) :
    ∃ ee polls g0 g1 le de out,
      (read_eeprom dev u true len tr).2.1 = out ∧
      (read_eeprom dev u true len tr).2.2 = tr ++ (ee ++ g0 ++ g1 ++ le ++ de) ∧
      ee.map Event.step = enableHead ++ polls ∧
      (∀ s ∈ polls, s = (.read16 EXT_ROM_CTRL_STATUS, .plain)) ∧
      g0.map Event.step = [(.read16 EXT_ROM_CTRL_STATUS, .rmw 0x400),
        (.write16 EXT_ROM_CTRL_STATUS 0x400, .rmw 0x400)] ∧
      g1.map Event.step = [(.read16 EXT_ROM_CTRL_STATUS, .rmw 0x800),
        (.write16 EXT_ROM_CTRL_STATUS 0x800, .rmw 0x800)] ∧
      (∀ e ∈ le, isGetStep e.step = true) ∧
      out.length = 2 * (len % 2 ^ 32 / 8) ∧
      (le.map Event.step).countP isDataRead = 2 * (len % 2 ^ 32 / 8) ∧
      (len % 2 ^ 32 / 8 = 0 → le = []) ∧
      de.map Event.step = disableSteps := by
  obtain ⟨hE, ee, k, polls, he1, he2, he3, he4⟩ := enable_spec dev u tr
  obtain ⟨s0, hs01, hs02⟩ := write_bit_one_spec dev u EXT_ROM_CTRL_STATUS ROM_GET_DATA0
    (external_rom_access dev u true tr).2 (by decide)
  obtain ⟨s1, hs11, hs12⟩ := write_bit_one_spec dev u EXT_ROM_CTRL_STATUS ROM_GET_DATA1
    (write_bit dev u EXT_ROM_CTRL_STATUS ROM_GET_DATA0 1 (external_rom_access dev u true tr).2).2
    (by decide)
  obtain ⟨le, hl1, hl2, hl3, hl4⟩ := read_eeprom_outer_spec dev u (len % 2 ^ 32 / 8)
    ⟨u, u, [], (write_bit dev u EXT_ROM_CTRL_STATUS ROM_GET_DATA1 1
      (write_bit dev u EXT_ROM_CTRL_STATUS ROM_GET_DATA0 1
        (external_rom_access dev u true tr).2).2).2⟩
  obtain ⟨hD, de, kd, hd1, hd2, hd3⟩ := disable_spec dev u
    (read_eeprom_outer dev u (len % 2 ^ 32 / 8)
      ⟨u, u, [], (write_bit dev u EXT_ROM_CTRL_STATUS ROM_GET_DATA1 1
        (write_bit dev u EXT_ROM_CTRL_STATUS ROM_GET_DATA0 1
          (external_rom_access dev u true tr).2).2).2⟩).2.tr
  unfold read_eeprom at hok ⊢
  simp only [Bool.true_eq_false, if_false] at hok ⊢
  by_cases c1 : (external_rom_access dev u true tr).1 < 0
  · rw [if_pos c1] at hok; simp at hok
  rw [if_neg c1] at hok ⊢
  by_cases c2 : (write_bit dev u EXT_ROM_CTRL_STATUS ROM_GET_DATA0 1
      (external_rom_access dev u true tr).2).1 < 0
  · rw [if_pos c2] at hok; simp at hok
  rw [if_neg c2] at hok ⊢
  by_cases c3 : (write_bit dev u EXT_ROM_CTRL_STATUS ROM_GET_DATA1 1
      (write_bit dev u EXT_ROM_CTRL_STATUS ROM_GET_DATA0 1
        (external_rom_access dev u true tr).2).2).1 < 0
  · rw [if_pos c3] at hok; simp at hok
  rw [if_neg c3] at hok ⊢
  by_cases c4 : (read_eeprom_outer dev u (len % 2 ^ 32 / 8)
      ⟨u, u, [], (write_bit dev u EXT_ROM_CTRL_STATUS ROM_GET_DATA1 1
        (write_bit dev u EXT_ROM_CTRL_STATUS ROM_GET_DATA0 1
          (external_rom_access dev u true tr).2).2).2⟩).1 < 0
  · rw [if_pos c4] at hok; simp at hok
  rw [if_neg c4] at hok ⊢
  by_cases c5 : (external_rom_access dev u false (read_eeprom_outer dev u (len % 2 ^ 32 / 8)
      ⟨u, u, [], (write_bit dev u EXT_ROM_CTRL_STATUS ROM_GET_DATA1 1
        (write_bit dev u EXT_ROM_CTRL_STATUS ROM_GET_DATA0 1
          (external_rom_access dev u true tr).2).2).2⟩).2.tr).1 < 0
  · rw [if_pos c5] at hok; simp at hok
  rw [if_neg c5]
  -- every stage succeeded
  have e0 : (external_rom_access dev u true tr).1 = 0 := by
    rcases hE with h | h
    · exact h
    · rw [h] at c1; exact absurd (by decide) c1
  have hk : k = 4 := he4 e0
  subst hk
  have hg0 : s0.map Event.step = [(.read16 EXT_ROM_CTRL_STATUS, .rmw 0x400),
      (.write16 EXT_ROM_CTRL_STATUS 0x400, .rmw 0x400)] := by
    rcases hs02 with ⟨_, h⟩ | ⟨h, _⟩
    · exact absurd h c2
    · exact h
  have hg1 : s1.map Event.step = [(.read16 EXT_ROM_CTRL_STATUS, .rmw 0x800),
      (.write16 EXT_ROM_CTRL_STATUS 0x800, .rmw 0x800)] := by
    rcases hs12 with ⟨_, h⟩ | ⟨h, _⟩
    · exact absurd h c3
    · exact h
  have l0 : (read_eeprom_outer dev u (len % 2 ^ 32 / 8)
      ⟨u, u, [], (write_bit dev u EXT_ROM_CTRL_STATUS ROM_GET_DATA1 1
        (write_bit dev u EXT_ROM_CTRL_STATUS ROM_GET_DATA0 1
          (external_rom_access dev u true tr).2).2).2⟩).1 = 0 := by
    rcases hl2 with h | h
    · exact h
    · rw [h] at c4; exact absurd (by decide) c4
  obtain ⟨hlen, hcnt⟩ := hl4 l0
  have d0 : (external_rom_access dev u false (read_eeprom_outer dev u (len % 2 ^ 32 / 8)
      ⟨u, u, [], (write_bit dev u EXT_ROM_CTRL_STATUS ROM_GET_DATA1 1
        (write_bit dev u EXT_ROM_CTRL_STATUS ROM_GET_DATA0 1
          (external_rom_access dev u true tr).2).2).2⟩).2.tr).1 = 0 := by
    rcases hD with h | h
    · exact h
    · rw [h] at c5; exact absurd (by decide) c5
  have hkd : kd = 3 := hd3 d0
  subst hkd
  refine ⟨ee, polls, s0, s1, le, de, _, rfl, ?_, he2, he3, hg0, hg1, hl3, ?_, hcnt, ?_, hd2⟩
  · rw [hd1, hl1]
    dsimp only
    rw [hs11, hs01, he1]
    simp only [List.append_assoc]
  · simpa using hlen
  · intro hn
    rw [hn] at hl1
    simpa [read_eeprom_outer] using hl1

/-- C9. For every device and every size `len` below `2 ^ 32`, a run of
`read_eeprom` that returns 0 has read a data register exactly
`2 * (len / 8)` times and has written as many dwords to the output file, that
is `len - len % 8` bytes: a size that is not a multiple of 8 is cut down
without failing.  For a size below 8 the output is empty, and the writes of
the run are those of the gate: the magic value, the access-enable bit set,
the two get bits primed, the access-enable bit cleared. -/
theorem C9_download_size (dev : Device) (u len : Nat) (tr : Trace) (hlen : len < 2 ^ 32)
    (hok : (read_eeprom dev u true len tr).1 = 0) :
    ∃ evs, (read_eeprom dev u true len tr).2.2 = tr ++ evs ∧
      (read_eeprom dev u true len tr).2.1.length = 2 * (len / 8) ∧
      4 * (read_eeprom dev u true len tr).2.1.length = len - len % 8 ∧
      (evs.map Event.step).countP isDataRead = 2 * (len / 8) ∧
      (len < 8 →
        (read_eeprom dev u true len tr).2.1 = [] ∧
        (evs.map Event.step).filter isWriteStep =
          [(.write32 EXT_DATA0 0x53524F4D, .plain),
           (.write16 EXT_ROM_CTRL_STATUS 1, .rmw 1),
           (.write16 EXT_ROM_CTRL_STATUS 0x400, .rmw 0x400),
           (.write16 EXT_ROM_CTRL_STATUS 0x800, .rmw 0x800),
           (.write16 EXT_ROM_CTRL_STATUS 0, .rmw 1)]) := by
  obtain ⟨ee, polls, g0, g1, le, de, out, ho, ht, he, hp, hg0, hg1, _, hlen', hcnt, hnil, hd⟩ :=
    read_eeprom_ok dev u len tr hok
  have hmod : len % 2 ^ 32 = len := Nat.mod_eq_of_lt hlen
  rw [hmod] at hlen' hcnt hnil
  refine ⟨ee ++ g0 ++ g1 ++ le ++ de, ht, by rw [ho, hlen'], by rw [ho, hlen']; omega, ?_, ?_⟩
  · simp only [List.map_append, List.countP_append, he, hg0, hg1, hd, hcnt,
      resultPolls_countP polls isDataRead rfl hp]
    have h1 : enableHead.countP isDataRead = 0 := rfl
    have h2 : disableSteps.countP isDataRead = 0 := rfl
    rw [h1, h2]
    simp [isDataRead]
  · intro h8
    have hn : len / 8 = 0 := by omega
    have hle : le = [] := hnil hn
    refine ⟨?_, ?_⟩
    · rw [ho]
      exact List.length_eq_zero.1 (by rw [hlen', hn])
    · subst hle
      simp only [List.map_append, List.filter_append, he, hg0, hg1, hd, List.map_nil,
        List.filter_nil, List.append_nil, resultPolls_filter polls isWriteStep rfl hp]
      rfl

/-- C9 on the simulated device with a size of 20 bytes: 4 dwords are output. -/
theorem C9_download_size_witness :
    (20 < 2 ^ 32) ∧ (read_eeprom (simDev 1 2) 0 true 20 []).1 = 0 ∧
      (read_eeprom (simDev 1 2) 0 true 20 []).2.1.length = 4 := by
  have hok : (read_eeprom (simDev 1 2) 0 true 20 []).1 = 0 := by decide
  obtain ⟨evs, _, h, _⟩ := C9_download_size (simDev 1 2) 0 20 [] (by norm_num) hok
  exact ⟨by norm_num, hok, h⟩

theorem readData_append (l1 l2 : List Event) : readData (l1 ++ l2) = readData l1 ++ readData l2 := by
  simp [readData, List.filterMap_append]

/-- The body of the inner loop of `read_eeprom` on a ready device. -/
theorem read_eeprom_body_ready (dev : Device) (u data01 : Nat) (s : RdState) (hd : data01 < 2)
    (hrom : GateReady dev) (hget : GetReady dev) (hdata : DataReady dev) :
    (read_eeprom_body dev u data01 s).1 = 0 ∧
      ∃ evs h, (read_eeprom_body dev u data01 s).2.tr = s.tr ++ evs ∧
        evs.map Event.step = laneSteps data01 ∧
        (read_eeprom_body dev u data01 s).2.out = s.out ++
          [(dev h (.read32 (if data01 = 0 then EXT_DATA0 else EXT_DATA1))).2 % 2 ^ 32] ∧
        readData evs = [(dev h (.read32 (if data01 = 0 then EXT_DATA0 else EXT_DATA1))).2 % 2 ^ 32] := by
  have hbit : 10 + data01 < 16 := by omega
  have h01 : data01 = 0 ∨ data01 = 1 := by omega
  have hclear : (dev s.tr (.read16 EXT_ROM_CTRL_STATUS)).2.testBit (10 + data01) = false := by
    rcases h01 with h | h <;> subst h
    · exact (hget s.tr).1
    · exact (hget s.tr).2
  have hpoll := poll_bit_zero_hit dev EXT_ROM_CTRL_STATUS (10 + data01) 99999 s.status s.tr hbit
    (hrom.1 s.tr).1 hclear
  have hreg : DATAREG (10 + data01) = if data01 = 0 then EXT_DATA0 else EXT_DATA1 := by
    rcases h01 with h | h <;> subst h <;> rfl
  have hL : LOOPNB = 99999 + 1 := rfl
  unfold read_eeprom_body
  simp only [ROM_GET_DATA0, hreg, pci_cfg_read32]
  rw [hL, hpoll]
  simp only [Bool.true_eq_false, if_false]
  set p : Event := ⟨.read16 EXT_ROM_CTRL_STATUS, (dev s.tr (.read16 EXT_ROM_CTRL_STATUS)).1,
    (dev s.tr (.read16 EXT_ROM_CTRL_STATUS)).2, .bits (1 <<< (10 + data01))⟩ with hp
  set r : Event := ⟨.read32 (if data01 = 0 then EXT_DATA0 else EXT_DATA1),
    (dev (s.tr ++ [p]) (.read32 (if data01 = 0 then EXT_DATA0 else EXT_DATA1))).1,
    (dev (s.tr ++ [p]) (.read32 (if data01 = 0 then EXT_DATA0 else EXT_DATA1))).2, .plain⟩ with hr
  have hrc4 : 4 ≤ (dev (s.tr ++ [p]) (.read32 (if data01 = 0 then EXT_DATA0 else EXT_DATA1))).1 := by
    rcases h01 with h | h <;> subst h
    · exact (hdata (s.tr ++ [p])).1
    · exact (hdata (s.tr ++ [p])).2
  have hrc : ¬ (dev (s.tr ++ [p]) (.read32 (if data01 = 0 then EXT_DATA0 else EXT_DATA1))).1 < 0 := by
    omega
  rw [if_neg hrc, storeBytes_four _ _ _ hrc4]
  obtain ⟨hok, sig, hs1, hs2⟩ := write_bit_one_ok dev u EXT_ROM_CTRL_STATUS (10 + data01)
    (s.tr ++ [p] ++ [r]) hbit (by have := (hrom.1 (s.tr ++ [p] ++ [r])).1; omega) hrom.2.2
  rw [if_neg (not_lt.mpr hok)]
  refine ⟨rfl, p :: r :: sig, s.tr ++ [p], by rw [hs1]; simp, ?_, rfl, ?_⟩
  · rw [List.map_cons, List.map_cons, hs2]
    rfl
  · have hsig : readData sig = [] := by
      unfold readData
      rw [List.filterMap_eq_nil_iff]
      intro e he
      have hm : e.step ∈ sig.map Event.step := List.mem_map_of_mem _ he
      rw [hs2] at hm
      simp only [List.mem_cons, List.mem_singleton, List.not_mem_nil, or_false] at hm
      rcases hm with h | h <;> rw [h] <;> rfl
    have hcons : readData (p :: r :: sig) = readData [p] ++ readData [r] ++ readData sig := by
      rw [← readData_append, ← readData_append]; rfl
    rw [hcons, hsig]
    rcases h01 with h | h <;> subst h <;> rfl

/-- The outer loop of `read_eeprom` on a ready device. -/
theorem read_eeprom_outer_ready (dev : Device) (u : Nat) (hrom : GateReady dev)
    (hget : GetReady dev) (hdata : DataReady dev) :
    ∀ (n : Nat) (s : RdState),
      (read_eeprom_outer dev u n s).1 = 0 ∧
      ∃ evs, (read_eeprom_outer dev u n s).2.tr = s.tr ++ evs ∧
        evs.map Event.step = downloadLoopSteps n ∧
        (read_eeprom_outer dev u n s).2.out = s.out ++ readData evs ∧
        ∀ d0 d1, (∀ h, (dev h (.read32 EXT_DATA0)).2 = d0) →
          (∀ h, (dev h (.read32 EXT_DATA1)).2 = d1) → readData evs = constOutput d0 d1 n := by
  intro n
  induction n with
  | zero =>
    intro s
    exact ⟨rfl, [], by simp [read_eeprom_outer], rfl, by simp [read_eeprom_outer, readData],
      fun _ _ _ _ => rfl⟩
  | succ n ih =>
    intro s
    obtain ⟨a0, ea, ha, ha1, ha2, ha3, ha4⟩ := read_eeprom_body_ready dev u 0 s (by decide) hrom hget hdata
    obtain ⟨b0, eb, hb, hb1, hb2, hb3, hb4⟩ := read_eeprom_body_ready dev u 1
      (read_eeprom_body dev u 0 s).2 (by decide) hrom hget hdata
    have hinner : read_eeprom_inner dev u 2 0 s =
        (0, (read_eeprom_body dev u 1 (read_eeprom_body dev u 0 s).2).2) := by
      rw [read_eeprom_inner, a0]
      simp only [lt_self_iff_false, if_false]
      rw [read_eeprom_inner]
      simp only [Nat.zero_add, b0, lt_self_iff_false, if_false]
      rw [read_eeprom_inner]
    rw [read_eeprom_outer, hinner]
    simp only [lt_self_iff_false, if_false]
    obtain ⟨c0, ec, hc1, hc2, hc3, hc4⟩ := ih (read_eeprom_body dev u 1 (read_eeprom_body dev u 0 s).2).2
    refine ⟨c0, ea ++ eb ++ ec, by rw [hc1, hb1, ha1]; simp, ?_, ?_, ?_⟩
    · rw [List.map_append, List.map_append, ha2, hb2, hc2]
      rfl
    · rw [hc3, hb3, ha3, readData_append, readData_append, ha4, hb4]
      simp
    · intro d0 d1 h0 h1
      rw [readData_append, readData_append, ha4, hb4, hc4 d0 d1 h0 h1]
      simp only [if_true, h0 ha]
      have : (dev hb (.read32 (if (1 : Nat) = 0 then EXT_DATA0 else EXT_DATA1))).2 = d1 := h1 hb
      rw [this]
      rfl

theorem readData_nil_of_steps (evs : List Event) (l : List (Access × Tag))
    (h : evs.map Event.step = l) (hl : l.all (fun s => !isDataRead s) = true) :
    readData evs = [] := by
  unfold readData
  rw [List.filterMap_eq_nil_iff]
  intro e he
  have hm : e.step ∈ l := h ▸ List.mem_map_of_mem _ he
  have := List.all_eq_true.1 hl _ hm
  simp only [Bool.not_eq_true', ] at this
  simp [this]

/-- C8. On a device on which the EEPROM exists, the gate settles at once, all
get bits read 0 and every access succeeds, `read_eeprom` returns 0 and makes
exactly these steps: the enable sequence, the priming of the get bits 10 and
11, then for every group of 8 bytes lane 0 and lane 1 in this order, each as
`laneSteps` (the poll of get bit 10 resp. 11, the read of DATA0 = 0xF8 resp.
DATA1 = 0xFC, the masked write setting the same get bit to 1), then the
disable sequence.  The output file holds the dwords delivered by the reads of
the data registers, in the order of the reads; when DATA0 always delivers `d0`
and DATA1 always `d1` these are `d0, d1` once per group, so for a size of 8
exactly the two dwords `d0, d1`. -/
theorem C8_download_trace (dev : Device) (u len : Nat) (tr : Trace)
    (hrom : GateReady dev) (hget : GetReady dev) (hdata : DataReady dev) :
    (read_eeprom dev u true len tr).1 = 0 ∧
      ∃ evs, (read_eeprom dev u true len tr).2.2 = tr ++ evs ∧
        evs.map Event.step =
          enableHead ++ [(.read16 EXT_ROM_CTRL_STATUS, .plain)] ++ primeSteps ++
            downloadLoopSteps (len % 2 ^ 32 / 8) ++ disableSteps ∧
        (read_eeprom dev u true len tr).2.1 = readData evs ∧
        ∀ d0 d1, (∀ h, (dev h (.read32 EXT_DATA0)).2 = d0) →
          (∀ h, (dev h (.read32 EXT_DATA1)).2 = d1) →
          (read_eeprom dev u true len tr).2.1 = constOutput d0 d1 (len % 2 ^ 32 / 8) ∧
          (len = 8 → (read_eeprom dev u true len tr).2.1 = [d0 % 2 ^ 32, d1 % 2 ^ 32]) := by
  obtain ⟨a0, ea, ha1, ha2⟩ := enable_ready dev u tr hrom
  obtain ⟨b0, eb, hb1, hb2⟩ := write_bit_one_ok dev u EXT_ROM_CTRL_STATUS ROM_GET_DATA0
    (tr ++ ea) (by decide) (by have := (hrom.1 (tr ++ ea)).1; omega) hrom.2.2
  obtain ⟨c0, ec, hc1, hc2⟩ := write_bit_one_ok dev u EXT_ROM_CTRL_STATUS ROM_GET_DATA1
    (tr ++ ea ++ eb) (by decide) (by have := (hrom.1 (tr ++ ea ++ eb)).1; omega) hrom.2.2
  obtain ⟨l0, el, hl1, hl2, hl3, hl4⟩ := read_eeprom_outer_ready dev u hrom hget hdata
    (len % 2 ^ 32 / 8) ⟨u, u, [], tr ++ ea ++ eb ++ ec⟩
  obtain ⟨d0', ed, hd1, hd2⟩ := disable_ready dev u (tr ++ ea ++ eb ++ ec ++ el) hrom
  simp only at hl1 hl3
  have hres : read_eeprom dev u true len tr =
      (0, readData el, tr ++ ea ++ eb ++ ec ++ el ++ ed) := by
    unfold read_eeprom
    simp only [Bool.true_eq_false, if_false, a0, ha1, lt_self_iff_false, not_lt.mpr b0, hb1,
      not_lt.mpr c0, hc1, l0, hl1, d0', hd1, hl3, List.nil_append]
  have hra : readData ea = [] := readData_nil_of_steps ea _ ha2 (by decide)
  have hrb : readData eb = [] := readData_nil_of_steps eb _ hb2 (by decide)
  have hrc : readData ec = [] := readData_nil_of_steps ec _ hc2 (by decide)
  have hrd : readData ed = [] := readData_nil_of_steps ed _ hd2 (by decide)
  rw [hres]
  refine ⟨rfl, ea ++ eb ++ ec ++ el ++ ed, by simp, ?_, ?_, ?_⟩
  · simp only [List.map_append, ha2, hb2, hc2, hl2, hd2]
    rfl
  · simp only [readData_append, hra, hrb, hrc, hrd, List.nil_append, List.append_nil]
  · intro d0 d1 h0 h1
    have hc := hl4 d0 d1 h0 h1
    refine ⟨hc, ?_⟩
    intro h8
    show readData el = _
    rw [hc, h8]
    rfl

/-- C8 in the scenario of the claim: the simulated device exposes 0xAABBCCDD and
0x11223344 and the size is 8; the output is exactly these two dwords. -/
theorem C8_download_trace_witness :
    GateReady (simDev 0xAABBCCDD 0x11223344) ∧ GetReady (simDev 0xAABBCCDD 0x11223344) ∧
      DataReady (simDev 0xAABBCCDD 0x11223344) ∧
      (read_eeprom (simDev 0xAABBCCDD 0x11223344) 0 true 8 []).1 = 0 ∧
      (read_eeprom (simDev 0xAABBCCDD 0x11223344) 0 true 8 []).2.1 = [0xAABBCCDD, 0x11223344] := by
  have hdata : DataReady (simDev 0xAABBCCDD 0x11223344) :=
    fun _ => ⟨le_refl (4 : Int), le_refl (4 : Int)⟩
  obtain ⟨h0, evs, _, _, _, h⟩ := C8_download_trace (simDev 0xAABBCCDD 0x11223344) 0 8 []
    (simDev_gateReady _ _) (simDev_getReady _ _) hdata
  exact ⟨simDev_gateReady _ _, simDev_getReady _ _, hdata, h0,
    (h 0xAABBCCDD 0x11223344 (fun _ => rfl) (fun _ => rfl)).2 rfl⟩

theorem isPumpStep_not_clear (ctrl reg : Nat) (s : Access × Tag) (h : isPumpStep ctrl s = true) :
    isClearEnable reg s = false := by
  rcases s with ⟨a, t⟩
  cases a <;> cases t <;> simp [isPumpStep, isClearEnable] at h ⊢
  obtain ⟨⟨_, hv⟩, _⟩ := h
  intro _ h0
  rw [hv]
  exact h0

theorem isGetStep_not_clear (reg : Nat) (s : Access × Tag) (h : isGetStep s = true) :
    isClearEnable reg s = false := by
  rcases s with ⟨a, t⟩
  cases a <;> cases t <;> simp [isGetStep, isClearEnable] at h ⊢
  obtain ⟨⟨_, hv⟩, _⟩ := h
  intro _ h0
  rw [hv]
  exact h0

/-- No event of the enable sequence clears the access-enable bit. -/
theorem enable_not_clear (dev : Device) (u : Nat) (tr : Trace) :
    ∃ evs, (external_rom_access dev u true tr).2 = tr ++ evs ∧
      ∀ e ∈ evs, isClearEnable EXT_ROM_CTRL_STATUS e.step = false := by
  obtain ⟨_, evs, k, polls, h1, h2, h3, _⟩ := enable_spec dev u tr
  refine ⟨evs, h1, ?_⟩
  intro e he
  have hm : e.step ∈ evs.map Event.step := List.mem_map_of_mem _ he
  rw [h2] at hm
  rcases List.mem_append.1 hm with hm | hm
  · have hm' := List.mem_of_mem_take hm
    simp only [enableHead, List.mem_cons, List.mem_singleton, List.not_mem_nil, or_false] at hm'
    rcases hm' with h | h | h | h <;> rw [h] <;> rfl
  · rw [h3 _ hm]
    rfl

/-- No event of a `write_bit` that sets a bit to 1 clears the enable bit. -/
theorem write_bit_one_not_clear (dev : Device) (u reg b : Nat) (tr : Trace) (hb : b < 16) :
    ∃ evs, (write_bit dev u reg b 1 tr).2 = tr ++ evs ∧
      ∀ e ∈ evs, isClearEnable reg e.step = false := by
  obtain ⟨sig, h1, h2⟩ := write_bit_one_spec dev u reg b tr hb
  refine ⟨sig, h1, ?_⟩
  intro e he
  have hm : e.step ∈ sig.map Event.step := List.mem_map_of_mem _ he
  have hsub : e.step = (.read16 reg, .rmw (1 <<< b)) ∨
      e.step = (.write16 reg (1 <<< b), .rmw (1 <<< b)) := by
    rcases h2 with ⟨h, _⟩ | ⟨h, _⟩
    · rw [h] at hm
      exact Or.inl (List.mem_singleton.1 hm)
    · rw [h] at hm
      simpa using hm
  rcases hsub with h | h <;> rw [h]
  · rfl
  · simp only [isClearEnable, Bool.and_eq_false_imp, Bool.and_eq_true, decide_eq_true_eq,
      Bool.not_eq_false', and_imp]
    intro _ h0
    exact h0

/-- C10. In `write_eeprom`, `write_firmware` and `read_eeprom`, for every device:
when the enable step succeeded and a later stage before the disable step fails
(the pump of an upload; the priming or the transfer loop of a download), the
operation returns -1 with the trace of the stages up to the failing one, so
none of the remaining stages is performed, and no event of the whole run is a
masked write that clears the access-enable bit (bit 0 of 0xF6), respectively
the firmware-download-enable bit (bit 0 of 0xF4). -/
theorem C10_no_rollback (dev : Device) (u len : Nat) (tr : Trace) (bytes : List Nat) :
    (0 ≤ (external_rom_access dev u true tr).1 →
      (do_upload dev u bytes EXT_ROM_CTRL_STATUS (external_rom_access dev u true tr).2).1 < 0 →
      write_eeprom dev u (some bytes) tr =
          (-1, (do_upload dev u bytes EXT_ROM_CTRL_STATUS
            (external_rom_access dev u true tr).2).2) ∧
        ∃ evs, (write_eeprom dev u (some bytes) tr).2 = tr ++ evs ∧
          ∀ e ∈ evs, isClearEnable EXT_ROM_CTRL_STATUS e.step = false) ∧
    (0 ≤ (write_bit dev u EXT_FW_DLOAD_CTRL_STATUS FW_DLOAD_ENABLE 1 tr).1 →
      (do_upload dev u bytes EXT_FW_DLOAD_CTRL_STATUS
        (write_bit dev u EXT_FW_DLOAD_CTRL_STATUS FW_DLOAD_ENABLE 1 tr).2).1 < 0 →
      write_firmware dev u (some bytes) tr =
          (-1, (do_upload dev u bytes EXT_FW_DLOAD_CTRL_STATUS
            (write_bit dev u EXT_FW_DLOAD_CTRL_STATUS FW_DLOAD_ENABLE 1 tr).2).2) ∧
        ∃ evs, (write_firmware dev u (some bytes) tr).2 = tr ++ evs ∧
          ∀ e ∈ evs, isClearEnable EXT_FW_DLOAD_CTRL_STATUS e.step = false) ∧
    (let e := external_rom_access dev u true tr
     let g0 := write_bit dev u EXT_ROM_CTRL_STATUS ROM_GET_DATA0 1 e.2
     let g1 := write_bit dev u EXT_ROM_CTRL_STATUS ROM_GET_DATA1 1 g0.2
     let l := read_eeprom_outer dev u (len % 2 ^ 32 / 8) ⟨u, u, [], g1.2⟩
     0 ≤ e.1 → (g0.1 < 0 ∨ g1.1 < 0 ∨ l.1 < 0) →
      (read_eeprom dev u true len tr).1 = -1 ∧
        (read_eeprom dev u true len tr).2.2 =
          (if g0.1 < 0 then g0.2 else if g1.1 < 0 then g1.2 else l.2.tr) ∧
        ∃ evs, (read_eeprom dev u true len tr).2.2 = tr ++ evs ∧
          ∀ e ∈ evs, isClearEnable EXT_ROM_CTRL_STATUS e.step = false) := by
  refine ⟨?_, ?_, ?_⟩
  · intro he hd
    have hres : write_eeprom dev u (some bytes) tr =
        (-1, (do_upload dev u bytes EXT_ROM_CTRL_STATUS
          (external_rom_access dev u true tr).2).2) := by
      unfold write_eeprom
      simp only [not_lt.mpr he, if_false, hd, if_true]
    refine ⟨hres, ?_⟩
    rw [hres]
    obtain ⟨ee, he1, he2⟩ := enable_not_clear dev u tr
    obtain ⟨pe, hp1, _, hp3, _⟩ := do_upload_loop_facts dev u EXT_ROM_CTRL_STATUS bytes 0 u
      (external_rom_access dev u true tr).2
    have hp1' : (do_upload dev u bytes EXT_ROM_CTRL_STATUS (external_rom_access dev u true tr).2).2
        = (external_rom_access dev u true tr).2 ++ pe := hp1
    refine ⟨ee ++ pe, by rw [hp1', he1]; simp, ?_⟩
    intro e hmem
    rcases List.mem_append.1 hmem with h | h
    · exact he2 e h
    · exact isPumpStep_not_clear _ _ _ (hp3 e h)
  · intro he hd
    have hres : write_firmware dev u (some bytes) tr =
        (-1, (do_upload dev u bytes EXT_FW_DLOAD_CTRL_STATUS
          (write_bit dev u EXT_FW_DLOAD_CTRL_STATUS FW_DLOAD_ENABLE 1 tr).2).2) := by
      unfold write_firmware
      simp only [not_lt.mpr he, if_false, hd, if_true]
    refine ⟨hres, ?_⟩
    rw [hres]
    obtain ⟨ee, he1, he2⟩ := write_bit_one_not_clear dev u EXT_FW_DLOAD_CTRL_STATUS
      FW_DLOAD_ENABLE tr (by decide)
    obtain ⟨pe, hp1, _, hp3, _⟩ := do_upload_loop_facts dev u EXT_FW_DLOAD_CTRL_STATUS bytes 0 u
      (write_bit dev u EXT_FW_DLOAD_CTRL_STATUS FW_DLOAD_ENABLE 1 tr).2
    have hp1' : (do_upload dev u bytes EXT_FW_DLOAD_CTRL_STATUS
        (write_bit dev u EXT_FW_DLOAD_CTRL_STATUS FW_DLOAD_ENABLE 1 tr).2).2
        = (write_bit dev u EXT_FW_DLOAD_CTRL_STATUS FW_DLOAD_ENABLE 1 tr).2 ++ pe := hp1
    refine ⟨ee ++ pe, by rw [hp1', he1]; simp, ?_⟩
    intro e hmem
    rcases List.mem_append.1 hmem with h | h
    · exact he2 e h
    · exact isPumpStep_not_clear _ _ _ (hp3 e h)
  · intro e g0 g1 l he hfail
    obtain ⟨ee, he1, he2⟩ := enable_not_clear dev u tr
    obtain ⟨e0, h01, h02⟩ := write_bit_one_not_clear dev u EXT_ROM_CTRL_STATUS ROM_GET_DATA0
      e.2 (by decide)
    obtain ⟨e1, h11, h12⟩ := write_bit_one_not_clear dev u EXT_ROM_CTRL_STATUS ROM_GET_DATA1
      g0.2 (by decide)
    obtain ⟨el, hl1, _, hl3, _⟩ := read_eeprom_outer_spec dev u (len % 2 ^ 32 / 8)
      ⟨u, u, [], g1.2⟩
    have hg0 : g0.2 = tr ++ (ee ++ e0) := by
      show (write_bit dev u EXT_ROM_CTRL_STATUS ROM_GET_DATA0 1 e.2).2 = _
      rw [h01]
      show (external_rom_access dev u true tr).2 ++ e0 = _
      rw [he1, List.append_assoc]
    have hg1 : g1.2 = tr ++ (ee ++ e0 ++ e1) := by
      show (write_bit dev u EXT_ROM_CTRL_STATUS ROM_GET_DATA1 1 g0.2).2 = _
      rw [h11, hg0]
      simp only [List.append_assoc]
    have hl : l.2.tr = tr ++ (ee ++ e0 ++ e1 ++ el) := by
      show (read_eeprom_outer dev u (len % 2 ^ 32 / 8) ⟨u, u, [], g1.2⟩).2.tr = _
      rw [hl1]
      show g1.2 ++ el = _
      rw [hg1]
      simp only [List.append_assoc]
    have hne : ¬ e.1 < 0 := not_lt.mpr he
    have hcl0 : ∀ x ∈ ee ++ e0, isClearEnable EXT_ROM_CTRL_STATUS x.step = false := by
      intro x hx
      rcases List.mem_append.1 hx with h | h
      · exact he2 x h
      · exact h02 x h
    have hcl1 : ∀ x ∈ ee ++ e0 ++ e1, isClearEnable EXT_ROM_CTRL_STATUS x.step = false := by
      intro x hx
      rcases List.mem_append.1 hx with h | h
      · exact hcl0 x h
      · exact h12 x h
    have hcl2 : ∀ x ∈ ee ++ e0 ++ e1 ++ el, isClearEnable EXT_ROM_CTRL_STATUS x.step = false := by
      intro x hx
      rcases List.mem_append.1 hx with h | h
      · exact hcl1 x h
      · exact isGetStep_not_clear _ _ (hl3 x h)
    by_cases c0 : g0.1 < 0
    · have hres : read_eeprom dev u true len tr = (-1, [], g0.2) := by
        unfold read_eeprom
        simp only [Bool.true_eq_false, if_false]
        rw [if_neg hne, if_pos c0]
      rw [hres, if_pos c0]
      exact ⟨rfl, rfl, ee ++ e0, hg0, hcl0⟩
    · by_cases c1 : g1.1 < 0
      · have hres : read_eeprom dev u true len tr = (-1, [], g1.2) := by
          unfold read_eeprom
          simp only [Bool.true_eq_false, if_false]
          rw [if_neg hne, if_neg c0, if_pos c1]
        rw [hres, if_neg c0, if_pos c1]
        exact ⟨rfl, rfl, ee ++ e0 ++ e1, hg1, hcl1⟩
      · have c2 : l.1 < 0 := by
          rcases hfail with h | h | h
          · exact absurd h c0
          · exact absurd h c1
          · exact h
        have hres : read_eeprom dev u true len tr = (-1, l.2.out, l.2.tr) := by
          unfold read_eeprom
          simp only [Bool.true_eq_false, if_false]
          rw [if_neg hne, if_neg c0, if_neg c1, if_pos c2]
        rw [hres, if_neg c0, if_neg c1]
        exact ⟨rfl, rfl, ee ++ e0 ++ e1 ++ el, hl, hcl2⟩

/-- C10 on simulated devices: an upload of a one-byte image fails in the pump
after a successful enable, and a download fails in the priming; each returns
-1 and no event clears the enable bit. -/
theorem C10_no_rollback_witness :
    (write_eeprom (simDev 0 0) 0 (some [0]) []).1 = -1 ∧
      (∃ evs, (write_eeprom (simDev 0 0) 0 (some [0]) []).2 = [] ++ evs ∧
        ∀ e ∈ evs, isClearEnable EXT_ROM_CTRL_STATUS e.step = false) ∧
      (write_firmware (simDev 0 0) 0 (some [0]) []).1 = -1 ∧
      (∃ evs, (write_firmware (simDev 0 0) 0 (some [0]) []).2 = [] ++ evs ∧
        ∀ e ∈ evs, isClearEnable EXT_FW_DLOAD_CTRL_STATUS e.step = false) ∧
      (read_eeprom primeFailDev 0 true 8 []).1 = -1 ∧
      (∃ evs, (read_eeprom primeFailDev 0 true 8 []).2.2 = [] ++ evs ∧
        ∀ e ∈ evs, isClearEnable EXT_ROM_CTRL_STATUS e.step = false) := by
  have hw := (C10_no_rollback (simDev 0 0) 0 8 [] [0]).1 (by decide) (by decide)
  have hf := (C10_no_rollback (simDev 0 0) 0 8 [] [0]).2.1 (by decide) (by decide)
  have hr := (C10_no_rollback primeFailDev 0 8 [] [0]).2.2 (by decide) (Or.inl (by decide))
  exact ⟨by rw [hw.1], hw.2, by rw [hf.1], hf.2, hr.1, hr.2.2⟩

theorem testBit_ffff (i : Nat) : Nat.testBit 0xFFFF i = decide (i < 16) := by
  have h := Nat.testBit_two_pow_sub_one 16 i
  have e : (2 : Nat) ^ 16 - 1 = 0xFFFF := by norm_num
  rw [e] at h
  exact h

theorem rmw_testBit (val value m i : Nat) (hi : i < 16) :
    (((val &&& (m ^^^ 0xFFFFFFFF)) ||| (value &&& m)) % 2 ^ 16).testBit i =
      if m.testBit i then value.testBit i else val.testBit i := by
  have h32 : i < 32 := by omega
  simp only [Nat.testBit_mod_two_pow, Nat.testBit_or, Nat.testBit_and, Nat.testBit_xor,
    testBit_ffffffff, hi, h32, decide_True, Bool.true_and]
  cases m.testBit i <;> simp

theorem write_bitmask_full (dev : Device) (u reg mask value : Nat) (tr : Trace) (rc : Int)
    (old : Nat) (hdev : dev tr (.read16 reg) = (rc, old)) (hrc : 0 ≤ rc) :
    write_bitmask dev u reg mask value tr =
      ((dev (tr ++ [⟨.read16 reg, rc, old, .rmw mask⟩])
          (.write16 reg (((storeBytes 2 rc u old &&& (mask ^^^ 0xFFFFFFFF)) |||
            (value &&& mask)) % 2 ^ 16))).1,
       tr ++ [⟨.read16 reg, rc, old, .rmw mask⟩,
         ⟨.write16 reg (((storeBytes 2 rc u old &&& (mask ^^^ 0xFFFFFFFF)) |||
            (value &&& mask)) % 2 ^ 16),
          (dev (tr ++ [⟨.read16 reg, rc, old, .rmw mask⟩])
            (.write16 reg (((storeBytes 2 rc u old &&& (mask ^^^ 0xFFFFFFFF)) |||
              (value &&& mask)) % 2 ^ 16))).1, 0, .rmw mask⟩]) := by
  simp only [write_bitmask, pci_cfg_read16, pci_cfg_write16, hdev]
  rw [if_pos (by exact hrc)]
  simp

theorem write_bitmask_abort (dev : Device) (u reg mask value : Nat) (tr : Trace) (rc : Int)
    (old : Nat) (hdev : dev tr (.read16 reg) = (rc, old)) (hrc : rc < 0) :
    write_bitmask dev u reg mask value tr = (rc, tr ++ [⟨.read16 reg, rc, old, .rmw mask⟩]) := by
  simp only [write_bitmask, pci_cfg_read16, hdev]
  rw [if_neg (by simp only [ge_iff_le, not_le]; exact hrc)]

/-- C15. When the 16-bit read of `write_bitmask` is complete and delivers `old`,
the call makes exactly two accesses, both at offset `reg`: that read, then one
16-bit write of a value `v` whose bit `i` (for `i < 16`) is bit `i` of `value`
where the mask has bit `i` set and bit `i` of `old` elsewhere; for 16-bit
`old`, `mask` and `value` this `v` is `(old AND NOT mask) OR (value AND mask)`.
The call returns what the write returned. -/
theorem C15_write_bitmask (dev : Device) (u reg mask value : Nat) (tr : Trace) (rc : Int)
    (old : Nat) (hdev : dev tr (.read16 reg) = (rc, old)) (hrc : 2 ≤ rc) :
    ∃ v wrc,
      write_bitmask dev u reg mask value tr =
        (wrc, tr ++ [⟨.read16 reg, rc, old, .rmw mask⟩, ⟨.write16 reg v, wrc, 0, .rmw mask⟩]) ∧
      wrc = (dev (tr ++ [⟨.read16 reg, rc, old, .rmw mask⟩]) (.write16 reg v)).1 ∧
      v < 2 ^ 16 ∧
      (∀ i, i < 16 → v.testBit i = if mask.testBit i then value.testBit i else old.testBit i) ∧
      (old < 2 ^ 16 → mask < 2 ^ 16 → value < 2 ^ 16 →
        v = (old &&& (mask ^^^ 0xFFFF)) ||| (value &&& mask)) := by
  have hbits : ∀ i, i < 16 →
      (((storeBytes 2 rc u old &&& (mask ^^^ 0xFFFFFFFF)) ||| (value &&& mask)) % 2 ^ 16).testBit i =
        if mask.testBit i then value.testBit i else old.testBit i := by
    intro i hi
    rw [rmw_testBit _ _ _ _ hi, storeBytes_two_testBit rc u old i hrc hi]
  refine ⟨_, _, write_bitmask_full dev u reg mask value tr rc old hdev (by omega), rfl,
    Nat.mod_lt _ (by norm_num), hbits, ?_⟩
  intro ho hm hv
  apply Nat.eq_of_testBit_eq
  intro i
  by_cases hi : i < 16
  · rw [hbits i hi]
    simp only [Nat.testBit_or, Nat.testBit_and, Nat.testBit_xor, testBit_ffff, hi, decide_True]
    cases mask.testBit i <;> simp
  · have hi2 : 16 ≤ i := by omega
    rw [Nat.testBit_mod_two_pow]
    simp only [hi, decide_False, Bool.false_and, Nat.testBit_or, Nat.testBit_and,
      testBit_eq_false_of_lt old i 16 ho hi2, testBit_eq_false_of_lt value i 16 hv hi2]
    simp

/-- C15 on the simulated device, whose register reads `0x8000`: the masked write
of value `0x300` under mask `0x300` writes `0x8300`. -/
theorem C15_write_bitmask_witness :
    (simDev 0 0) [] (.read16 EXT_ROM_CTRL_STATUS) = (2, 0x8000) ∧ (2 : Int) ≤ 2 ∧
      ∃ v wrc, write_bitmask (simDev 0 0) 0 EXT_ROM_CTRL_STATUS 0x300 0x300 [] =
          (wrc, [] ++ [⟨.read16 EXT_ROM_CTRL_STATUS, 2, 0x8000, .rmw 0x300⟩,
            ⟨.write16 EXT_ROM_CTRL_STATUS v, wrc, 0, .rmw 0x300⟩]) ∧
        v = (0x8000 &&& (0x300 ^^^ 0xFFFF)) ||| (0x300 &&& 0x300) := by
  obtain ⟨v, wrc, h1, _, _, _, h5⟩ :=
    C15_write_bitmask (simDev 0 0) 0 EXT_ROM_CTRL_STATUS 0x300 0x300 [] 2 0x8000 rfl (le_refl _)
  exact ⟨rfl, le_refl _, v, wrc, h1, h5 (by norm_num) (by norm_num) (by norm_num)⟩

theorem write_bit_abort (dev : Device) (u reg b v : Nat) (tr : Trace) (rc : Int)
    (old : Nat) (hdev : dev tr (.read16 reg) = (rc, old)) (hrc : rc < 0) :
    write_bit dev u reg b v tr = (rc, tr ++ [⟨.read16 reg, rc, old, .rmw (1 <<< b)⟩]) :=
  write_bitmask_abort dev u reg (1 <<< b) ((v <<< b) % 2 ^ 32) tr rc old hdev hrc

/-- C16 (amended). When the 16-bit read of `write_bitmask` returns an error (a
negative count), `write_bitmask` and `write_bit` return that error and make
no access besides the read, so nothing is written.  When the read returns a
non-negative count, also 0 or 1 (fewer than 2 bytes transferred),
`write_bitmask` goes on: its second and last access is a 16-bit write to the
same register, and it returns what that write returned. -/
theorem C16_failed_read_aborts (dev : Device) (u reg mask value : Nat) (tr : Trace) (rc : Int)
    (old : Nat) (hdev : dev tr (.read16 reg) = (rc, old)) :
    (rc < 0 →
      write_bitmask dev u reg mask value tr = (rc, tr ++ [⟨.read16 reg, rc, old, .rmw mask⟩]) ∧
      (∀ b v, write_bit dev u reg b v tr =
        (rc, tr ++ [⟨.read16 reg, rc, old, .rmw (1 <<< b)⟩])) ∧
      ∀ e ∈ (write_bitmask dev u reg mask value tr).2.drop tr.length, e.isWrite = false) ∧
    (0 ≤ rc →
      ∃ v wrc, write_bitmask dev u reg mask value tr =
        (wrc, tr ++ [⟨.read16 reg, rc, old, .rmw mask⟩, ⟨.write16 reg v, wrc, 0, .rmw mask⟩]) ∧
        wrc = (dev (tr ++ [⟨.read16 reg, rc, old, .rmw mask⟩]) (.write16 reg v)).1) := by
  constructor
  · intro hrc
    have h := write_bitmask_abort dev u reg mask value tr rc old hdev hrc
    refine ⟨h, fun b v => write_bit_abort dev u reg b v tr rc old hdev hrc, ?_⟩
    rw [h]
    intro e he
    simp only [List.drop_left, List.mem_singleton] at he
    rw [he]
    rfl
  · intro hrc
    exact ⟨_, _, write_bitmask_full dev u reg mask value tr rc old hdev hrc, rfl⟩

/-- C16 on a device whose 16-bit read fails with -1: nothing is written. -/
theorem C16_failed_read_aborts_witness :
    ((fun _ _ => (-1, 0)) : Device) [] (.read16 EXT_ROM_CTRL_STATUS) = (-1, 0) ∧
      ((-1 : Int) < 0) ∧
      write_bitmask (fun _ _ => (-1, 0)) 0 EXT_ROM_CTRL_STATUS 1 1 [] =
        (-1, [] ++ [⟨.read16 EXT_ROM_CTRL_STATUS, -1, 0, .rmw 1⟩]) :=
  ⟨rfl, by decide,
    ((C16_failed_read_aborts (fun _ _ => (-1, 0)) 0 EXT_ROM_CTRL_STATUS 1 1 [] (-1) 0 rfl).1
      (by decide)).1⟩

/-- C16 fails as stated for a read that transfers fewer than 2 bytes: on the
device whose 16-bit reads return 1 and deliver the byte `0xFF`, with `0xAB00`
the previous content of the local `val`, `write_bitmask` with mask 1 and value 0
does not fail: it returns 2 and writes `0xABFE` to the register. -/
theorem C16_counterexample :
    (shortDev [] (.read16 EXT_ROM_CTRL_STATUS)).1 < 2 ∧
      write_bitmask shortDev 0xAB00 EXT_ROM_CTRL_STATUS 1 0 [] =
        (2, [⟨.read16 EXT_ROM_CTRL_STATUS, 1, 0xFF, .rmw 1⟩,
          ⟨.write16 EXT_ROM_CTRL_STATUS 0xABFE, 2, 0, .rmw 1⟩]) ∧
      write_bit shortDev 0xAB00 EXT_ROM_CTRL_STATUS 0 0 [] =
        (2, [⟨.read16 EXT_ROM_CTRL_STATUS, 1, 0xFF, .rmw 1⟩,
          ⟨.write16 EXT_ROM_CTRL_STATUS 0xABFE, 2, 0, .rmw 1⟩]) := by
  refine ⟨by decide, ?_, ?_⟩
  · rfl
  · rfl

theorem regValue_foldl_lt (off : Nat) (h : Trace) : ∀ c, c < 2 ^ 16 →
    h.foldl (fun c e =>
      match e.acc with
      | .write16 o v => if o = off then v % 2 ^ 16 else c
      | _ => c) c < 2 ^ 16 := by
  induction h with
  | nil => intro c hc; exact hc
  | cons e h ih =>
    intro c hc
    rw [List.foldl_cons]
    apply ih
    cases hacc : e.acc with
    | write16 o v =>
      simp only
      split_ifs
      · exact Nat.mod_lt _ (by norm_num)
      · exact hc
    | read16 o => exact hc
    | read32 o => exact hc
    | write32 o v => exact hc

theorem regValue_lt (off cur : Nat) (h : Trace) : regValue off cur h < 2 ^ 16 :=
  regValue_foldl_lt off h _ (Nat.mod_lt _ (by norm_num))

theorem regValue_rmw (off cur : Nat) (tr : Trace) (r : Int) (d : Nat) (t1 t2 : Tag) (o v : Nat)
    (w : Int) (x : Nat) :
    regValue off cur (tr ++ [⟨.read16 o, r, d, t1⟩, ⟨.write16 o v, w, x, t2⟩]) =
      if o = off then v % 2 ^ 16 else regValue off cur tr := by
  simp [regValue, List.foldl_append]

theorem regValue_read (off cur : Nat) (tr : Trace) (r : Int) (d : Nat) (t1 : Tag) (o : Nat) :
    regValue off cur (tr ++ [⟨.read16 o, r, d, t1⟩]) = regValue off cur tr := by
  simp [regValue, List.foldl_append]

theorem one_shiftLeft_testBit (b i : Nat) : (1 <<< b).testBit i = decide (b = i) := by
  rw [Nat.one_shiftLeft, Nat.testBit_two_pow]

theorem bit_value_testBit (v b : Nat) (hb : b < 16) (hv : v < 2) :
    ((v <<< b) % 2 ^ 32).testBit b = decide (v = 1) := by
  have hb32 : b < 32 := by omega
  rw [Nat.testBit_mod_two_pow]
  simp only [hb32, decide_True, Bool.true_and]
  interval_cases v
  · simp
  · rw [one_shiftLeft_testBit]; simp

/-- The value that `write_bit` writes to a register that reads `r`. -/
theorem write_bit_value_testBit (u r b v i : Nat) (hb : b < 16) (hv : v < 2) (hr : r < 2 ^ 16) :
    (((storeBytes 2 2 u r &&& ((1 <<< b) ^^^ 0xFFFFFFFF)) |||
        (((v <<< b) % 2 ^ 32) &&& (1 <<< b))) % 2 ^ 16).testBit i =
      if i = b then decide (v = 1) else r.testBit i := by
  by_cases hi : i < 16
  · rw [rmw_testBit _ _ _ _ hi, storeBytes_two_testBit 2 u r i (le_refl _) hi,
      one_shiftLeft_testBit]
    by_cases hib : i = b
    · subst hib
      rw [if_pos (by simp), if_pos rfl]
      exact bit_value_testBit v i hb hv
    · have : ¬ b = i := fun h => hib h.symm
      simp [hib, this]
  · have hi2 : 16 ≤ i := by omega
    have hib : ¬ i = b := by omega
    rw [Nat.testBit_mod_two_pow]
    simp [hi, hib, testBit_eq_false_of_lt r i 16 hr hi2]

theorem write_bit_memDev (init : Nat → Nat) (u reg b v : Nat) (tr : Trace) :
    write_bit (memDev init) u reg b v tr =
      (2, tr ++ [⟨.read16 reg, 2, regValue reg (init reg) tr, .rmw (1 <<< b)⟩,
        ⟨.write16 reg (((storeBytes 2 2 u (regValue reg (init reg) tr) &&&
            ((1 <<< b) ^^^ 0xFFFFFFFF)) ||| (((v <<< b) % 2 ^ 32) &&& (1 <<< b))) % 2 ^ 16),
          2, 0, .rmw (1 <<< b)⟩]) := by
  unfold write_bit
  rw [write_bitmask_full (memDev init) u reg _ _ tr 2 (regValue reg (init reg) tr) rfl
    (by decide)]
  rfl

theorem regValue_write_bit (init : Nat → Nat) (u reg b v off cur : Nat) (tr : Trace) :
    regValue off cur (write_bit (memDev init) u reg b v tr).2 =
      if reg = off then
        ((storeBytes 2 2 u (regValue reg (init reg) tr) &&& ((1 <<< b) ^^^ 0xFFFFFFFF)) |||
          (((v <<< b) % 2 ^ 32) &&& (1 <<< b))) % 2 ^ 16
      else regValue off cur tr := by
  rw [write_bit_memDev, regValue_rmw]
  simp

theorem regValue_write_bit_testBit (init : Nat → Nat) (u reg b v i : Nat) (tr : Trace)
    (hb : b < 16) (hv : v < 2) :
    (regValue reg (init reg) (write_bit (memDev init) u reg b v tr).2).testBit i =
      if i = b then decide (v = 1) else (regValue reg (init reg) tr).testBit i := by
  rw [regValue_write_bit, if_pos rfl,
    write_bit_value_testBit u _ b v i hb hv (regValue_lt reg (init reg) tr)]

theorem and_one_shiftLeft_of_testBit (x b : Nat) (h : x.testBit b = true) :
    x &&& (1 <<< b) = 1 <<< b := by
  apply Nat.eq_of_testBit_eq
  intro i
  rw [Nat.testBit_and, one_shiftLeft_testBit]
  by_cases hbi : b = i
  · subst hbi; simp [h]
  · simp [hbi]

theorem read_bit_memDev (init : Nat → Nat) (reg b old : Nat) (tr : Trace) (hb : b < 16) :
    (read_bit (memDev init) reg b old tr).2.1 = regValue reg (init reg) tr &&& (1 <<< b) := by
  rw [read_bit_eq]
  exact storeBytes_two_and 2 old _ (1 <<< b) (le_refl _) (one_shiftLeft_lt b hb)

/-- C17. On the device whose 16-bit registers are plain memory, for every bit
index `b < 16` and every `v` in {0, 1}: `write_bit reg b v` succeeds; a
`read_bit reg b` made after it yields `v <<< b`, which is 0 exactly when
`v = 0` and the mask value `1 <<< b` when `v = 1`; bit `b` of the register
then is `v`, every other bit of it and every other register are as before;
and a second `write_bit reg b v` leaves the register as the first one did. -/
theorem C17_bit_roundtrip (init : Nat → Nat) (u u2 old reg b v : Nat) (tr : Trace)
    (hb : b < 16) (hv : v < 2) :
    0 ≤ (write_bit (memDev init) u reg b v tr).1 ∧
    0 ≤ (read_bit (memDev init) reg b old (write_bit (memDev init) u reg b v tr).2).1 ∧
    (read_bit (memDev init) reg b old (write_bit (memDev init) u reg b v tr).2).2.1 = v <<< b ∧
    ((read_bit (memDev init) reg b old (write_bit (memDev init) u reg b v tr).2).2.1 = 0 ↔
      v = 0) ∧
    (v = 1 →
      (read_bit (memDev init) reg b old (write_bit (memDev init) u reg b v tr).2).2.1 =
        1 <<< b) ∧
    (regValue reg (init reg) (write_bit (memDev init) u reg b v tr).2).testBit b =
      decide (v = 1) ∧
    (∀ i, i ≠ b →
      (regValue reg (init reg) (write_bit (memDev init) u reg b v tr).2).testBit i =
        (regValue reg (init reg) tr).testBit i) ∧
    (∀ off, off ≠ reg →
      regValue off (init off) (write_bit (memDev init) u reg b v tr).2 =
        regValue off (init off) tr) ∧
    regValue reg (init reg)
        (write_bit (memDev init) u2 reg b v (write_bit (memDev init) u reg b v tr).2).2 =
      regValue reg (init reg) (write_bit (memDev init) u reg b v tr).2 := by
  have hbit := regValue_write_bit_testBit init u reg b v b tr hb hv
  rw [if_pos rfl] at hbit
  have hread : (read_bit (memDev init) reg b old (write_bit (memDev init) u reg b v tr).2).2.1 =
      v <<< b := by
    rw [read_bit_memDev init reg b old _ hb]
    have hv01 : v = 0 ∨ v = 1 := by omega
    rcases hv01 with h0 | h1
    · subst h0
      rw [Nat.zero_shiftLeft]
      exact (and_one_shiftLeft_eq_zero _ b).mpr (by rw [hbit]; simp)
    · subst h1
      exact and_one_shiftLeft_of_testBit _ b (by rw [hbit]; simp)
  have hpos : 0 < 1 <<< b := by rw [Nat.one_shiftLeft]; exact Nat.two_pow_pos b
  have h2 : (0 : Int) ≤ 2 := by decide
  refine ⟨by rw [write_bit_memDev]; exact h2, by rw [read_bit_eq]; exact h2, hread, ?_, ?_,
    hbit, ?_, ?_, ?_⟩
  · rw [hread]
    constructor
    · intro h
      have hv01 : v = 0 ∨ v = 1 := by omega
      rcases hv01 with h0 | h1
      · exact h0
      · subst h1; omega
    · intro h; subst h; exact Nat.zero_shiftLeft b
  · intro h1
    rw [hread, h1]
  · intro i hib
    rw [regValue_write_bit_testBit init u reg b v i tr hb hv, if_neg hib]
  · intro off hoff
    rw [regValue_write_bit, if_neg (fun h => hoff h.symm)]
  · apply Nat.eq_of_testBit_eq
    intro i
    rw [regValue_write_bit_testBit init u2 reg b v i _ hb hv]
    by_cases hib : i = b
    · rw [if_pos hib, hib, hbit]
    · rw [if_neg hib]

/-- C17 at bit 10 with value 1 on a register that holds `0x8001`: the read
yields `0x400`. -/
theorem C17_bit_roundtrip_witness :
    (10 < 16) ∧ (1 < 2) ∧
      (read_bit (memDev (fun _ => 0x8001)) EXT_ROM_CTRL_STATUS 10 0
        (write_bit (memDev (fun _ => 0x8001)) 0 EXT_ROM_CTRL_STATUS 10 1 []).2).2.1 = 0x400 ∧
      regValue EXT_ROM_CTRL_STATUS 0x8001
        (write_bit (memDev (fun _ => 0x8001)) 0 EXT_ROM_CTRL_STATUS 10 1 []).2 = 0x8401 := by
  have h := C17_bit_roundtrip (fun _ => 0x8001) 0 0 0 EXT_ROM_CTRL_STATUS 10 1 []
    (by decide) (by decide)
  exact ⟨by decide, by decide, h.2.2.1, by rfl⟩

theorem eeprom_exists_eq (dev : Device) (u : Nat) (tr : Trace) (rc : Int) (d : Nat)
    (hdev : dev tr (.read16 EXT_ROM_CTRL_STATUS) = (rc, d)) :
    eeprom_exists dev u tr =
      (if rc < 0 then -1 else if storeBytes 2 rc u d &&& (1 <<< ROM_EXISTS) = 0 then -1 else 0,
        tr ++ [⟨.read16 EXT_ROM_CTRL_STATUS, rc, d, .bits (1 <<< ROM_EXISTS)⟩]) := by
  simp only [eeprom_exists, read_bit_eq, hdev]
  split_ifs <;> rfl

theorem eeprom_exists_absent (dev : Device) (u : Nat) (tr : Trace) (rc : Int) (d : Nat)
    (hdev : dev tr (.read16 EXT_ROM_CTRL_STATUS) = (rc, d))
    (h : rc < 0 ∨ (2 ≤ rc ∧ d.testBit ROM_EXISTS = false)) :
    eeprom_exists dev u tr =
      (-1, tr ++ [⟨.read16 EXT_ROM_CTRL_STATUS, rc, d, .bits (1 <<< ROM_EXISTS)⟩]) := by
  rw [eeprom_exists_eq dev u tr rc d hdev]
  rcases h with h | ⟨h2, hb⟩
  · rw [if_pos h]
  · rw [if_neg (by omega), if_pos ((read_bit_status_zero rc u d ROM_EXISTS (by decide) h2).mpr hb)]

theorem eeprom_exists_present (dev : Device) (u : Nat) (tr : Trace) (rc : Int) (d : Nat)
    (hdev : dev tr (.read16 EXT_ROM_CTRL_STATUS) = (rc, d))
    (h2 : 2 ≤ rc) (hb : d.testBit ROM_EXISTS = true) :
    eeprom_exists dev u tr =
      (0, tr ++ [⟨.read16 EXT_ROM_CTRL_STATUS, rc, d, .bits (1 <<< ROM_EXISTS)⟩]) := by
  rw [eeprom_exists_eq dev u tr rc d hdev, if_neg (by omega), if_neg]
  intro h0
  rw [(read_bit_status_zero rc u d ROM_EXISTS (by decide) h2).mp h0] at hb
  exact Bool.false_ne_true hb

theorem disable_eq (dev : Device) (u : Nat) (tr : Trace) :
    external_rom_access dev u false tr =
      if (eeprom_exists dev u tr).1 < 0 then (-1, (eeprom_exists dev u tr).2)
      else if (write_bit dev u EXT_ROM_CTRL_STATUS ROM_ACCESS_ENABLE 0
          (eeprom_exists dev u tr).2).1 < 0 then
        (-1, (write_bit dev u EXT_ROM_CTRL_STATUS ROM_ACCESS_ENABLE 0
          (eeprom_exists dev u tr).2).2)
      else (0, (write_bit dev u EXT_ROM_CTRL_STATUS ROM_ACCESS_ENABLE 0
          (eeprom_exists dev u tr).2).2) := by
  simp only [external_rom_access, Bool.false_eq_true, if_false]

theorem clear_bit0_testBit (rc : Int) (u d i : Nat) (hrc : 2 ≤ rc) (hi : i < 16) :
    (((storeBytes 2 rc u d &&& ((1 <<< ROM_ACCESS_ENABLE) ^^^ 0xFFFFFFFF)) |||
        (((0 <<< ROM_ACCESS_ENABLE) % 2 ^ 32) &&& (1 <<< ROM_ACCESS_ENABLE))) % 2 ^ 16).testBit i =
      if i = 0 then false else d.testBit i := by
  rw [rmw_testBit _ _ _ _ hi, storeBytes_two_testBit rc u d i hrc hi, one_shiftLeft_testBit]
  by_cases h0 : i = 0
  · subst h0; simp
  · have : ¬ (ROM_ACCESS_ENABLE = i) := fun h => h0 h.symm
    simp [h0, this]

/-- C13 (amended). The disable call starts with the existence check.  When the
read of that check fails or is complete and shows the exists bit 0, disable
returns -1 after that one read, with no write.  When the check is complete
and shows the exists bit set: if the read of the masked write fails, disable
returns -1 with no write; if that read is complete and delivers `d2`, disable
writes to 0xF6 the value whose bit 0 is clear and whose bits 1 to 15 are
those of `d2`, makes no access after this write, and returns 0 when the write
succeeded and -1 when it failed.  In every case the steps of disable are an
initial part of the list exists check, read, write, so there is no polling. -/
theorem C13_disable (dev : Device) (u : Nat) (tr : Trace) (rc1 : Int) (d1 : Nat)
    (h1 : dev tr (.read16 EXT_ROM_CTRL_STATUS) = (rc1, d1)) :
    (∃ evs k, (external_rom_access dev u false tr).2 = tr ++ evs ∧
      evs.map Event.step = disableSteps.take k ∧
      ((external_rom_access dev u false tr).1 = 0 → k = 3)) ∧
    (rc1 < 0 ∨ (2 ≤ rc1 ∧ d1.testBit ROM_EXISTS = false) →
      external_rom_access dev u false tr =
        (-1, tr ++ [⟨.read16 EXT_ROM_CTRL_STATUS, rc1, d1, .bits (1 <<< ROM_EXISTS)⟩])) ∧
    (2 ≤ rc1 → d1.testBit ROM_EXISTS = true → ∀ rc2 d2,
      dev (tr ++ [⟨.read16 EXT_ROM_CTRL_STATUS, rc1, d1, .bits (1 <<< ROM_EXISTS)⟩])
        (.read16 EXT_ROM_CTRL_STATUS) = (rc2, d2) →
      (rc2 < 0 →
        external_rom_access dev u false tr =
          (-1, tr ++ [⟨.read16 EXT_ROM_CTRL_STATUS, rc1, d1, .bits (1 <<< ROM_EXISTS)⟩,
            ⟨.read16 EXT_ROM_CTRL_STATUS, rc2, d2, .rmw (1 <<< ROM_ACCESS_ENABLE)⟩])) ∧
      (2 ≤ rc2 → ∃ v wrc,
        external_rom_access dev u false tr =
          (if wrc < 0 then -1 else 0,
            tr ++ [⟨.read16 EXT_ROM_CTRL_STATUS, rc1, d1, .bits (1 <<< ROM_EXISTS)⟩,
              ⟨.read16 EXT_ROM_CTRL_STATUS, rc2, d2, .rmw (1 <<< ROM_ACCESS_ENABLE)⟩,
              ⟨.write16 EXT_ROM_CTRL_STATUS v, wrc, 0, .rmw (1 <<< ROM_ACCESS_ENABLE)⟩]) ∧
        wrc = (dev (tr ++ [⟨.read16 EXT_ROM_CTRL_STATUS, rc1, d1, .bits (1 <<< ROM_EXISTS)⟩,
              ⟨.read16 EXT_ROM_CTRL_STATUS, rc2, d2, .rmw (1 <<< ROM_ACCESS_ENABLE)⟩])
            (.write16 EXT_ROM_CTRL_STATUS v)).1 ∧
        v < 2 ^ 16 ∧ v.testBit 0 = false ∧
        ∀ i, 0 < i → i < 16 → v.testBit i = d2.testBit i)) := by
  refine ⟨?_, ?_, ?_⟩
  · obtain ⟨_, evs, k, h⟩ := disable_spec dev u tr
    exact ⟨evs, k, h⟩
  · intro h
    rw [disable_eq, eeprom_exists_absent dev u tr rc1 d1 h1 h]
    rfl
  · intro hrc1 hb rc2 d2 h2
    have he := eeprom_exists_present dev u tr rc1 d1 h1 hrc1 hb
    constructor
    · intro hrc2
      rw [disable_eq, he]
      have hw := write_bit_abort dev u EXT_ROM_CTRL_STATUS ROM_ACCESS_ENABLE 0 _ rc2 d2 h2 hrc2
      simp only [hw]
      rw [if_neg (by decide), if_pos hrc2]
      simp
    · intro hrc2
      have hw := write_bitmask_full dev u EXT_ROM_CTRL_STATUS (1 <<< ROM_ACCESS_ENABLE)
        ((0 <<< ROM_ACCESS_ENABLE) % 2 ^ 32) _ rc2 d2 h2 (by omega)
      simp only [List.append_assoc, List.singleton_append] at hw
      refine ⟨((storeBytes 2 rc2 u d2 &&& ((1 <<< ROM_ACCESS_ENABLE) ^^^ 0xFFFFFFFF)) |||
          (((0 <<< ROM_ACCESS_ENABLE) % 2 ^ 32) &&& (1 <<< ROM_ACCESS_ENABLE))) % 2 ^ 16,
        _, ?_, rfl, Nat.mod_lt _ (by norm_num), ?_, ?_⟩
      · rw [disable_eq, he]
        simp only [write_bit, hw]
        rw [if_neg (by decide)]
        split_ifs <;> rfl
      · rw [clear_bit0_testBit rc2 u d2 0 hrc2 (by decide)]
        rfl
      · intro i hi0 hi
        rw [clear_bit0_testBit rc2 u d2 i hrc2 hi, if_neg (by omega)]

/-- C13 on the simulated device, whose register reads `0x8000`: disable writes
a value with bit 0 clear and returns what the write decides. -/
theorem C13_disable_witness :
    (simDev 0 0) [] (.read16 EXT_ROM_CTRL_STATUS) = (2, 0x8000) ∧
      (∃ evs k, (external_rom_access (simDev 0 0) 0 false []).2 = [] ++ evs ∧
        evs.map Event.step = disableSteps.take k ∧
        ((external_rom_access (simDev 0 0) 0 false []).1 = 0 → k = 3)) ∧
      external_rom_access (simDev 0 0) 0 false [] =
        (0, [⟨.read16 EXT_ROM_CTRL_STATUS, 2, 0x8000, .bits 0x8000⟩,
          ⟨.read16 EXT_ROM_CTRL_STATUS, 2, 0x8000, .rmw 1⟩,
          ⟨.write16 EXT_ROM_CTRL_STATUS 0x8000, 2, 0, .rmw 1⟩]) :=
  ⟨rfl, (C13_disable (simDev 0 0) 0 [] 2 0x8000 rfl).1, rfl⟩

/-- C13 fails as stated on the device without EEPROM on which no access fails:
the 16-bit writes of the register would succeed, yet disable returns -1 after
the read of the existence check, and writes nothing. -/
theorem C13_counterexample :
    (∀ h v, 0 ≤ (absentDev h (.write16 EXT_ROM_CTRL_STATUS v)).1) ∧
      external_rom_access absentDev 0 false [] =
        (-1, [⟨.read16 EXT_ROM_CTRL_STATUS, 2, 0, .bits (1 <<< ROM_EXISTS)⟩]) := by
  refine ⟨fun _ _ => ?_, rfl⟩
  show (0 : Int) ≤ 2
  decide

theorem storeBytes_low_testBit (rc : Int) (old d i : Nat) (hrc : 1 ≤ rc) (hi : i < 8) :
    (storeBytes 2 rc old d).testBit i = d.testBit i := by
  have hn : min rc.toNat 2 = 1 ∨ min rc.toNat 2 = 2 := by omega
  have h1 : i < 32 := by omega
  rcases hn with hn | hn
  · simp only [storeBytes, hn, Nat.testBit_mod_two_pow, Nat.testBit_or, Nat.testBit_shiftLeft]
    have h2 : ¬ (i ≥ 8 * 1) := by omega
    have h3 : i < 8 * 1 := by omega
    simp [h1, h2, h3]
  · simp only [storeBytes, hn, Nat.testBit_mod_two_pow, Nat.testBit_or, Nat.testBit_shiftLeft]
    have h2 : ¬ (i ≥ 8 * 2) := by omega
    have h3 : i < 8 * 2 := by omega
    simp [h1, h2, h3]

theorem storeBytes_low_and (rc : Int) (old d m : Nat) (hrc : 1 ≤ rc) (hm : m < 2 ^ 8) :
    storeBytes 2 rc old d &&& m = d &&& m := by
  apply Nat.eq_of_testBit_eq
  intro i
  simp only [Nat.testBit_and]
  by_cases hi : i < 8
  · rw [storeBytes_low_testBit rc old d i hrc hi]
  · rw [testBit_eq_false_of_lt m i 8 hm (by omega)]
    simp

theorem regAfter_cons (reg : Nat) (e : Event) (l : List Event) :
    regAfter reg (e :: l) = regAfter (storeBytes 2 e.rc reg e.data) l := rfl

theorem regAfter_snoc (reg : Nat) (pre : List Event) (e : Event) :
    regAfter reg (pre ++ [e]) = storeBytes 2 e.rc (regAfter reg pre) e.data := by
  simp [regAfter, List.foldl_append]

theorem regAfter_field (reg : Nat) (pre : List Event) (e : Event) (hrc : 1 ≤ e.rc) :
    regAfter reg (pre ++ [e]) &&& RESULT_BITMASK = e.data &&& RESULT_BITMASK := by
  rw [regAfter_snoc]
  exact storeBytes_low_and e.rc _ e.data RESULT_BITMASK hrc (by decide)

/-- The polling loop of the enable sequence, for every device: the content of
`reg` after poll `k` has the result field 0 exactly when poll `k` is the last
one and the loop returned 0. -/
theorem rom_access_poll_full (dev : Device) :
    ∀ (n reg : Nat) (tr : Trace),
      ∃ polls, (rom_access_poll dev n reg tr).2 = tr ++ polls ∧ polls.length ≤ n ∧
        (∀ e ∈ polls, e.step = (.read16 EXT_ROM_CTRL_STATUS, .plain)) ∧
        ((rom_access_poll dev n reg tr).1 = 0 ∨ (rom_access_poll dev n reg tr).1 = -1) ∧
        ((rom_access_poll dev n reg tr).1 = -1 → polls.length = n) ∧
        ((rom_access_poll dev n reg tr).1 = 0 → polls ≠ []) ∧
        ∀ k, 0 < k → k ≤ polls.length →
          (regAfter reg (polls.take k) &&& RESULT_BITMASK = RESULT_INVALID ↔
            k = polls.length ∧ (rom_access_poll dev n reg tr).1 = 0) := by
  intro n
  induction n with
  | zero =>
    intro reg tr
    refine ⟨[], by simp [rom_access_poll], by simp, by simp, Or.inr rfl, fun _ => rfl, ?_, ?_⟩
    · intro h; simp [rom_access_poll] at h
    · intro k hk hk2; simp at hk2; omega
  | succ n ih =>
    intro reg tr
    rw [rom_access_poll]
    simp only [pci_cfg_read16]
    rcases hdev : dev tr (.read16 EXT_ROM_CTRL_STATUS) with ⟨rc, d⟩
    simp only
    by_cases hf : storeBytes 2 rc reg d &&& RESULT_BITMASK = RESULT_INVALID
    · rw [if_pos hf]
      refine ⟨[⟨.read16 EXT_ROM_CTRL_STATUS, rc, d, .plain⟩], rfl, by simp, by simp [step_read16],
        Or.inl rfl, by intro h; simp at h, by simp, ?_⟩
      intro k hk hk2
      have hk1 : k = 1 := by simp at hk2; omega
      subst hk1
      simp only [List.take_succ_cons, List.take_zero, regAfter_cons, List.length_singleton,
        and_self, iff_true]
      exact hf
    · rw [if_neg hf]
      obtain ⟨polls, h1, h2, h3, h4, h5, h6, h7⟩ := ih (storeBytes 2 rc reg d)
        (tr ++ [⟨.read16 EXT_ROM_CTRL_STATUS, rc, d, .plain⟩])
      refine ⟨⟨.read16 EXT_ROM_CTRL_STATUS, rc, d, .plain⟩ :: polls, by rw [h1]; simp,
        by simp; omega, ?_, h4, ?_, by simp, ?_⟩
      · intro e he
        rcases List.mem_cons.1 he with rfl | he
        · rfl
        · exact h3 e he
      · intro h; simp [h5 h]
      · intro k hk hk2
        obtain ⟨j, rfl⟩ : ∃ j, k = j + 1 := ⟨k - 1, by omega⟩
        rw [List.take_succ_cons, regAfter_cons]
        simp only [List.length_cons] at hk2 ⊢
        by_cases hj : j = 0
        · subst hj
          simp only [List.take_zero]
          constructor
          · intro h; exact absurd h hf
          · rintro ⟨hl, hr⟩
            have : polls = [] := List.length_eq_zero.mp (by omega)
            exact absurd this (h6 hr)
        · have := h7 j (by omega) (by omega)
          rw [this]
          constructor
          · rintro ⟨a, b⟩; exact ⟨by omega, b⟩
          · rintro ⟨a, b⟩; exact ⟨by omega, b⟩

theorem enable_eq (dev : Device) (u : Nat) (tr : Trace)
    (hex : (eeprom_exists dev u tr).1 = 0)
    (hw : 0 ≤ (pci_cfg_write32 dev EXT_DATA0 0x53524F4D (eeprom_exists dev u tr).2).1)
    (hb : 0 ≤ (write_bit dev u EXT_ROM_CTRL_STATUS ROM_ACCESS_ENABLE 1
      (pci_cfg_write32 dev EXT_DATA0 0x53524F4D (eeprom_exists dev u tr).2).2).1) :
    external_rom_access dev u true tr =
      rom_access_poll dev LOOPNB u
        (write_bit dev u EXT_ROM_CTRL_STATUS ROM_ACCESS_ENABLE 1
          (pci_cfg_write32 dev EXT_DATA0 0x53524F4D (eeprom_exists dev u tr).2).2).2 := by
  unfold external_rom_access
  simp only [if_true]
  rw [if_neg (by rw [hex]; decide), if_neg (not_lt.mpr hw), if_neg (not_lt.mpr hb)]

theorem enable_head (dev : Device) (u : Nat) (tr : Trace)
    (hb : 0 ≤ (write_bit dev u EXT_ROM_CTRL_STATUS ROM_ACCESS_ENABLE 1
      (pci_cfg_write32 dev EXT_DATA0 0x53524F4D (eeprom_exists dev u tr).2).2).1) :
    ∃ head, (write_bit dev u EXT_ROM_CTRL_STATUS ROM_ACCESS_ENABLE 1
        (pci_cfg_write32 dev EXT_DATA0 0x53524F4D (eeprom_exists dev u tr).2).2).2 = tr ++ head ∧
      head.map Event.step = enableHead := by
  obtain ⟨_, e, he1, he2⟩ := eeprom_exists_spec dev u tr
  obtain ⟨sig, hs1, hs2⟩ := write_bit_one_spec dev u EXT_ROM_CTRL_STATUS ROM_ACCESS_ENABLE
    (pci_cfg_write32 dev EXT_DATA0 0x53524F4D (eeprom_exists dev u tr).2).2 (by decide)
  rcases hs2 with ⟨_, hneg⟩ | ⟨h, _⟩
  · exact absurd hneg (not_lt.mpr hb)
  · refine ⟨e :: ⟨.write32 EXT_DATA0 (0x53524F4D % 2 ^ 32),
      (dev (tr ++ [e]) (.write32 EXT_DATA0 (0x53524F4D % 2 ^ 32))).1, 0, .plain⟩ :: sig, ?_, ?_⟩
    · rw [hs1]
      simp only [pci_cfg_write32, he1]
      simp
    · simp only [List.map_cons, he2, h]
      rfl

/-- The enable sequence once the existence check, the write of the magic value
and the masked write that sets the access-enable bit have succeeded: these
four steps, then between 1 and 100,000 polls of 0xF6, and nothing else.  The
content of `reg` after poll `k` has the result field 0 exactly when poll `k`
is the last poll and the call returned 0; a call that returns -1 has made
exactly 100,000 polls.  For a poll whose read transferred at least one byte,
the result field of `reg` is that of the data read. -/
theorem enable_full (dev : Device) (u : Nat) (tr : Trace)
    (hex : (eeprom_exists dev u tr).1 = 0)
    (hw : 0 ≤ (pci_cfg_write32 dev EXT_DATA0 0x53524F4D (eeprom_exists dev u tr).2).1)
    (hb : 0 ≤ (write_bit dev u EXT_ROM_CTRL_STATUS ROM_ACCESS_ENABLE 1
      (pci_cfg_write32 dev EXT_DATA0 0x53524F4D (eeprom_exists dev u tr).2).2).1) :
    ∃ head polls, (external_rom_access dev u true tr).2 = tr ++ head ++ polls ∧
      head.map Event.step =
        [(.read16 EXT_ROM_CTRL_STATUS, .bits 0x8000),
         (.write32 EXT_DATA0 0x53524F4D, .plain),
         (.read16 EXT_ROM_CTRL_STATUS, .rmw 1),
         (.write16 EXT_ROM_CTRL_STATUS 1, .rmw 1)] ∧
      (∀ e ∈ polls, e.step = (.read16 EXT_ROM_CTRL_STATUS, .plain)) ∧
      1 ≤ polls.length ∧ polls.length ≤ LOOPNB ∧
      ((external_rom_access dev u true tr).1 = 0 ∨ (external_rom_access dev u true tr).1 = -1) ∧
      ((external_rom_access dev u true tr).1 = -1 → polls.length = LOOPNB) ∧
      (∀ k, 0 < k → k ≤ polls.length →
        (regAfter u (polls.take k) &&& RESULT_BITMASK = RESULT_INVALID ↔
          k = polls.length ∧ (external_rom_access dev u true tr).1 = 0)) ∧
      (∀ k (hk : k < polls.length), 1 ≤ (polls.get ⟨k, hk⟩).rc →
        ((polls.get ⟨k, hk⟩).data &&& RESULT_BITMASK = RESULT_INVALID ↔
          k + 1 = polls.length ∧ (external_rom_access dev u true tr).1 = 0)) := by
  obtain ⟨head, hh1, hh2⟩ := enable_head dev u tr hb
  rw [enable_eq dev u tr hex hw hb]
  obtain ⟨polls, h1, h2, h3, h4, h5, h6, h7⟩ := rom_access_poll_full dev LOOPNB u
    (write_bit dev u EXT_ROM_CTRL_STATUS ROM_ACCESS_ENABLE 1
      (pci_cfg_write32 dev EXT_DATA0 0x53524F4D (eeprom_exists dev u tr).2).2).2
  refine ⟨head, polls, by rw [h1, hh1], hh2, h3, ?_, h2, h4, h5, h7, ?_⟩
  · rcases h4 with h | h
    · have := h6 h
      cases polls with
      | nil => exact absurd rfl this
      | cons a l => simp
    · rw [h5 h]; decide
  · intro k hk hrc
    have ht : polls.take (k + 1) = polls.take k ++ [polls.get ⟨k, hk⟩] := by
      rw [List.take_succ, List.getElem?_eq_getElem hk]
      rfl
    have := h7 (k + 1) (by omega) (by omega)
    rw [ht, regAfter_field u _ _ hrc] at this
    exact this

theorem acc_of_step_write32 (e : Event) (off v : Nat) (h : e.acc = .write32 off v) :
    e.step = (.write32 off v, e.tag) := by
  unfold Event.step
  rw [h]

theorem signalSteps_length (ctrl i : Nat) : (signalSteps ctrl i).length ≤ 2 := by
  unfold signalSteps
  split_ifs <;> simp

theorem signalSteps_not_write32 (ctrl i off v : Nat) (t : Tag) :
    (Access.write32 off v, t) ∉ signalSteps ctrl i := by
  unfold signalSteps
  split_ifs <;> simp

theorem signalSteps_not_poll (ctrl i : Nat) (s : Access × Tag) (hs : s ∈ signalSteps ctrl i) :
    isPollStep s = false := by
  obtain ⟨m, hm⟩ := signalSteps_tag ctrl i s hs
  unfold isPollStep
  rw [hm]

theorem countP_eq_zero_of_forall {α : Type} (p : α → Bool) (l : List α)
    (h : ∀ a ∈ l, p a = false) : l.countP p = 0 := by
  rw [List.countP_eq_zero]
  intro a ha
  rw [h a ha]
  exact Bool.false_ne_true

/-- One round of the loop of `do_upload`, for every device: the only value
written to a data register is the dword read from the file, and at most
`LOOPNB` polls and `LOOPNB + 3` accesses are made. -/
theorem do_upload_body_bound (dev : Device) (u ctrl i status val : Nat) (tr : Trace)
    (hval : val < 2 ^ 32) :
    ∃ evs, (do_upload_body dev u ctrl i status val tr).2.2 = tr ++ evs ∧
      (∀ e ∈ evs, ∀ off v, e.acc = .write32 off v → v = val) ∧
      (evs.map Event.step).countP isPollStep ≤ LOOPNB ∧
      evs.length ≤ LOOPNB + 3 := by
  obtain ⟨polls, tail, h1, h2, h3⟩ := do_upload_body_spec dev u ctrl i status val tr hval
  have hpolls : ∀ e ∈ polls, ∀ off v, e.acc = .write32 off v → v = val := by
    intro e he off v hacc
    have := h2 e he
    rw [acc_of_step_write32 e off v hacc] at this
    simp at this
  rcases h3 with ⟨_, htail, hlen, _⟩ | ⟨⟨init, h, hp, hinit, _⟩, w, sig, htail, hw, _, _, k, hk⟩
  · subst htail
    refine ⟨polls, by rw [h1]; simp, hpolls, ?_, by omega⟩
    calc (polls.map Event.step).countP isPollStep ≤ (polls.map Event.step).length :=
          List.countP_le_length _
      _ = LOOPNB := by rw [List.length_map, hlen]
  · have hsigmem : ∀ e ∈ sig, e.step ∈ signalSteps ctrl i := by
      intro e he
      have : e.step ∈ sig.map Event.step := List.mem_map_of_mem _ he
      rw [hk] at this
      exact List.mem_of_mem_take this
    have hsiglen : sig.length ≤ 2 := by
      have := congrArg List.length hk
      rw [List.length_map, List.length_take] at this
      have := signalSteps_length ctrl i
      omega
    have hplen : polls.length ≤ LOOPNB := by
      rw [hp]; simp; omega
    refine ⟨polls ++ tail, h1, ?_, ?_, ?_⟩
    · intro e he off v hacc
      rcases List.mem_append.1 he with he | he
      · exact hpolls e he off v hacc
      · rw [htail] at he
        rcases List.mem_cons.1 he with rfl | he
        · rw [acc_of_step_write32 _ off v hacc] at hw
          simp only [Prod.mk.injEq, Access.write32.injEq] at hw
          exact hw.1.2
        · have := hsigmem e he
          rw [acc_of_step_write32 e off v hacc] at this
          exact absurd this (signalSteps_not_write32 ctrl i off v _)
    · rw [List.map_append, List.countP_append]
      have htz : (tail.map Event.step).countP isPollStep = 0 := by
        apply countP_eq_zero_of_forall
        intro s hs
        obtain ⟨e, he, rfl⟩ := List.mem_map.1 hs
        rw [htail] at he
        rcases List.mem_cons.1 he with rfl | he
        · rw [hw]; rfl
        · exact signalSteps_not_poll ctrl i _ (hsigmem e he)
      rw [htz]
      calc (polls.map Event.step).countP isPollStep + 0 ≤ (polls.map Event.step).length := by
            rw [Nat.add_zero]; exact List.countP_le_length _
        _ ≤ LOOPNB := by rw [List.length_map]; exact hplen
    · rw [List.length_append, htail, List.length_cons]
      omega

/-- The loop of `do_upload`, for every device and every file: the values
written to the data registers are dwords of the file, and a file of `N`
complete dwords costs at most `N * LOOPNB` polls and `N * (LOOPNB + 3)`
accesses. -/
theorem do_upload_loop_bound (dev : Device) (u ctrl : Nat) :
    ∀ (file : List Nat) (i status : Nat) (tr : Trace),
      ∃ evs, (do_upload_loop dev u ctrl file i status tr).2 = tr ++ evs ∧
        (∀ e ∈ evs, ∀ off v, e.acc = .write32 off v → v ∈ dwords file) ∧
        (evs.map Event.step).countP isPollStep ≤ file.length / 4 * LOOPNB ∧
        evs.length ≤ file.length / 4 * (LOOPNB + 3) := by
  intro file
  induction file using four_bytes_induction with
  | h0 => intro i status tr; exact ⟨[], by simp [do_upload_loop], by simp, by simp, by simp⟩
  | h1 a => intro i status tr; exact ⟨[], by simp [do_upload_loop], by simp, by simp, by simp⟩
  | h2 a b => intro i status tr; exact ⟨[], by simp [do_upload_loop], by simp, by simp, by simp⟩
  | h3 a b c => intro i status tr; exact ⟨[], by simp [do_upload_loop], by simp, by simp, by simp⟩
  | h4 b0 b1 b2 b3 rest ih =>
    intro i status tr
    rw [do_upload_loop_cons]
    obtain ⟨bevs, hb1, hb2, hb3, hb4⟩ :=
      do_upload_body_bound dev u ctrl i status (le32 b0 b1 b2 b3) tr (le32_lt _ _ _ _)
    have hlen : (b0 :: b1 :: b2 :: b3 :: rest).length / 4 = rest.length / 4 + 1 := by
      simp only [List.length_cons]; omega
    have hdw : dwords (b0 :: b1 :: b2 :: b3 :: rest) = le32 b0 b1 b2 b3 :: dwords rest := rfl
    rw [hlen, hdw]
    by_cases hneg : (do_upload_body dev u ctrl i status (le32 b0 b1 b2 b3) tr).1 < 0
    · rw [if_pos hneg]
      refine ⟨bevs, hb1, ?_, ?_, ?_⟩
      · intro e he off v hacc
        rw [hb2 e he off v hacc]
        exact List.mem_cons_self _ _
      · calc (bevs.map Event.step).countP isPollStep ≤ LOOPNB := hb3
          _ ≤ (rest.length / 4 + 1) * LOOPNB := Nat.le_mul_of_pos_left _ (by omega)
      · calc bevs.length ≤ LOOPNB + 3 := hb4
          _ ≤ (rest.length / 4 + 1) * (LOOPNB + 3) := Nat.le_mul_of_pos_left _ (by omega)
    · rw [if_neg hneg]
      obtain ⟨evs, he1, he2, he3, he4⟩ := ih ((i + 1) % 2 ^ 32)
        (do_upload_body dev u ctrl i status (le32 b0 b1 b2 b3) tr).2.1
        (do_upload_body dev u ctrl i status (le32 b0 b1 b2 b3) tr).2.2
      refine ⟨bevs ++ evs, by rw [he1, hb1]; simp, ?_, ?_, ?_⟩
      · intro e he off v hacc
        rcases List.mem_append.1 he with he | he
        · rw [hb2 e he off v hacc]
          exact List.mem_cons_self _ _
        · exact List.mem_cons_of_mem _ (he2 e he off v hacc)
      · rw [List.map_append, List.countP_append, Nat.add_mul, Nat.one_mul]
        omega
      · rw [List.length_append, Nat.add_mul, Nat.one_mul]
        omega

/-- The polling loop of `test_upload_result`, for every device: at most `n`
accesses, each a 32-bit read of the control register. -/
theorem test_upload_poll_events (dev : Device) (ctrl : Nat) :
    ∀ (n status : Nat) (tr : Trace),
      ∃ evs, (test_upload_poll dev ctrl n status tr).2 = tr ++ evs ∧ evs.length ≤ n ∧
        ∀ e ∈ evs, e.acc = .read32 ctrl ∧ e.tag = .plain := by
  intro n
  induction n with
  | zero => intro status tr; exact ⟨[], by simp [test_upload_poll], by simp, by simp⟩
  | succ n ih =>
    intro status tr
    rw [test_upload_poll]
    simp only [pci_cfg_read32]
    have hcons : ∀ (st : Nat), ∃ evs,
        (test_upload_poll dev ctrl n st
          (tr ++ [⟨.read32 ctrl, (dev tr (.read32 ctrl)).1, (dev tr (.read32 ctrl)).2, .plain⟩])).2 =
          tr ++ evs ∧ evs.length ≤ n + 1 ∧ ∀ e ∈ evs, e.acc = .read32 ctrl ∧ e.tag = .plain := by
      intro st
      obtain ⟨evs, h1, h2, h3⟩ := ih st
        (tr ++ [⟨.read32 ctrl, (dev tr (.read32 ctrl)).1, (dev tr (.read32 ctrl)).2, .plain⟩])
      refine ⟨⟨.read32 ctrl, (dev tr (.read32 ctrl)).1, (dev tr (.read32 ctrl)).2, .plain⟩ :: evs,
        by rw [h1]; simp, by simp; omega, ?_⟩
      intro e he
      rcases List.mem_cons.1 he with rfl | he
      · exact ⟨rfl, rfl⟩
      · exact h3 e he
    split_ifs
    · exact hcons _
    · exact ⟨[_], rfl, by simp, by simp⟩
    · exact hcons _

theorem test_upload_result_events (dev : Device) (u ctrl : Nat) (tr : Trace) :
    ∃ evs, (test_upload_result dev u ctrl tr).2.2 = tr ++ evs ∧ evs.length ≤ LOOPNB ∧
      ∀ e ∈ evs, e.acc = .read32 ctrl ∧ e.tag = .plain := by
  obtain ⟨evs, h1, h2, h3⟩ := test_upload_poll_events dev ctrl LOOPNB u tr
  refine ⟨evs, ?_, h2, h3⟩
  unfold test_upload_result
  simp only
  split_ifs <;> exact h1

/-- The accesses of `write_bitmask`, for every device: at most two, a 16-bit
read or a 16-bit write of `reg`. -/
theorem write_bitmask_events (dev : Device) (u reg m value : Nat) (tr : Trace) :
    ∃ sig, (write_bitmask dev u reg m value tr).2 = tr ++ sig ∧ sig.length ≤ 2 ∧
      ∀ e ∈ sig, (e.acc = .read16 reg ∨ ∃ v, e.acc = .write16 reg v) ∧ e.tag = .rmw m := by
  rcases hdev : dev tr (.read16 reg) with ⟨rc, d⟩
  by_cases hrc : 0 ≤ rc
  · rw [write_bitmask_full dev u reg m value tr rc d hdev hrc]
    refine ⟨_, rfl, by simp, ?_⟩
    intro e he
    simp only [List.mem_cons, List.mem_singleton, List.not_mem_nil, or_false] at he
    rcases he with rfl | rfl
    · exact ⟨Or.inl rfl, rfl⟩
    · exact ⟨Or.inr ⟨_, rfl⟩, rfl⟩
  · rw [write_bitmask_abort dev u reg m value tr rc d hdev (by omega)]
    refine ⟨_, rfl, by simp, ?_⟩
    intro e he
    simp only [List.mem_singleton] at he
    subst he
    exact ⟨Or.inl rfl, rfl⟩

theorem write_bit_events (dev : Device) (u reg b v : Nat) (tr : Trace) :
    ∃ sig, (write_bit dev u reg b v tr).2 = tr ++ sig ∧ sig.length ≤ 2 ∧
      ∀ e ∈ sig, (e.acc = .read16 reg ∨ ∃ x, e.acc = .write16 reg x) ∧ e.tag = .rmw (1 <<< b) :=
  write_bitmask_events dev u reg (1 <<< b) ((v <<< b) % 2 ^ 32) tr

theorem pumpStep_acc (ctrl : Nat) (e : Event) (h : isPumpStep ctrl e.step = true) :
    e.acc = .read16 ctrl ∨ (∃ v, e.acc = .write16 ctrl v) ∨
      ∃ v, e.acc = .write32 EXT_DATA0 v ∨ e.acc = .write32 EXT_DATA1 v := by
  rcases e with ⟨acc, rc, d, tag⟩
  cases acc with
  | read16 off =>
    cases tag <;> simp [Event.step, isPumpStep] at h
    · exact Or.inl (by rw [h.1])
    · exact Or.inl (by rw [h.1])
  | write16 off v =>
    cases tag <;> simp [Event.step, isPumpStep] at h
    exact Or.inr (Or.inl ⟨v, by rw [h.1.1]⟩)
  | read32 off => cases tag <;> simp [Event.step, isPumpStep] at h
  | write32 off v =>
    cases tag <;> simp [Event.step, isPumpStep] at h
    rcases h with h | h
    · exact Or.inr (Or.inr ⟨v, Or.inl (by rw [h])⟩)
    · exact Or.inr (Or.inr ⟨v, Or.inr (by rw [h])⟩)

theorem firmwareAccess_of_rmw (ds : List Nat) (e : Event)
    (h : e.acc = .read16 EXT_FW_DLOAD_CTRL_STATUS ∨ ∃ v, e.acc = .write16 EXT_FW_DLOAD_CTRL_STATUS v) :
    isFirmwareAccess ds e.acc = true := by
  rcases h with h | ⟨v, h⟩ <;> rw [h] <;> rfl

theorem firmwareAccess_of_pump (ds : List Nat) (e : Event)
    (h : isPumpStep EXT_FW_DLOAD_CTRL_STATUS e.step = true)
    (hv : ∀ off v, e.acc = .write32 off v → v ∈ ds) :
    isFirmwareAccess ds e.acc = true := by
  rcases pumpStep_acc _ e h with h | ⟨v, h⟩ | ⟨v, h | h⟩
  · rw [h]; rfl
  · rw [h]; rfl
  · have := hv _ _ h
    rw [h]; simp [isFirmwareAccess, this]
  · have := hv _ _ h
    rw [h]; simp [isFirmwareAccess, this]

theorem firmwareAccess_off (ds : List Nat) (a : Access) (h : isFirmwareAccess ds a = true) :
    a.off ≠ EXT_ROM_CTRL_STATUS ∧
      (a.off = EXT_FW_DLOAD_CTRL_STATUS ∨ a.off = EXT_DATA0 ∨ a.off = EXT_DATA1) := by
  cases a with
  | read16 off => simp [isFirmwareAccess] at h; subst h; simp [Access.off]
  | write16 off v => simp [isFirmwareAccess] at h; subst h; simp [Access.off]
  | read32 off => simp [isFirmwareAccess] at h; subst h; simp [Access.off]
  | write32 off v =>
    simp [isFirmwareAccess] at h
    rcases h.1 with h | h
    · subst h; simp [Access.off]
    · subst h; simp [Access.off]

/-- Any run of `do_upload`: every step is a pump step on `ctrl`, the values
written to the data registers are dwords of the file, and the polls and the
accesses are bounded by the number of complete dwords. -/
theorem do_upload_events (dev : Device) (u ctrl : Nat) (file : List Nat) (tr : Trace) :
    ∃ evs, (do_upload dev u file ctrl tr).2 = tr ++ evs ∧
      (∀ e ∈ evs, isPumpStep ctrl e.step = true) ∧
      (∀ e ∈ evs, ∀ off v, e.acc = .write32 off v → v ∈ dwords file) ∧
      (evs.map Event.step).countP isPollStep ≤ file.length / 4 * LOOPNB ∧
      evs.length ≤ file.length / 4 * (LOOPNB + 3) := by
  obtain ⟨evs, h1, _, h3, _⟩ := do_upload_loop_facts dev u ctrl file 0 u tr
  obtain ⟨evs2, g1, g2, g3, g4⟩ := do_upload_loop_bound dev u ctrl file 0 u tr
  have : evs = evs2 := List.append_cancel_left (h1.symm.trans g1)
  subst this
  exact ⟨evs, h1, h3, g2, g3, g4⟩

/-- C11. For every device and every input, every access of `write_firmware` is
a 16-bit read or write or a 32-bit read at offset 0xF4, or a 32-bit write to
DATA0 (0xF8) or DATA1 (0xFC) of a dword of the input file; so no access is
made at the ROM control register 0xF6 (no existence check), and nothing but
dwords of the file is written to the data registers (no magic value). -/
theorem C11_firmware_registers (dev : Device) (u : Nat) (ifile : Option (List Nat))
    (tr : Trace) :
    ∃ evs, (write_firmware dev u ifile tr).2 = tr ++ evs ∧
      ∀ e ∈ evs, isFirmwareAccess (dwords (ifile.getD [])) e.acc = true ∧
        e.acc.off ≠ EXT_ROM_CTRL_STATUS ∧
        (e.acc.off = 0xF4 ∨ e.acc.off = 0xF8 ∨ e.acc.off = 0xFC) ∧
        (∀ off, e.acc = .read16 off → off = 0xF4) ∧
        (∀ off v, e.acc = .write16 off v → off = 0xF4) ∧
        (∀ off, e.acc = .read32 off → off = 0xF4) ∧
        (∀ off v, e.acc = .write32 off v →
          (off = 0xF8 ∨ off = 0xFC) ∧ v ∈ dwords (ifile.getD [])) := by
  suffices hs : ∃ evs, (write_firmware dev u ifile tr).2 = tr ++ evs ∧
      ∀ e ∈ evs, isFirmwareAccess (dwords (ifile.getD [])) e.acc = true by
    obtain ⟨evs, h1, h2⟩ := hs
    refine ⟨evs, h1, fun e he => ?_⟩
    have hf := h2 e he
    obtain ⟨ho1, ho2⟩ := firmwareAccess_off _ _ hf
    refine ⟨hf, ho1, ho2, ?_, ?_, ?_, ?_⟩
    · intro off h; rw [h] at hf; simpa [isFirmwareAccess] using hf
    · intro off v h; rw [h] at hf; simpa [isFirmwareAccess] using hf
    · intro off h; rw [h] at hf; simpa [isFirmwareAccess] using hf
    · intro off v h; rw [h] at hf; simpa [isFirmwareAccess] using hf
  cases ifile with
  | none => exact ⟨[], by simp [write_firmware], by simp⟩
  | some bytes =>
    simp only [Option.getD_some]
    obtain ⟨a, ha1, _, ha3⟩ := write_bit_events dev u EXT_FW_DLOAD_CTRL_STATUS FW_DLOAD_ENABLE 1 tr
    obtain ⟨b, hb1, hb2, hb3, _, _⟩ := do_upload_events dev u EXT_FW_DLOAD_CTRL_STATUS bytes
      (write_bit dev u EXT_FW_DLOAD_CTRL_STATUS FW_DLOAD_ENABLE 1 tr).2
    obtain ⟨c, hc1, _, hc3⟩ := write_bit_events dev u EXT_FW_DLOAD_CTRL_STATUS FW_DLOAD_ENABLE 0
      (do_upload dev u bytes EXT_FW_DLOAD_CTRL_STATUS
        (write_bit dev u EXT_FW_DLOAD_CTRL_STATUS FW_DLOAD_ENABLE 1 tr).2).2
    obtain ⟨d, hd1, _, hd3⟩ := test_upload_result_events dev u EXT_FW_DLOAD_CTRL_STATUS
      (write_bit dev u EXT_FW_DLOAD_CTRL_STATUS FW_DLOAD_ENABLE 0
        (do_upload dev u bytes EXT_FW_DLOAD_CTRL_STATUS
          (write_bit dev u EXT_FW_DLOAD_CTRL_STATUS FW_DLOAD_ENABLE 1 tr).2).2).2
    have pa : ∀ e ∈ a, isFirmwareAccess (dwords bytes) e.acc = true :=
      fun e he => firmwareAccess_of_rmw _ e (ha3 e he).1
    have pb : ∀ e ∈ b, isFirmwareAccess (dwords bytes) e.acc = true :=
      fun e he => firmwareAccess_of_pump _ e (hb2 e he) (hb3 e he)
    have pc : ∀ e ∈ c, isFirmwareAccess (dwords bytes) e.acc = true :=
      fun e he => firmwareAccess_of_rmw _ e (hc3 e he).1
    have pd : ∀ e ∈ d, isFirmwareAccess (dwords bytes) e.acc = true := by
      intro e he
      rw [(hd3 e he).1]
      rfl
    have pab : ∀ e ∈ a ++ b, isFirmwareAccess (dwords bytes) e.acc = true := by
      intro e he
      rcases List.mem_append.1 he with he | he
      · exact pa e he
      · exact pb e he
    have pabc : ∀ e ∈ a ++ b ++ c, isFirmwareAccess (dwords bytes) e.acc = true := by
      intro e he
      rcases List.mem_append.1 he with he | he
      · exact pab e he
      · exact pc e he
    have pabcd : ∀ e ∈ a ++ b ++ c ++ d, isFirmwareAccess (dwords bytes) e.acc = true := by
      intro e he
      rcases List.mem_append.1 he with he | he
      · exact pabc e he
      · exact pd e he
    have tb : (do_upload dev u bytes EXT_FW_DLOAD_CTRL_STATUS
        (write_bit dev u EXT_FW_DLOAD_CTRL_STATUS FW_DLOAD_ENABLE 1 tr).2).2 = tr ++ (a ++ b) := by
      rw [hb1, ha1, List.append_assoc]
    have tc : (write_bit dev u EXT_FW_DLOAD_CTRL_STATUS FW_DLOAD_ENABLE 0
        (do_upload dev u bytes EXT_FW_DLOAD_CTRL_STATUS
          (write_bit dev u EXT_FW_DLOAD_CTRL_STATUS FW_DLOAD_ENABLE 1 tr).2).2).2 =
        tr ++ (a ++ b ++ c) := by
      rw [hc1, tb, List.append_assoc]
    have td : (test_upload_result dev u EXT_FW_DLOAD_CTRL_STATUS
        (write_bit dev u EXT_FW_DLOAD_CTRL_STATUS FW_DLOAD_ENABLE 0
          (do_upload dev u bytes EXT_FW_DLOAD_CTRL_STATUS
            (write_bit dev u EXT_FW_DLOAD_CTRL_STATUS FW_DLOAD_ENABLE 1 tr).2).2).2).2.2 =
        tr ++ (a ++ b ++ c ++ d) := by
      rw [hd1, tc, List.append_assoc]
    unfold write_firmware
    simp only
    split_ifs
    · exact ⟨a, ha1, pa⟩
    · exact ⟨a ++ b, tb, pab⟩
    · exact ⟨a ++ b ++ c, tc, pabc⟩
    · exact ⟨a ++ b ++ c ++ d, td, pabcd⟩
    · exact ⟨a ++ b ++ c ++ d, td, pabcd⟩

theorem step_fst_off (e : Event) : e.step.1.off = e.acc.off := by
  rcases e with ⟨acc, rc, d, tag⟩
  cases acc <;> cases tag <;> rfl

theorem isDataAccess_step (e : Event) : isDataAccess e.step.1 = isDataAccess e.acc := by
  unfold isDataAccess
  rw [step_fst_off]

theorem append_split {α : Type} : ∀ (l1 l2 pre post : List α) (e : α),
    l1 ++ l2 = pre ++ e :: post →
    (∃ post1, l1 = pre ++ e :: post1 ∧ post = post1 ++ l2) ∨
      (∃ pre2, pre = l1 ++ pre2 ∧ l2 = pre2 ++ e :: post) := by
  intro l1
  induction l1 with
  | nil => intro l2 pre post e h; exact Or.inr ⟨pre, rfl, h⟩
  | cons a l1 ih =>
    intro l2 pre post e h
    cases pre with
    | nil =>
      simp only [List.cons_append, List.nil_append, List.cons.injEq] at h
      exact Or.inl ⟨l1, by rw [h.1]; rfl, h.2.symm⟩
    | cons p pre =>
      simp only [List.cons_append, List.cons.injEq] at h
      rcases ih l2 pre post e h.2 with ⟨post1, h1, h2⟩ | ⟨pre2, h1, h2⟩
      · exact Or.inl ⟨post1, by rw [h.1, h1]; rfl, h2⟩
      · exact Or.inr ⟨pre2, by rw [h.1, h1]; rfl, h2⟩

theorem enableHead_take_le_one (k : Nat) (hk : k ≤ 1) (s : Access × Tag)
    (hs : s ∈ enableHead.take k) : isDataAccess s.1 = false := by
  interval_cases k
  · simp at hs
  · simp [enableHead] at hs
    subst hs
    rfl

theorem enableHead_take_ge_two (k : Nat) (hk : 2 ≤ k) :
    ∃ B, enableHead.take k =
        [(.read16 EXT_ROM_CTRL_STATUS, .bits 0x8000)] ++
          (.write32 EXT_DATA0 0x53524F4D, .plain) :: B ∧
      ∀ s ∈ B, isDataAccess s.1 = false := by
  obtain ⟨j, rfl⟩ : ∃ j, k = j + 2 := ⟨k - 2, by omega⟩
  refine ⟨(enableHead.drop 2).take j, rfl, ?_⟩
  intro s hs
  have := List.mem_of_mem_take hs
  simp [enableHead] at this
  rcases this with rfl | rfl <;> rfl

/-- A data access inside an initial part of the enable sequence is the write of
the magic value, directly after the existence check. -/
theorem enableHead_data (H : List Event) (k : Nat) (hH : H.map Event.step = enableHead.take k)
    (pre post : List Event) (e : Event) (hsplit : H = pre ++ e :: post)
    (hd : isDataAccess e.acc = true) :
    pre.map Event.step = [(.read16 EXT_ROM_CTRL_STATUS, .bits 0x8000)] ∧
      e.step = (.write32 EXT_DATA0 0x53524F4D, .plain) := by
  rw [hsplit, List.map_append, List.map_cons] at hH
  by_cases hk : k ≤ 1
  · exfalso
    have hmem : e.step ∈ enableHead.take k := by rw [← hH]; simp
    have := enableHead_take_le_one k hk _ hmem
    rw [isDataAccess_step, hd] at this
    exact Bool.noConfusion this
  · obtain ⟨B, hB1, hB2⟩ := enableHead_take_ge_two k (by omega)
    rw [hB1] at hH
    obtain ⟨h1, h2, _⟩ := unique_split (fun s => isDataAccess s.1 = true)
      [(.read16 EXT_ROM_CTRL_STATUS, .bits 0x8000)] B (pre.map Event.step) (post.map Event.step)
      (.write32 EXT_DATA0 0x53524F4D, .plain) e.step
      (by intro a ha; simp at ha; subst ha; decide)
      (by intro b hb; show ¬ (isDataAccess b.1 = true); rw [hB2 b hb]; decide)
      (by show isDataAccess e.step.1 = true; rw [isDataAccess_step]; exact hd) hH.symm
    exact ⟨h1, h2⟩

theorem enableHead_not_clear (H : List Event) (k : Nat)
    (hH : H.map Event.step = enableHead.take k) :
    ∀ e ∈ H, isClearEnable EXT_ROM_CTRL_STATUS e.step = false := by
  intro e he
  have hmem : e.step ∈ enableHead.take k := by
    rw [← hH]; exact List.mem_map_of_mem _ he
  have := List.mem_of_mem_take hmem
  simp [enableHead] at this
  rcases this with h | h | h | h <;> rw [h] <;> rfl

/-- The order of the gate holds for a run made of an initial part `H` of the
enable sequence, then accesses `R1` that do not clear the access-enable bit,
then accesses `R2` that touch no data register, when nothing follows `H`
unless the write that sets the access-enable bit was made in `H` and
succeeded. -/
theorem gateOrdered_of_shape (H R1 R2 : List Event) (k : Nat)
    (hH : H.map Event.step = enableHead.take k)
    (hset : R1 ++ R2 ≠ [] → ∃ s ∈ H, isSetEnable s.step = true ∧ 0 ≤ s.rc)
    (hR1 : ∀ e ∈ R1, isClearEnable EXT_ROM_CTRL_STATUS e.step = false)
    (hR2 : ∀ e ∈ R2, isDataAccess e.acc = false) :
    GateOrdered (H ++ (R1 ++ R2)) := by
  intro pre e post hsplit hd
  have hHc := enableHead_not_clear H k hH
  rcases append_split H (R1 ++ R2) pre post e hsplit with ⟨post1, h1, _⟩ | ⟨pre2, h1, h2⟩
  · refine ⟨Or.inl (enableHead_data H k hH pre post1 e h1 hd), ?_⟩
    intro s hs
    exact hHc s (by rw [h1]; exact List.mem_append_left _ hs)
  · have hne : R1 ++ R2 ≠ [] := by rw [h2]; simp
    obtain ⟨s, hs, hs2⟩ := hset hne
    refine ⟨Or.inr ⟨s, by rw [h1]; exact List.mem_append_left _ hs, hs2⟩, ?_⟩
    rcases append_split R1 R2 pre2 post e h2 with ⟨post1, g1, _⟩ | ⟨pre3, _, g2⟩
    · intro s hs
      rw [h1] at hs
      rcases List.mem_append.1 hs with hs | hs
      · exact hHc s hs
      · exact hR1 s (by rw [g1]; exact List.mem_append_left _ hs)
    · exfalso
      have := hR2 e (by rw [g2]; simp)
      rw [hd] at this
      exact Bool.noConfusion this

/-- Any run of the enable sequence, for every device: an initial part of
`enableHead` followed by polls of the result field; a poll was made, or 0 was
returned, only after a successful write that sets the access-enable bit. -/
theorem enable_shape (dev : Device) (u : Nat) (tr : Trace) :
    ∃ H polls k, (external_rom_access dev u true tr).2 = tr ++ (H ++ polls) ∧
      H.map Event.step = enableHead.take k ∧
      (∀ e ∈ polls, e.step = (.read16 EXT_ROM_CTRL_STATUS, .plain)) ∧
      polls.length ≤ LOOPNB ∧
      ((external_rom_access dev u true tr).1 = 0 ∨ (external_rom_access dev u true tr).1 = -1) ∧
      ((polls ≠ [] ∨ (external_rom_access dev u true tr).1 = 0) →
        ∃ s ∈ H, isSetEnable s.step = true ∧ 0 ≤ s.rc) := by
  obtain ⟨he0, e, he1, he2⟩ := eeprom_exists_spec dev u tr
  unfold external_rom_access
  simp only [if_true, he1, pci_cfg_write32]
  by_cases h1 : (eeprom_exists dev u tr).1 < 0
  · rw [if_pos h1]
    exact ⟨[e], [], 1, by simp, by simp [he2, enableHead], by simp, by simp, Or.inr rfl,
      by simp⟩
  · rw [if_neg h1]
    set w : Event := ⟨.write32 EXT_DATA0 (0x53524F4D % 2 ^ 32),
      (dev (tr ++ [e]) (.write32 EXT_DATA0 (0x53524F4D % 2 ^ 32))).1, 0, .plain⟩ with hw
    have hwstep : w.step = (.write32 EXT_DATA0 0x53524F4D, .plain) := rfl
    by_cases h2 : (dev (tr ++ [e]) (.write32 EXT_DATA0 (0x53524F4D % 2 ^ 32))).1 < 0
    · rw [if_pos h2]
      exact ⟨[e, w], [], 2, by simp, by simp [he2, hwstep, enableHead], by simp, by simp,
        Or.inr rfl, by simp⟩
    · rw [if_neg h2]
      obtain ⟨sig, hs1, hs2⟩ := write_bit_one_spec dev u EXT_ROM_CTRL_STATUS ROM_ACCESS_ENABLE
        (tr ++ [e] ++ [w]) (by decide)
      by_cases h3 : (write_bit dev u EXT_ROM_CTRL_STATUS ROM_ACCESS_ENABLE 1
          (tr ++ [e] ++ [w])).1 < 0
      · rw [if_pos h3]
        rcases hs2 with ⟨h, _⟩ | ⟨h, _⟩
        · refine ⟨e :: w :: sig, [], 3, by rw [hs1]; simp, ?_, by simp, by simp, Or.inr rfl,
            by simp⟩
          simp only [List.map_cons, he2, hwstep, h]
          rfl
        · refine ⟨e :: w :: sig, [], 4, by rw [hs1]; simp, ?_, by simp, by simp, Or.inr rfl,
            by simp⟩
          simp only [List.map_cons, he2, hwstep, h]
          rfl
      · rw [if_neg h3]
        rcases hs2 with ⟨_, hneg⟩ | ⟨h, s, hlast, hrc⟩
        · exact absurd hneg h3
        · obtain ⟨hrc0, polls, hp1, hp2, hp3⟩ := rom_access_poll_spec dev LOOPNB u
            (write_bit dev u EXT_ROM_CTRL_STATUS ROM_ACCESS_ENABLE 1 (tr ++ [e] ++ [w])).2
          refine ⟨e :: w :: sig, polls, 4, by rw [hp1, hs1]; simp, ?_, hp3, hp2, hrc0, ?_⟩
          · simp only [List.map_cons, he2, hwstep, h]
            rfl
          · intro _
            have hsmem : s ∈ sig := List.mem_of_getLast?_eq_some hlast
            have hstep : s.step ∈ sig.map Event.step := List.mem_map_of_mem _ hsmem
            have hlast2 : (sig.map Event.step).getLast? = some s.step := by
              rw [List.getLast?_map, hlast]; rfl
            rw [h] at hlast2
            simp at hlast2
            refine ⟨s, by simp [hsmem], ?_, ?_⟩
            · rw [← hlast2]; rfl
            · rw [← hrc]; exact not_lt.mp h3

theorem isPollStep_rmw (e : Event) (m : Nat) (h : e.tag = .rmw m) : isPollStep e.step = false := by
  unfold isPollStep
  rw [step_snd, h]

theorem isPollStep_plain (e : Event) (h : e.tag = .plain) : isPollStep e.step = false := by
  unfold isPollStep
  rw [step_snd, h]

theorem countP_poll_le (l : List Event) (n : Nat) (h : l.length ≤ n) :
    (l.map Event.step).countP isPollStep ≤ n :=
  calc (l.map Event.step).countP isPollStep ≤ (l.map Event.step).length := List.countP_le_length _
    _ = l.length := List.length_map _ _
    _ ≤ n := h

theorem countP_poll_zero (l : List Event) (h : ∀ e ∈ l, isPollStep e.step = false) :
    (l.map Event.step).countP isPollStep = 0 := by
  apply countP_eq_zero_of_forall
  intro s hs
  obtain ⟨e, he, rfl⟩ := List.mem_map.1 hs
  exact h e he

/-- One transfer of the loop of `read_eeprom`, for every device: at most
`LOOPNB` polls and `LOOPNB + 3` accesses. -/
theorem read_eeprom_body_bound (dev : Device) (u data01 : Nat) (s : RdState) (hd : data01 < 2) :
    ∃ evs, (read_eeprom_body dev u data01 s).2.tr = s.tr ++ evs ∧
      (evs.map Event.step).countP isPollStep ≤ LOOPNB ∧ evs.length ≤ LOOPNB + 3 := by
  unfold read_eeprom_body
  simp only
  obtain ⟨polls, hp1, hp2, hp3, _⟩ := poll_bit_zero_spec dev EXT_ROM_CTRL_STATUS
    (ROM_GET_DATA0 + data01) (by simp only [ROM_GET_DATA0]; omega) LOOPNB s.status s.tr
  have hc := countP_poll_le polls LOOPNB hp2
  by_cases h1 : (poll_bit_zero dev EXT_ROM_CTRL_STATUS (ROM_GET_DATA0 + data01) LOOPNB
      s.status s.tr).1 = false
  · rw [if_pos h1]
    exact ⟨polls, hp1, hc, by omega⟩
  · rw [if_neg h1]
    simp only [pci_cfg_read32, hp1]
    split_ifs
    · refine ⟨polls ++ [⟨.read32 (DATAREG (ROM_GET_DATA0 + data01)),
          (dev (s.tr ++ polls) (.read32 (DATAREG (ROM_GET_DATA0 + data01)))).1,
          (dev (s.tr ++ polls) (.read32 (DATAREG (ROM_GET_DATA0 + data01)))).2, .plain⟩],
        by simp only [List.append_assoc], ?_, by simp; omega⟩
      rw [List.map_append, List.countP_append]
      simp only [List.map_cons, List.map_nil]
      rw [List.countP_cons_of_neg _ _ (by simp [isPollStep, Event.step])]
      simpa using hc
    · obtain ⟨sig, hs1, hs2, hs3⟩ := write_bit_events dev u EXT_ROM_CTRL_STATUS
        (ROM_GET_DATA0 + data01) 1
        (s.tr ++ polls ++ [⟨.read32 (DATAREG (ROM_GET_DATA0 + data01)),
          (dev (s.tr ++ polls) (.read32 (DATAREG (ROM_GET_DATA0 + data01)))).1,
          (dev (s.tr ++ polls) (.read32 (DATAREG (ROM_GET_DATA0 + data01)))).2, .plain⟩])
      refine ⟨polls ++ [⟨.read32 (DATAREG (ROM_GET_DATA0 + data01)),
          (dev (s.tr ++ polls) (.read32 (DATAREG (ROM_GET_DATA0 + data01)))).1,
          (dev (s.tr ++ polls) (.read32 (DATAREG (ROM_GET_DATA0 + data01)))).2, .plain⟩] ++ sig,
        by rw [hs1]; simp only [List.append_assoc], ?_, by simp; omega⟩
      rw [List.map_append, List.countP_append, List.map_append, List.countP_append,
        countP_poll_zero sig (fun e he => isPollStep_rmw e _ (hs3 e he).2)]
      simp only [List.map_cons, List.map_nil]
      rw [List.countP_cons_of_neg _ _ (by simp [isPollStep, Event.step])]
      simpa using hc
    · obtain ⟨sig, hs1, hs2, hs3⟩ := write_bit_events dev u EXT_ROM_CTRL_STATUS
        (ROM_GET_DATA0 + data01) 1
        (s.tr ++ polls ++ [⟨.read32 (DATAREG (ROM_GET_DATA0 + data01)),
          (dev (s.tr ++ polls) (.read32 (DATAREG (ROM_GET_DATA0 + data01)))).1,
          (dev (s.tr ++ polls) (.read32 (DATAREG (ROM_GET_DATA0 + data01)))).2, .plain⟩])
      refine ⟨polls ++ [⟨.read32 (DATAREG (ROM_GET_DATA0 + data01)),
          (dev (s.tr ++ polls) (.read32 (DATAREG (ROM_GET_DATA0 + data01)))).1,
          (dev (s.tr ++ polls) (.read32 (DATAREG (ROM_GET_DATA0 + data01)))).2, .plain⟩] ++ sig,
        by rw [hs1]; simp only [List.append_assoc], ?_, by simp; omega⟩
      rw [List.map_append, List.countP_append, List.map_append, List.countP_append,
        countP_poll_zero sig (fun e he => isPollStep_rmw e _ (hs3 e he).2)]
      simp only [List.map_cons, List.map_nil]
      rw [List.countP_cons_of_neg _ _ (by simp [isPollStep, Event.step])]
      simpa using hc

theorem read_eeprom_inner_bound (dev : Device) (u : Nat) :
    ∀ (n data01 : Nat) (s : RdState), data01 + n ≤ 2 →
      ∃ evs, (read_eeprom_inner dev u n data01 s).2.tr = s.tr ++ evs ∧
        (evs.map Event.step).countP isPollStep ≤ n * LOOPNB ∧
        evs.length ≤ n * (LOOPNB + 3) := by
  intro n
  induction n with
  | zero => intro data01 s _; exact ⟨[], by simp [read_eeprom_inner], by simp, by simp⟩
  | succ n ih =>
    intro data01 s hd
    rw [read_eeprom_inner]
    obtain ⟨bevs, hb1, hb2, hb3⟩ := read_eeprom_body_bound dev u data01 s (by omega)
    split_ifs
    · refine ⟨bevs, hb1, ?_, ?_⟩
      · calc (bevs.map Event.step).countP isPollStep ≤ LOOPNB := hb2
          _ ≤ (n + 1) * LOOPNB := Nat.le_mul_of_pos_left _ (by omega)
      · calc bevs.length ≤ LOOPNB + 3 := hb3
          _ ≤ (n + 1) * (LOOPNB + 3) := Nat.le_mul_of_pos_left _ (by omega)
    · obtain ⟨evs, h1, h2, h3⟩ := ih (data01 + 1) (read_eeprom_body dev u data01 s).2 (by omega)
      refine ⟨bevs ++ evs, by rw [h1, hb1]; simp, ?_, ?_⟩
      · rw [List.map_append, List.countP_append, Nat.add_mul, Nat.one_mul]
        omega
      · rw [List.length_append, Nat.add_mul, Nat.one_mul]
        omega

/-- The transfer loop of `read_eeprom` over `n` groups of 8 bytes, for every
device: at most `2 * n * LOOPNB` polls and `2 * n * (LOOPNB + 3)` accesses. -/
theorem read_eeprom_outer_bound (dev : Device) (u : Nat) :
    ∀ (n : Nat) (s : RdState),
      ∃ evs, (read_eeprom_outer dev u n s).2.tr = s.tr ++ evs ∧
        (evs.map Event.step).countP isPollStep ≤ 2 * n * LOOPNB ∧
        evs.length ≤ 2 * n * (LOOPNB + 3) := by
  intro n
  induction n with
  | zero => intro s; exact ⟨[], by simp [read_eeprom_outer], by simp, by simp⟩
  | succ n ih =>
    intro s
    rw [read_eeprom_outer]
    obtain ⟨bevs, hb1, hb2, hb3⟩ := read_eeprom_inner_bound dev u 2 0 s (by omega)
    split_ifs
    · refine ⟨bevs, hb1, ?_, ?_⟩
      · have : 2 * (n + 1) * LOOPNB = 2 * LOOPNB + 2 * n * LOOPNB := by ring
        omega
      · have : 2 * (n + 1) * (LOOPNB + 3) = 2 * (LOOPNB + 3) + 2 * n * (LOOPNB + 3) := by ring
        omega
    · obtain ⟨evs, h1, h2, h3⟩ := ih (read_eeprom_inner dev u 2 0 s).2
      refine ⟨bevs ++ evs, by rw [h1, hb1]; simp, ?_, ?_⟩
      · rw [List.map_append, List.countP_append]
        have : 2 * (n + 1) * LOOPNB = 2 * LOOPNB + 2 * n * LOOPNB := by ring
        omega
      · rw [List.length_append]
        have : 2 * (n + 1) * (LOOPNB + 3) = 2 * (LOOPNB + 3) + 2 * n * (LOOPNB + 3) := by ring
        omega

/-- Any run of the disable sequence, for every device: at most two accesses
that neither clear the access-enable bit nor touch a data register nor are
polls of a get bit, then at most one access, which touches no data
register. -/
theorem disable_shape (dev : Device) (u : Nat) (tr : Trace) :
    ∃ D1 D2, (external_rom_access dev u false tr).2 = tr ++ (D1 ++ D2) ∧
      D1.length ≤ 2 ∧ D2.length ≤ 1 ∧
      (∀ e ∈ D1, e.step ∈ disableSteps.take 2) ∧
      (∀ e ∈ D2, e.step ∈ disableSteps.drop 2) := by
  obtain ⟨_, D, k, h1, h2, _⟩ := disable_spec dev u tr
  have hlen : D.length ≤ 3 := by
    have := congrArg List.length h2
    rw [List.length_map, List.length_take] at this
    simp [disableSteps] at this
    omega
  refine ⟨D.take 2, D.drop 2, by rw [h1, List.take_append_drop], ?_, ?_, ?_, ?_⟩
  · rw [List.length_take]; omega
  · rw [List.length_drop]; omega
  · intro e he
    have : e.step ∈ (D.map Event.step).take 2 := by
      rw [← List.map_take]; exact List.mem_map_of_mem _ he
    rw [h2, List.take_take, Nat.min_comm, ← List.take_take] at this
    exact List.mem_of_mem_take this
  · intro e he
    have : e.step ∈ (D.map Event.step).drop 2 := by
      rw [← List.map_drop]; exact List.mem_map_of_mem _ he
    rw [h2, List.drop_take] at this
    exact List.mem_of_mem_take this

theorem poll_not_clear (e : Event) (h : e.step = (.read16 EXT_ROM_CTRL_STATUS, .plain)) :
    isClearEnable EXT_ROM_CTRL_STATUS e.step = false := by
  rw [h]; rfl

theorem disable_head_not_clear (e : Event) (h : e.step ∈ disableSteps.take 2) :
    isClearEnable EXT_ROM_CTRL_STATUS e.step = false := by
  simp [disableSteps] at h
  rcases h with h | h <;> rw [h] <;> rfl

theorem disable_tail_not_data (e : Event) (h : e.step ∈ disableSteps.drop 2) :
    isDataAccess e.acc = false := by
  simp [disableSteps] at h
  rw [← isDataAccess_step, h]
  rfl

theorem check_not_data (e : Event) (h : e.acc = .read32 EXT_ROM_CTRL_STATUS) :
    isDataAccess e.acc = false := by
  rw [h]; rfl

theorem gateOrdered_nil : GateOrdered [] := by
  intro pre e post h
  simp at h

/-- The order of the gate in any run of `write_eeprom`. -/
theorem write_eeprom_gateOrdered (dev : Device) (u : Nat) (ifile : Option (List Nat))
    (tr : Trace) :
    ∃ evs, (write_eeprom dev u ifile tr).2 = tr ++ evs ∧ GateOrdered evs := by
  cases ifile with
  | none => exact ⟨[], by simp [write_eeprom], gateOrdered_nil⟩
  | some bytes =>
    obtain ⟨H, polls, k, he1, he2, he3, _, he5, he6⟩ := enable_shape dev u tr
    obtain ⟨P, hp1, hp2, _⟩ := do_upload_events dev u EXT_ROM_CTRL_STATUS bytes
      (external_rom_access dev u true tr).2
    obtain ⟨D1, D2, hd1, _, _, hd4, hd5⟩ := disable_shape dev u
      (do_upload dev u bytes EXT_ROM_CTRL_STATUS (external_rom_access dev u true tr).2).2
    obtain ⟨C, hc1, _, hc3⟩ := test_upload_result_events dev u EXT_ROM_CTRL_STATUS
      (external_rom_access dev u false
        (do_upload dev u bytes EXT_ROM_CTRL_STATUS (external_rom_access dev u true tr).2).2).2
    have hset : ¬ (external_rom_access dev u true tr).1 < 0 →
        ∃ s ∈ H, isSetEnable s.step = true ∧ 0 ≤ s.rc := by
      intro h
      apply he6
      rcases he5 with h0 | h0
      · exact Or.inr h0
      · rw [h0] at h; exact absurd (by decide) h
    have n1 : ∀ e ∈ polls, isClearEnable EXT_ROM_CTRL_STATUS e.step = false :=
      fun e he => poll_not_clear e (he3 e he)
    have n2 : ∀ e ∈ polls ++ P, isClearEnable EXT_ROM_CTRL_STATUS e.step = false := by
      intro e he
      rcases List.mem_append.1 he with he | he
      · exact n1 e he
      · exact isPumpStep_not_clear _ _ _ (hp2 e he)
    have n3 : ∀ e ∈ polls ++ P ++ D1, isClearEnable EXT_ROM_CTRL_STATUS e.step = false := by
      intro e he
      rcases List.mem_append.1 he with he | he
      · exact n2 e he
      · exact disable_head_not_clear e (hd4 e he)
    have m1 : ∀ e ∈ D2, isDataAccess e.acc = false := fun e he => disable_tail_not_data e (hd5 e he)
    have m2 : ∀ e ∈ D2 ++ C, isDataAccess e.acc = false := by
      intro e he
      rcases List.mem_append.1 he with he | he
      · exact m1 e he
      · exact check_not_data e (hc3 e he).1
    have tp : (do_upload dev u bytes EXT_ROM_CTRL_STATUS (external_rom_access dev u true tr).2).2 =
        tr ++ (H ++ (polls ++ P ++ [])) := by
      rw [hp1, he1]; simp
    have td : (external_rom_access dev u false
        (do_upload dev u bytes EXT_ROM_CTRL_STATUS (external_rom_access dev u true tr).2).2).2 =
        tr ++ (H ++ (polls ++ P ++ D1 ++ D2)) := by
      rw [hd1, tp]; simp
    have tc : (test_upload_result dev u EXT_ROM_CTRL_STATUS (external_rom_access dev u false
        (do_upload dev u bytes EXT_ROM_CTRL_STATUS (external_rom_access dev u true tr).2).2).2).2.2 =
        tr ++ (H ++ (polls ++ P ++ D1 ++ (D2 ++ C))) := by
      rw [hc1, td]; simp
    unfold write_eeprom
    simp only
    split_ifs with c1 c2 c3 c4
    · refine ⟨H ++ (polls ++ []), by rw [he1]; simp, gateOrdered_of_shape H polls [] k he2 ?_ n1
        (by simp)⟩
      intro hne
      exact he6 (Or.inl (by simpa using hne))
    · exact ⟨_, tp, gateOrdered_of_shape H (polls ++ P) [] k he2 (fun _ => hset c1) n2 (by simp)⟩
    · exact ⟨_, td, gateOrdered_of_shape H (polls ++ P ++ D1) D2 k he2 (fun _ => hset c1) n3 m1⟩
    · exact ⟨_, tc, gateOrdered_of_shape H (polls ++ P ++ D1) (D2 ++ C) k he2 (fun _ => hset c1)
        n3 m2⟩
    · exact ⟨_, tc, gateOrdered_of_shape H (polls ++ P ++ D1) (D2 ++ C) k he2 (fun _ => hset c1)
        n3 m2⟩

/-- The order of the gate in any run of `read_eeprom`. -/
theorem read_eeprom_gateOrdered (dev : Device) (u : Nat) (ofileOk : Bool) (len : Nat)
    (tr : Trace) :
    ∃ evs, (read_eeprom dev u ofileOk len tr).2.2 = tr ++ evs ∧ GateOrdered evs := by
  obtain ⟨H, polls, k, he1, he2, he3, _, he5, he6⟩ := enable_shape dev u tr
  obtain ⟨G0, hg1, hg2⟩ := write_bit_one_not_clear dev u EXT_ROM_CTRL_STATUS ROM_GET_DATA0
    (external_rom_access dev u true tr).2 (by decide)
  obtain ⟨G1, hh1, hh2⟩ := write_bit_one_not_clear dev u EXT_ROM_CTRL_STATUS ROM_GET_DATA1
    (write_bit dev u EXT_ROM_CTRL_STATUS ROM_GET_DATA0 1 (external_rom_access dev u true tr).2).2
    (by decide)
  obtain ⟨L, hl1, _, hl3, _⟩ := read_eeprom_outer_spec dev u ((len % 2 ^ 32) / 8)
    ⟨u, u, [], (write_bit dev u EXT_ROM_CTRL_STATUS ROM_GET_DATA1 1
      (write_bit dev u EXT_ROM_CTRL_STATUS ROM_GET_DATA0 1
        (external_rom_access dev u true tr).2).2).2⟩
  obtain ⟨D1, D2, hd1, _, _, hd4, hd5⟩ := disable_shape dev u
    (read_eeprom_outer dev u ((len % 2 ^ 32) / 8)
      ⟨u, u, [], (write_bit dev u EXT_ROM_CTRL_STATUS ROM_GET_DATA1 1
        (write_bit dev u EXT_ROM_CTRL_STATUS ROM_GET_DATA0 1
          (external_rom_access dev u true tr).2).2).2⟩).2.tr
  have hset : ¬ (external_rom_access dev u true tr).1 < 0 →
      ∃ s ∈ H, isSetEnable s.step = true ∧ 0 ≤ s.rc := by
    intro h
    apply he6
    rcases he5 with h0 | h0
    · exact Or.inr h0
    · rw [h0] at h; exact absurd (by decide) h
  have n1 : ∀ e ∈ polls, isClearEnable EXT_ROM_CTRL_STATUS e.step = false :=
    fun e he => poll_not_clear e (he3 e he)
  have n2 : ∀ e ∈ polls ++ G0, isClearEnable EXT_ROM_CTRL_STATUS e.step = false := by
    intro e he
    rcases List.mem_append.1 he with he | he
    · exact n1 e he
    · exact hg2 e he
  have n3 : ∀ e ∈ polls ++ G0 ++ G1, isClearEnable EXT_ROM_CTRL_STATUS e.step = false := by
    intro e he
    rcases List.mem_append.1 he with he | he
    · exact n2 e he
    · exact hh2 e he
  have n4 : ∀ e ∈ polls ++ G0 ++ G1 ++ L, isClearEnable EXT_ROM_CTRL_STATUS e.step = false := by
    intro e he
    rcases List.mem_append.1 he with he | he
    · exact n3 e he
    · exact isGetStep_not_clear _ _ (hl3 e he)
  have n5 : ∀ e ∈ polls ++ G0 ++ G1 ++ L ++ D1,
      isClearEnable EXT_ROM_CTRL_STATUS e.step = false := by
    intro e he
    rcases List.mem_append.1 he with he | he
    · exact n4 e he
    · exact disable_head_not_clear e (hd4 e he)
  have m1 : ∀ e ∈ D2, isDataAccess e.acc = false := fun e he => disable_tail_not_data e (hd5 e he)
  have t0 : (write_bit dev u EXT_ROM_CTRL_STATUS ROM_GET_DATA0 1
      (external_rom_access dev u true tr).2).2 = tr ++ (H ++ (polls ++ G0 ++ [])) := by
    rw [hg1, he1]; simp
  have t1 : (write_bit dev u EXT_ROM_CTRL_STATUS ROM_GET_DATA1 1
      (write_bit dev u EXT_ROM_CTRL_STATUS ROM_GET_DATA0 1
        (external_rom_access dev u true tr).2).2).2 = tr ++ (H ++ (polls ++ G0 ++ G1 ++ [])) := by
    rw [hh1, t0]; simp
  have tl : (read_eeprom_outer dev u ((len % 2 ^ 32) / 8)
      ⟨u, u, [], (write_bit dev u EXT_ROM_CTRL_STATUS ROM_GET_DATA1 1
        (write_bit dev u EXT_ROM_CTRL_STATUS ROM_GET_DATA0 1
          (external_rom_access dev u true tr).2).2).2⟩).2.tr =
      tr ++ (H ++ (polls ++ G0 ++ G1 ++ L ++ [])) := by
    rw [hl1]
    simp only
    rw [t1]; simp
  have td : (external_rom_access dev u false (read_eeprom_outer dev u ((len % 2 ^ 32) / 8)
      ⟨u, u, [], (write_bit dev u EXT_ROM_CTRL_STATUS ROM_GET_DATA1 1
        (write_bit dev u EXT_ROM_CTRL_STATUS ROM_GET_DATA0 1
          (external_rom_access dev u true tr).2).2).2⟩).2.tr).2 =
      tr ++ (H ++ (polls ++ G0 ++ G1 ++ L ++ D1 ++ D2)) := by
    rw [hd1, tl]; simp
  unfold read_eeprom
  simp only
  split_ifs with c0 c1 c2 c3 c4 c5
  · exact ⟨[], by simp, gateOrdered_nil⟩
  · refine ⟨H ++ (polls ++ []), by rw [he1]; simp, gateOrdered_of_shape H polls [] k he2 ?_ n1
      (by simp)⟩
    intro hne
    exact he6 (Or.inl (by simpa using hne))
  · exact ⟨_, t0, gateOrdered_of_shape H (polls ++ G0) [] k he2 (fun _ => hset c1) n2 (by simp)⟩
  · exact ⟨_, t1, gateOrdered_of_shape H (polls ++ G0 ++ G1) [] k he2 (fun _ => hset c1) n3
      (by simp)⟩
  · exact ⟨_, tl, gateOrdered_of_shape H (polls ++ G0 ++ G1 ++ L) [] k he2 (fun _ => hset c1) n4
      (by simp)⟩
  · exact ⟨_, td, gateOrdered_of_shape H (polls ++ G0 ++ G1 ++ L ++ D1) D2 k he2
      (fun _ => hset c1) n5 m1⟩
  · exact ⟨_, td, gateOrdered_of_shape H (polls ++ G0 ++ G1 ++ L ++ D1) D2 k he2
      (fun _ => hset c1) n5 m1⟩

/-- C12 (amended). In every run of `write_eeprom` and of `read_eeprom`, on every
device: an access of DATA0 or DATA1 is either the write of the magic value
0x53524F4D to DATA0 that the enable sequence makes directly after its
existence check, or it comes after a successful write that sets the
access-enable bit (bit 0 of 0xF6); and no access of DATA0 or DATA1 comes after
a write that clears that bit. -/
theorem C12_gate_order (dev : Device) (u : Nat) (ifile : Option (List Nat)) (ofileOk : Bool)
    (len : Nat) (tr : Trace) :
    (∃ evs, (write_eeprom dev u ifile tr).2 = tr ++ evs ∧ GateOrdered evs) ∧
      ∃ evs, (read_eeprom dev u ofileOk len tr).2.2 = tr ++ evs ∧ GateOrdered evs :=
  ⟨write_eeprom_gateOrdered dev u ifile tr, read_eeprom_gateOrdered dev u ofileOk len tr⟩

/-- C12 fails as stated on the simulated device: in the run of `write_eeprom`
on an empty image the second access is the write of 0x53524F4D to DATA0, the
only access before it is the read of the existence check, and the write that
sets the access-enable bit comes after it. -/
theorem C12_counterexample :
    ∃ pre e post, (write_eeprom (simDev 0 0) 0 (some []) []).2 = pre ++ e :: post ∧
      e.acc = .write32 EXT_DATA0 0x53524F4D ∧ isDataAccess e.acc = true ∧
      pre.map Event.step = [(.read16 EXT_ROM_CTRL_STATUS, .bits 0x8000)] ∧
      (∀ s ∈ pre, isSetEnable s.step = false) ∧
      ∃ s ∈ post, isSetEnable s.step = true := by
  refine ⟨[⟨.read16 EXT_ROM_CTRL_STATUS, 2, 0x8000, .bits 0x8000⟩],
    ⟨.write32 EXT_DATA0 0x53524F4D, 4, 0, .plain⟩,
    [⟨.read16 EXT_ROM_CTRL_STATUS, 2, 0x8000, .rmw 1⟩,
     ⟨.write16 EXT_ROM_CTRL_STATUS 0x8001, 2, 0, .rmw 1⟩,
     ⟨.read16 EXT_ROM_CTRL_STATUS, 2, 0x8000, .plain⟩,
     ⟨.read16 EXT_ROM_CTRL_STATUS, 2, 0x8000, .bits 0x8000⟩,
     ⟨.read16 EXT_ROM_CTRL_STATUS, 2, 0x8000, .rmw 1⟩,
     ⟨.write16 EXT_ROM_CTRL_STATUS 0x8000, 2, 0, .rmw 1⟩,
     ⟨.read32 EXT_ROM_CTRL_STATUS, 4, 0x8010, .plain⟩], rfl, rfl, rfl, rfl, ?_, ?_⟩
  · intro s hs
    simp only [List.mem_singleton] at hs
    subst hs
    rfl
  · exact ⟨⟨.write16 EXT_ROM_CTRL_STATUS 0x8001, 2, 0, .rmw 1⟩, by simp, rfl⟩

theorem isGetPoll_isPollStep (s : Access × Tag) (h : isGetPoll s = true) : isPollStep s = true := by
  simp only [isGetPoll, Bool.or_eq_true, decide_eq_true_eq] at h
  rcases h with h | h <;> rw [h] <;> rfl

theorem countP_getPoll_le (l : List (Access × Tag)) :
    l.countP isGetPoll ≤ l.countP isPollStep :=
  List.countP_mono_left (fun s _ h => isGetPoll_isPollStep s h) 

theorem enableHead_take_length (H : List Event) (k : Nat)
    (hH : H.map Event.step = enableHead.take k) : H.length ≤ 4 := by
  have := congrArg List.length hH
  rw [List.length_map, List.length_take] at this
  simp [enableHead] at this
  omega

theorem enableHead_no_poll (H : List Event) (k : Nat)
    (hH : H.map Event.step = enableHead.take k) :
    ∀ e ∈ H, isGetPoll e.step = false ∧ isResultPoll e.step = false := by
  intro e he
  have hmem : e.step ∈ enableHead.take k := by
    rw [← hH]; exact List.mem_map_of_mem _ he
  have := List.mem_of_mem_take hmem
  simp [enableHead] at this
  rcases this with h | h | h | h <;> rw [h] <;> exact ⟨rfl, rfl⟩

theorem disableSteps_no_poll (e : Event) (h : e.step ∈ disableSteps) :
    isGetPoll e.step = false ∧ isResultPoll e.step = false := by
  simp [disableSteps] at h
  rcases h with h | h | h <;> rw [h] <;> exact ⟨rfl, rfl⟩

theorem rmw_no_poll (e : Event) (m : Nat) (h : e.tag = .rmw m) :
    isGetPoll e.step = false ∧ isResultPoll e.step = false := by
  have h2 : e.step.2 = .rmw m := by rw [step_snd, h]
  constructor
  · cases hg : isGetPoll e.step
    · rfl
    · simp only [isGetPoll, Bool.or_eq_true, decide_eq_true_eq] at hg
      rcases hg with hg | hg <;> rw [hg] at h2 <;> simp at h2
  · cases hg : isResultPoll e.step
    · rfl
    · simp only [isResultPoll, decide_eq_true_eq] at hg
      rw [hg] at h2
      simp at h2

theorem getStep_no_resultPoll (e : Event) (h : isGetStep e.step = true) :
    isResultPoll e.step = false := by
  cases hg : isResultPoll e.step
  · rfl
  · simp only [isResultPoll, decide_eq_true_eq] at hg
    rw [hg] at h
    simp [isGetStep] at h

theorem resultPoll_no_getPoll (e : Event) (h : e.step = (.read16 EXT_ROM_CTRL_STATUS, .plain)) :
    isGetPoll e.step = false := by
  rw [h]; rfl

/-- Any run of the enable sequence: at most `LOOPNB` polls of the result field
and `LOOPNB + 4` accesses. -/
theorem enable_bound (dev : Device) (u : Nat) (tr : Trace) :
    ∃ evs, (external_rom_access dev u true tr).2 = tr ++ evs ∧
      (evs.map Event.step).countP isResultPoll ≤ LOOPNB ∧ evs.length ≤ LOOPNB + 4 := by
  obtain ⟨H, polls, k, h1, h2, h3, h4, _, _⟩ := enable_shape dev u tr
  have hl := enableHead_take_length H k h2
  refine ⟨H ++ polls, h1, ?_, by rw [List.length_append]; omega⟩
  rw [List.map_append, List.countP_append,
    countP_eq_zero_of_forall isResultPoll (H.map Event.step) (by
      intro s hs
      obtain ⟨e, he, rfl⟩ := List.mem_map.1 hs
      exact (enableHead_no_poll H k h2 e he).2)]
  calc 0 + (polls.map Event.step).countP isResultPoll
      ≤ (polls.map Event.step).length := by rw [Nat.zero_add]; exact List.countP_le_length _
    _ ≤ LOOPNB := by rw [List.length_map]; exact h4

theorem countP_steps_zero (p : Access × Tag → Bool) (l : List Event)
    (h : ∀ e ∈ l, p e.step = false) : (l.map Event.step).countP p = 0 := by
  apply countP_eq_zero_of_forall
  intro s hs
  obtain ⟨e, he, rfl⟩ := List.mem_map.1 hs
  exact h e he

theorem countP_le_of_initial {α : Type} (p : α → Bool) (l1 l2 : List α) (h : l1 <+: l2) :
    l1.countP p ≤ l2.countP p :=
  List.Sublist.countP_le p h.sublist

/-- Any run of `read_eeprom`, for every device: at most
`2 * (len / 8) * LOOPNB` polls of the get bits, at most `LOOPNB` polls of the
result field (in the enable sequence), and a bounded number of accesses. -/
theorem read_eeprom_bound (dev : Device) (u : Nat) (ofileOk : Bool) (len : Nat) (tr : Trace) :
    ∃ evs, (read_eeprom dev u ofileOk len tr).2.2 = tr ++ evs ∧
      (evs.map Event.step).countP isGetPoll ≤ 2 * (len % 2 ^ 32 / 8) * LOOPNB ∧
      (evs.map Event.step).countP isResultPoll ≤ LOOPNB ∧
      evs.length ≤ 2 * (len % 2 ^ 32 / 8) * (LOOPNB + 3) + LOOPNB + 11 := by
  obtain ⟨H, polls, k, he1, he2, he3, he4, _, _⟩ := enable_shape dev u tr
  obtain ⟨G0, hg1, hg2, hg3⟩ := write_bit_events dev u EXT_ROM_CTRL_STATUS ROM_GET_DATA0 1
    (external_rom_access dev u true tr).2
  obtain ⟨G1, hh1, hh2, hh3⟩ := write_bit_events dev u EXT_ROM_CTRL_STATUS ROM_GET_DATA1 1
    (write_bit dev u EXT_ROM_CTRL_STATUS ROM_GET_DATA0 1 (external_rom_access dev u true tr).2).2
  obtain ⟨L, hl1, _, hl3, _⟩ := read_eeprom_outer_spec dev u ((len % 2 ^ 32) / 8)
    ⟨u, u, [], (write_bit dev u EXT_ROM_CTRL_STATUS ROM_GET_DATA1 1
      (write_bit dev u EXT_ROM_CTRL_STATUS ROM_GET_DATA0 1
        (external_rom_access dev u true tr).2).2).2⟩
  obtain ⟨L2, hl4, hl5, hl6⟩ := read_eeprom_outer_bound dev u ((len % 2 ^ 32) / 8)
    ⟨u, u, [], (write_bit dev u EXT_ROM_CTRL_STATUS ROM_GET_DATA1 1
      (write_bit dev u EXT_ROM_CTRL_STATUS ROM_GET_DATA0 1
        (external_rom_access dev u true tr).2).2).2⟩
  have hLL : L = L2 := List.append_cancel_left (hl1.symm.trans hl4)
  subst hLL
  obtain ⟨D1, D2, hd1, hd2, hd3, hd4, hd5⟩ := disable_shape dev u
    (read_eeprom_outer dev u ((len % 2 ^ 32) / 8)
      ⟨u, u, [], (write_bit dev u EXT_ROM_CTRL_STATUS ROM_GET_DATA1 1
        (write_bit dev u EXT_ROM_CTRL_STATUS ROM_GET_DATA0 1
          (external_rom_access dev u true tr).2).2).2⟩).2.tr
  have hHl := enableHead_take_length H k he2
  have zH := enableHead_no_poll H k he2
  have zP : ∀ e ∈ polls, isGetPoll e.step = false := fun e he => resultPoll_no_getPoll e (he3 e he)
  have zG0 := fun e he => rmw_no_poll e _ (hg3 e he).2
  have zG1 := fun e he => rmw_no_poll e _ (hh3 e he).2
  have zL : ∀ e ∈ L, isResultPoll e.step = false := fun e he => getStep_no_resultPoll e (hl3 e he)
  have zD1 : ∀ e ∈ D1, isGetPoll e.step = false ∧ isResultPoll e.step = false :=
    fun e he => disableSteps_no_poll e (List.mem_of_mem_take (hd4 e he))
  have zD2 : ∀ e ∈ D2, isGetPoll e.step = false ∧ isResultPoll e.step = false :=
    fun e he => disableSteps_no_poll e (List.mem_of_mem_drop (hd5 e he))
  have cL : (L.map Event.step).countP isGetPoll ≤ 2 * (len % 2 ^ 32 / 8) * LOOPNB :=
    le_trans (countP_getPoll_le _) hl5
  have cP : (polls.map Event.step).countP isResultPoll ≤ LOOPNB :=
    le_trans (List.countP_le_length _) (by rw [List.length_map]; exact he4)
  have bound : ((H ++ polls ++ G0 ++ G1 ++ L ++ D1 ++ D2).map Event.step).countP isGetPoll ≤
        2 * (len % 2 ^ 32 / 8) * LOOPNB ∧
      ((H ++ polls ++ G0 ++ G1 ++ L ++ D1 ++ D2).map Event.step).countP isResultPoll ≤ LOOPNB ∧
      (H ++ polls ++ G0 ++ G1 ++ L ++ D1 ++ D2).length ≤
        2 * (len % 2 ^ 32 / 8) * (LOOPNB + 3) + LOOPNB + 11 := by
    simp only [List.map_append, List.countP_append, List.length_append]
    rw [countP_steps_zero isGetPoll H (fun e he => (zH e he).1),
      countP_steps_zero isGetPoll polls zP,
      countP_steps_zero isGetPoll G0 (fun e he => (zG0 e he).1),
      countP_steps_zero isGetPoll G1 (fun e he => (zG1 e he).1),
      countP_steps_zero isGetPoll D1 (fun e he => (zD1 e he).1),
      countP_steps_zero isGetPoll D2 (fun e he => (zD2 e he).1),
      countP_steps_zero isResultPoll H (fun e he => (zH e he).2),
      countP_steps_zero isResultPoll G0 (fun e he => (zG0 e he).2),
      countP_steps_zero isResultPoll G1 (fun e he => (zG1 e he).2),
      countP_steps_zero isResultPoll L zL,
      countP_steps_zero isResultPoll D1 (fun e he => (zD1 e he).2),
      countP_steps_zero isResultPoll D2 (fun e he => (zD2 e he).2)]
    refine ⟨by omega, by omega, by omega⟩
  suffices hp : ∃ evs, (read_eeprom dev u ofileOk len tr).2.2 = tr ++ evs ∧
      evs <+: H ++ polls ++ G0 ++ G1 ++ L ++ D1 ++ D2 by
    obtain ⟨evs, h1, h2⟩ := hp
    exact ⟨evs, h1, le_trans (countP_le_of_initial _ _ _ (h2.map Event.step)) bound.1,
      le_trans (countP_le_of_initial _ _ _ (h2.map Event.step)) bound.2.1,
      le_trans h2.length_le bound.2.2⟩
  have p1 : H ++ polls <+: H ++ polls ++ G0 ++ G1 ++ L ++ D1 ++ D2 :=
    ⟨G0 ++ (G1 ++ (L ++ (D1 ++ D2))), by simp⟩
  have p2 : H ++ polls ++ G0 <+: H ++ polls ++ G0 ++ G1 ++ L ++ D1 ++ D2 :=
    ⟨G1 ++ (L ++ (D1 ++ D2)), by simp⟩
  have p3 : H ++ polls ++ G0 ++ G1 <+: H ++ polls ++ G0 ++ G1 ++ L ++ D1 ++ D2 :=
    ⟨L ++ (D1 ++ D2), by simp⟩
  have p4 : H ++ polls ++ G0 ++ G1 ++ L <+: H ++ polls ++ G0 ++ G1 ++ L ++ D1 ++ D2 :=
    ⟨D1 ++ D2, by simp⟩
  have t0 : (write_bit dev u EXT_ROM_CTRL_STATUS ROM_GET_DATA0 1
      (external_rom_access dev u true tr).2).2 = tr ++ (H ++ polls ++ G0) := by
    rw [hg1, he1]; simp
  have t1 : (write_bit dev u EXT_ROM_CTRL_STATUS ROM_GET_DATA1 1
      (write_bit dev u EXT_ROM_CTRL_STATUS ROM_GET_DATA0 1
        (external_rom_access dev u true tr).2).2).2 = tr ++ (H ++ polls ++ G0 ++ G1) := by
    rw [hh1, t0]; simp
  have tl : (read_eeprom_outer dev u ((len % 2 ^ 32) / 8)
      ⟨u, u, [], (write_bit dev u EXT_ROM_CTRL_STATUS ROM_GET_DATA1 1
        (write_bit dev u EXT_ROM_CTRL_STATUS ROM_GET_DATA0 1
          (external_rom_access dev u true tr).2).2).2⟩).2.tr =
      tr ++ (H ++ polls ++ G0 ++ G1 ++ L) := by
    rw [hl1]
    simp only
    rw [t1]; simp
  have td : (external_rom_access dev u false (read_eeprom_outer dev u ((len % 2 ^ 32) / 8)
      ⟨u, u, [], (write_bit dev u EXT_ROM_CTRL_STATUS ROM_GET_DATA1 1
        (write_bit dev u EXT_ROM_CTRL_STATUS ROM_GET_DATA0 1
          (external_rom_access dev u true tr).2).2).2⟩).2.tr).2 =
      tr ++ (H ++ polls ++ G0 ++ G1 ++ L ++ D1 ++ D2) := by
    rw [hd1, tl]; simp
  unfold read_eeprom
  simp only
  split_ifs
  · exact ⟨[], by simp, List.nil_prefix⟩
  · exact ⟨_, he1, p1⟩
  · exact ⟨_, t0, p2⟩
  · exact ⟨_, t1, p3⟩
  · exact ⟨_, tl, p4⟩
  · exact ⟨_, td, List.prefix_refl _⟩
  · exact ⟨_, td, List.prefix_refl _⟩

theorem poll_bit_zero_length (dev : Device) (reg bit : Nat) :
    ∀ (n status : Nat) (tr : Trace),
      ∃ polls, (poll_bit_zero dev reg bit n status tr).2.2 = tr ++ polls ∧ polls.length ≤ n := by
  intro n
  induction n with
  | zero => intro status tr; exact ⟨[], by simp [poll_bit_zero], by simp⟩
  | succ n ih =>
    intro status tr
    rw [poll_bit_zero]
    simp only [read_bit_eq]
    split_ifs
    · exact ⟨[_], rfl, by simp⟩
    · obtain ⟨polls, h1, h2⟩ := ih
        (storeBytes 2 (dev tr (.read16 reg)).1 status (dev tr (.read16 reg)).2 &&& (1 <<< bit))
        (tr ++ [⟨.read16 reg, (dev tr (.read16 reg)).1, (dev tr (.read16 reg)).2,
          .bits (1 <<< bit)⟩])
      exact ⟨⟨.read16 reg, (dev tr (.read16 reg)).1, (dev tr (.read16 reg)).2,
        .bits (1 <<< bit)⟩ :: polls, by rw [h1]; simp, by simp; omega⟩

theorem disable_bound (dev : Device) (u : Nat) (tr : Trace) :
    ∃ evs, (external_rom_access dev u false tr).2 = tr ++ evs ∧ evs.length ≤ 3 := by
  obtain ⟨D1, D2, h1, h2, h3, _, _⟩ := disable_shape dev u tr
  exact ⟨D1 ++ D2, h1, by rw [List.length_append]; omega⟩

/-- Any run of `write_eeprom` on an image of `N` complete dwords makes at most
`(LOOPNB + 4) + N * (LOOPNB + 3) + 3 + LOOPNB` accesses. -/
theorem write_eeprom_bound (dev : Device) (u : Nat) (ifile : Option (List Nat)) (tr : Trace) :
    ∃ evs, (write_eeprom dev u ifile tr).2 = tr ++ evs ∧
      evs.length ≤ (LOOPNB + 4) + (ifile.getD []).length / 4 * (LOOPNB + 3) + 3 + LOOPNB := by
  cases ifile with
  | none => exact ⟨[], by simp [write_eeprom], by simp⟩
  | some bytes =>
    simp only [Option.getD_some]
    obtain ⟨E, he1, _, he3⟩ := enable_bound dev u tr
    obtain ⟨P, hp1, _, _, _, hp5⟩ := do_upload_events dev u EXT_ROM_CTRL_STATUS bytes
      (external_rom_access dev u true tr).2
    obtain ⟨D, hd1, hd2⟩ := disable_bound dev u
      (do_upload dev u bytes EXT_ROM_CTRL_STATUS (external_rom_access dev u true tr).2).2
    obtain ⟨C, hc1, hc2, _⟩ := test_upload_result_events dev u EXT_ROM_CTRL_STATUS
      (external_rom_access dev u false
        (do_upload dev u bytes EXT_ROM_CTRL_STATUS (external_rom_access dev u true tr).2).2).2
    have tp : (do_upload dev u bytes EXT_ROM_CTRL_STATUS (external_rom_access dev u true tr).2).2 =
        tr ++ (E ++ P) := by
      rw [hp1, he1]; simp
    have td : (external_rom_access dev u false
        (do_upload dev u bytes EXT_ROM_CTRL_STATUS (external_rom_access dev u true tr).2).2).2 =
        tr ++ (E ++ P ++ D) := by
      rw [hd1, tp]; simp
    have tc : (test_upload_result dev u EXT_ROM_CTRL_STATUS (external_rom_access dev u false
        (do_upload dev u bytes EXT_ROM_CTRL_STATUS (external_rom_access dev u true tr).2).2).2).2.2 =
        tr ++ (E ++ P ++ D ++ C) := by
      rw [hc1, td]; simp
    unfold write_eeprom
    simp only
    split_ifs
    · exact ⟨E, he1, by omega⟩
    · exact ⟨_, tp, by rw [List.length_append]; omega⟩
    · exact ⟨_, td, by simp only [List.length_append]; omega⟩
    · exact ⟨_, tc, by simp only [List.length_append]; omega⟩
    · exact ⟨_, tc, by simp only [List.length_append]; omega⟩

/-- Any run of `write_firmware` on an image of `N` complete dwords makes at most
`2 + N * (LOOPNB + 3) + 2 + LOOPNB` accesses. -/
theorem write_firmware_bound (dev : Device) (u : Nat) (ifile : Option (List Nat)) (tr : Trace) :
    ∃ evs, (write_firmware dev u ifile tr).2 = tr ++ evs ∧
      evs.length ≤ 2 + (ifile.getD []).length / 4 * (LOOPNB + 3) + 2 + LOOPNB := by
  cases ifile with
  | none => exact ⟨[], by simp [write_firmware], by simp⟩
  | some bytes =>
    simp only [Option.getD_some]
    obtain ⟨E, he1, he3, _⟩ := write_bit_events dev u EXT_FW_DLOAD_CTRL_STATUS FW_DLOAD_ENABLE 1 tr
    obtain ⟨P, hp1, _, _, _, hp5⟩ := do_upload_events dev u EXT_FW_DLOAD_CTRL_STATUS bytes
      (write_bit dev u EXT_FW_DLOAD_CTRL_STATUS FW_DLOAD_ENABLE 1 tr).2
    obtain ⟨D, hd1, hd2, _⟩ := write_bit_events dev u EXT_FW_DLOAD_CTRL_STATUS FW_DLOAD_ENABLE 0
      (do_upload dev u bytes EXT_FW_DLOAD_CTRL_STATUS
        (write_bit dev u EXT_FW_DLOAD_CTRL_STATUS FW_DLOAD_ENABLE 1 tr).2).2
    obtain ⟨C, hc1, hc2, _⟩ := test_upload_result_events dev u EXT_FW_DLOAD_CTRL_STATUS
      (write_bit dev u EXT_FW_DLOAD_CTRL_STATUS FW_DLOAD_ENABLE 0
        (do_upload dev u bytes EXT_FW_DLOAD_CTRL_STATUS
          (write_bit dev u EXT_FW_DLOAD_CTRL_STATUS FW_DLOAD_ENABLE 1 tr).2).2).2
    have tp : (do_upload dev u bytes EXT_FW_DLOAD_CTRL_STATUS
        (write_bit dev u EXT_FW_DLOAD_CTRL_STATUS FW_DLOAD_ENABLE 1 tr).2).2 = tr ++ (E ++ P) := by
      rw [hp1, he1]; simp
    have td : (write_bit dev u EXT_FW_DLOAD_CTRL_STATUS FW_DLOAD_ENABLE 0
        (do_upload dev u bytes EXT_FW_DLOAD_CTRL_STATUS
          (write_bit dev u EXT_FW_DLOAD_CTRL_STATUS FW_DLOAD_ENABLE 1 tr).2).2).2 =
        tr ++ (E ++ P ++ D) := by
      rw [hd1, tp]; simp
    have tc : (test_upload_result dev u EXT_FW_DLOAD_CTRL_STATUS
        (write_bit dev u EXT_FW_DLOAD_CTRL_STATUS FW_DLOAD_ENABLE 0
          (do_upload dev u bytes EXT_FW_DLOAD_CTRL_STATUS
            (write_bit dev u EXT_FW_DLOAD_CTRL_STATUS FW_DLOAD_ENABLE 1 tr).2).2).2).2.2 =
        tr ++ (E ++ P ++ D ++ C) := by
      rw [hc1, td]; simp
    unfold write_firmware
    simp only
    split_ifs
    · exact ⟨E, he1, by omega⟩
    · exact ⟨_, tp, by rw [List.length_append]; omega⟩
    · exact ⟨_, td, by simp only [List.length_append]; omega⟩
    · exact ⟨_, tc, by simp only [List.length_append]; omega⟩
    · exact ⟨_, tc, by simp only [List.length_append]; omega⟩

/-- C18. For every device and every input, each operation ends after a bounded
number of accesses.  Each run of a poll loop (`rom_access_poll` in
`external_rom_access`, `poll_bit_zero` in `do_upload` and `read_eeprom`,
`test_upload_poll` in `test_upload_result`) makes at most 100,000 reads.
The enable sequence makes at most 100,000 polls of the result field and
100,004 accesses, the disable sequence at most 3 accesses,
`test_upload_result` at most 100,000 reads.  `do_upload` on a file of `N`
complete dwords makes at most `N * 100,000` polls and `N * 100,003` accesses.
`read_eeprom` with size `len` makes at most `2 * (len / 8) * 100,000` polls of
the get bits, besides the at most 100,000 polls of the result field in its
enable sequence, and at most `2 * (len / 8) * 100,003 + 100,011` accesses.
`write_eeprom` and `write_firmware` make a bounded number of accesses
too. -/
theorem C18_bounded_polls (dev : Device) (u ctrl reg bit status : Nat) (file : List Nat)
    (ifile : Option (List Nat)) (ofileOk : Bool) (len : Nat) (tr : Trace) :
    (∃ polls, (rom_access_poll dev LOOPNB reg tr).2 = tr ++ polls ∧ polls.length ≤ 100000) ∧
    (∃ polls, (poll_bit_zero dev ctrl bit LOOPNB status tr).2.2 = tr ++ polls ∧
      polls.length ≤ 100000) ∧
    (∃ polls, (test_upload_poll dev ctrl LOOPNB status tr).2 = tr ++ polls ∧
      polls.length ≤ 100000) ∧
    (∃ evs, (external_rom_access dev u true tr).2 = tr ++ evs ∧
      (evs.map Event.step).countP isResultPoll ≤ 100000 ∧ evs.length ≤ 100000 + 4) ∧
    (∃ evs, (external_rom_access dev u false tr).2 = tr ++ evs ∧ evs.length ≤ 3) ∧
    (∃ evs, (test_upload_result dev u ctrl tr).2.2 = tr ++ evs ∧ evs.length ≤ 100000) ∧
    (∃ evs, (do_upload dev u file ctrl tr).2 = tr ++ evs ∧
      (evs.map Event.step).countP isPollStep ≤ file.length / 4 * 100000 ∧
      evs.length ≤ file.length / 4 * (100000 + 3)) ∧
    (∃ evs, (read_eeprom dev u ofileOk len tr).2.2 = tr ++ evs ∧
      (evs.map Event.step).countP isGetPoll ≤ 2 * (len / 8) * 100000 ∧
      (evs.map Event.step).countP isResultPoll ≤ 100000 ∧
      evs.length ≤ 2 * (len / 8) * (100000 + 3) + 100000 + 11) ∧
    (∃ evs, (write_eeprom dev u ifile tr).2 = tr ++ evs ∧
      evs.length ≤ (100000 + 4) + (ifile.getD []).length / 4 * (100000 + 3) + 3 + 100000) ∧
    (∃ evs, (write_firmware dev u ifile tr).2 = tr ++ evs ∧
      evs.length ≤ 2 + (ifile.getD []).length / 4 * (100000 + 3) + 2 + 100000) := by
  refine ⟨?_, poll_bit_zero_length dev ctrl bit LOOPNB status tr, ?_, enable_bound dev u tr,
    disable_bound dev u tr, ?_, ?_, ?_, write_eeprom_bound dev u ifile tr,
    write_firmware_bound dev u ifile tr⟩
  · obtain ⟨_, polls, h1, h2, _⟩ := rom_access_poll_spec dev LOOPNB reg tr
    exact ⟨polls, h1, h2⟩
  · obtain ⟨polls, h1, h2, _⟩ := test_upload_poll_events dev ctrl LOOPNB status tr
    exact ⟨polls, h1, h2⟩
  · obtain ⟨evs, h1, h2, _⟩ := test_upload_result_events dev u ctrl tr
    exact ⟨evs, h1, h2⟩
  · obtain ⟨evs, h1, _, _, h4, h5⟩ := do_upload_events dev u ctrl file tr
    exact ⟨evs, h1, h4, h5⟩
  · obtain ⟨evs, h1, h2, h3, h4⟩ := read_eeprom_bound dev u ofileOk len tr
    have hn : len % 2 ^ 32 / 8 ≤ len / 8 := Nat.div_le_div_right (Nat.mod_le _ _)
    refine ⟨evs, h1, le_trans h2 ?_, h3, le_trans h4 ?_⟩
    · exact Nat.mul_le_mul_right _ (Nat.mul_le_mul_left _ hn)
    · have := Nat.mul_le_mul_right (LOOPNB + 3) (Nat.mul_le_mul_left 2 hn)
      exact Nat.add_le_add_right (Nat.add_le_add_right this _) _

theorem statusAfter_cons (status : Nat) (e : Event) (l : List Event) :
    statusAfter status (e :: l) =
      statusAfter (if e.rc < 0 then 0xFFFFFFFF else storeBytes 4 e.rc status e.data) l := rfl

theorem statusAfter_snoc (status : Nat) (pre : List Event) (e : Event) :
    statusAfter status (pre ++ [e]) =
      if e.rc < 0 then 0xFFFFFFFF else storeBytes 4 e.rc (statusAfter status pre) e.data := by
  simp [statusAfter, List.foldl_append]

theorem storeBytes_four_low_testBit (rc : Int) (old d i : Nat) (hrc : 1 ≤ rc) (hi : i < 8) :
    (storeBytes 4 rc old d).testBit i = d.testBit i := by
  have hn : min rc.toNat 4 = 1 ∨ min rc.toNat 4 = 2 ∨ min rc.toNat 4 = 3 ∨ min rc.toNat 4 = 4 := by
    omega
  have h1 : i < 32 := by omega
  rcases hn with hn | hn | hn | hn
  · simp only [storeBytes, hn, Nat.testBit_mod_two_pow, Nat.testBit_or, Nat.testBit_shiftLeft]
    have h2 : ¬ (i ≥ 8 * 1) := by omega
    have h3 : i < 8 * 1 := by omega
    simp [h1, h2, h3]
  · simp only [storeBytes, hn, Nat.testBit_mod_two_pow, Nat.testBit_or, Nat.testBit_shiftLeft]
    have h2 : ¬ (i ≥ 8 * 2) := by omega
    have h3 : i < 8 * 2 := by omega
    simp [h1, h2, h3]
  · simp only [storeBytes, hn, Nat.testBit_mod_two_pow, Nat.testBit_or, Nat.testBit_shiftLeft]
    have h2 : ¬ (i ≥ 8 * 3) := by omega
    have h3 : i < 8 * 3 := by omega
    simp [h1, h2, h3]
  · simp only [storeBytes, hn, Nat.testBit_mod_two_pow, Nat.testBit_or, Nat.testBit_shiftLeft]
    have h2 : ¬ (i ≥ 8 * 4) := by omega
    have h3 : i < 8 * 4 := by omega
    simp [h1, h2, h3]

theorem storeBytes_four_low_and (rc : Int) (old d m : Nat) (hrc : 1 ≤ rc) (hm : m < 2 ^ 8) :
    storeBytes 4 rc old d &&& m = d &&& m := by
  apply Nat.eq_of_testBit_eq
  intro i
  simp only [Nat.testBit_and]
  by_cases hi : i < 8
  · rw [storeBytes_four_low_testBit rc old d i hrc hi]
  · rw [testBit_eq_false_of_lt m i 8 hm (by omega)]
    simp

theorem storeBytes_zero (w : Nat) (rc : Int) (old d : Nat) (hrc : rc ≤ 0) (hold : old < 2 ^ 32) :
    storeBytes w rc old d = old := by
  have hn : min rc.toNat w = 0 := by omega
  simp only [storeBytes, hn, Nat.mul_zero, Nat.shiftRight_zero, Nat.shiftLeft_zero, Nat.pow_zero,
    Nat.mod_one, Nat.or_zero]
  exact Nat.mod_eq_of_lt hold

/-- The polling loop of `test_upload_result`, for every device: the loop ends at
the first poll whose read returned a non-negative count and left the success
code in the result field of `status`, and only there before its bound. -/
theorem test_upload_poll_full (dev : Device) (ctrl : Nat) :
    ∀ (n status : Nat) (tr : Trace),
      ∃ evs, (test_upload_poll dev ctrl n status tr).2 = tr ++ evs ∧ evs.length ≤ n ∧
        (∀ e ∈ evs, e.acc = .read32 ctrl ∧ e.tag = .plain) ∧
        (test_upload_poll dev ctrl n status tr).1 = statusAfter status evs ∧
        (0 < n → evs ≠ []) ∧
        (evs.length < n →
          (test_upload_poll dev ctrl n status tr).1 &&& RESULT_BITMASK = RESULT_SUCCESS) ∧
        ∀ pre e post, evs = pre ++ e :: post →
          ((0 ≤ e.rc ∧ statusAfter status (pre ++ [e]) &&& RESULT_BITMASK = RESULT_SUCCESS) ↔
            (post = [] ∧
              (test_upload_poll dev ctrl n status tr).1 &&& RESULT_BITMASK = RESULT_SUCCESS)) := by
  intro n
  induction n with
  | zero =>
    intro status tr
    refine ⟨[], by simp [test_upload_poll], by simp, by simp, by simp [test_upload_poll, statusAfter],
      by simp, by simp, ?_⟩
    intro pre e post h
    simp at h
  | succ n ih =>
    intro status tr
    rw [test_upload_poll]
    simp only [pci_cfg_read32]
    rcases hdev : dev tr (.read32 ctrl) with ⟨rc, d⟩
    simp only
    have step : ∀ st', (if rc < 0 then 0xFFFFFFFF else storeBytes 4 rc status d) = st' →
        st' &&& RESULT_BITMASK ≠ RESULT_SUCCESS →
        ∃ evs, (test_upload_poll dev ctrl n st' (tr ++ [⟨.read32 ctrl, rc, d, .plain⟩])).2 =
            tr ++ evs ∧ evs.length ≤ n + 1 ∧
          (∀ e ∈ evs, e.acc = .read32 ctrl ∧ e.tag = .plain) ∧
          (test_upload_poll dev ctrl n st' (tr ++ [⟨.read32 ctrl, rc, d, .plain⟩])).1 =
            statusAfter status evs ∧
          (0 < n + 1 → evs ≠ []) ∧
          (evs.length < n + 1 →
            (test_upload_poll dev ctrl n st' (tr ++ [⟨.read32 ctrl, rc, d, .plain⟩])).1 &&&
              RESULT_BITMASK = RESULT_SUCCESS) ∧
          ∀ pre e post, evs = pre ++ e :: post →
            ((0 ≤ e.rc ∧ statusAfter status (pre ++ [e]) &&& RESULT_BITMASK = RESULT_SUCCESS) ↔
              (post = [] ∧
                (test_upload_poll dev ctrl n st' (tr ++ [⟨.read32 ctrl, rc, d, .plain⟩])).1 &&&
                  RESULT_BITMASK = RESULT_SUCCESS)) := by
      intro st' hst hfield
      obtain ⟨evs, h1, h2, h3, h4, h5, h6, h7⟩ := ih st' (tr ++ [⟨.read32 ctrl, rc, d, .plain⟩])
      have hcons : ∀ l, statusAfter status ((⟨.read32 ctrl, rc, d, .plain⟩ : Event) :: l) =
          statusAfter st' l := by
        intro l
        rw [statusAfter_cons]
        simp only [hst]
      refine ⟨⟨.read32 ctrl, rc, d, .plain⟩ :: evs, by rw [h1]; simp, by simp; omega, ?_,
        by rw [h4, hcons], by simp, ?_, ?_⟩
      · intro e he
        rcases List.mem_cons.1 he with rfl | he
        · exact ⟨rfl, rfl⟩
        · exact h3 e he
      · intro hl
        apply h6
        simp only [List.length_cons] at hl
        omega
      · intro pre e post hsplit
        cases pre with
        | nil =>
          simp only [List.nil_append, List.cons.injEq] at hsplit
          obtain ⟨he, hpost⟩ := hsplit
          subst he
          have hs1 : statusAfter status ([] ++ [(⟨.read32 ctrl, rc, d, .plain⟩ : Event)]) = st' := by
            rw [List.nil_append, hcons]; rfl
          rw [hs1]
          constructor
          · rintro ⟨_, hf⟩; exact absurd hf hfield
          · rintro ⟨hp, hf⟩
            exfalso
            have hnil : evs = [] := by rw [hpost, hp]
            rw [h4, hnil] at hf
            exact hfield hf
        | cons p pre =>
          simp only [List.cons_append, List.cons.injEq] at hsplit
          obtain ⟨hp, hrest⟩ := hsplit
          subst hp
          rw [List.cons_append, hcons]
          exact h7 pre e post hrest
    by_cases hneg : rc < 0
    · rw [if_pos hneg]
      exact step 0xFFFFFFFF (by rw [if_pos hneg]) (by decide)
    · rw [if_neg hneg]
      by_cases hs : storeBytes 4 rc status d &&& RESULT_BITMASK = RESULT_SUCCESS
      · rw [if_pos hs]
        have hone : statusAfter status [(⟨.read32 ctrl, rc, d, .plain⟩ : Event)] =
            storeBytes 4 rc status d := by
          rw [statusAfter_cons]
          simp only [if_neg hneg]
          rfl
        refine ⟨[⟨.read32 ctrl, rc, d, .plain⟩], rfl, by simp, by simp, hone.symm, by simp,
          fun _ => hs, ?_⟩
        intro pre e post hsplit
        cases pre with
        | nil =>
          simp only [List.nil_append, List.cons.injEq] at hsplit
          obtain ⟨he, hpost⟩ := hsplit
          subst he
          rw [List.nil_append, hone]
          exact ⟨fun _ => ⟨hpost.symm, hs⟩, fun _ => ⟨not_lt.mp hneg, hs⟩⟩
        | cons p pre =>
          exfalso
          simp only [List.cons_append, List.cons.injEq] at hsplit
          have := congrArg List.length hsplit.2
          simp at this
          omega
      · rw [if_neg hs]
        exact step (storeBytes 4 rc status d) (by rw [if_neg hneg]) hs

/-- C4 (amended). For every device, `test_upload_result` makes between 1 and
100,000 polls (32-bit reads of `ctrl_reg`) and nothing else.  It returns 0
exactly when at some poll the read returned a non-negative count and the
result field of `status` after it (`status & 0x0070`) equals `0x0010`, and
that poll is then the last one; otherwise it returns -1 after exactly 100,000
polls.  Here `status` after a read that failed (negative count) is
`0xFFFFFFFF`, and the polling goes on; after any other read it is the bytes
transferred laid over its previous content, so its result field is that of
the value read once at least one byte was transferred, and it is the value
read once all four bytes were.  The status reported is the content of
`status` after the last poll. -/
theorem C4_test_upload_result (dev : Device) (u ctrl : Nat) (tr : Trace) :
    ∃ evs, (test_upload_result dev u ctrl tr).2.2 = tr ++ evs ∧
      1 ≤ evs.length ∧ evs.length ≤ LOOPNB ∧
      (∀ e ∈ evs, e.acc = .read32 ctrl) ∧
      ((test_upload_result dev u ctrl tr).1 = 0 ∨ (test_upload_result dev u ctrl tr).1 = -1) ∧
      ((test_upload_result dev u ctrl tr).1 = 0 ↔
        ∃ pre e post, evs = pre ++ e :: post ∧ 0 ≤ e.rc ∧
          statusAfter u (pre ++ [e]) &&& RESULT_BITMASK = RESULT_SUCCESS) ∧
      (∀ pre e post, evs = pre ++ e :: post →
        ((0 ≤ e.rc ∧ statusAfter u (pre ++ [e]) &&& RESULT_BITMASK = RESULT_SUCCESS) ↔
          (post = [] ∧ (test_upload_result dev u ctrl tr).1 = 0))) ∧
      ((test_upload_result dev u ctrl tr).1 = -1 → evs.length = LOOPNB) ∧
      (test_upload_result dev u ctrl tr).2.1 = statusAfter u evs ∧
      (∀ pre e, e.rc < 0 → statusAfter u (pre ++ [e]) = 0xFFFFFFFF) ∧
      (∀ pre e, 1 ≤ e.rc →
        statusAfter u (pre ++ [e]) &&& RESULT_BITMASK = e.data &&& RESULT_BITMASK) ∧
      (∀ pre e, 4 ≤ e.rc → statusAfter u (pre ++ [e]) = e.data % 2 ^ 32) := by
  obtain ⟨evs, h1, h2, h3, h4, h5, h6, h7⟩ := test_upload_poll_full dev ctrl LOOPNB u tr
  have hres : (test_upload_result dev u ctrl tr).1 =
      if (test_upload_poll dev ctrl LOOPNB u tr).1 &&& RESULT_BITMASK ≠ RESULT_SUCCESS
      then -1 else 0 := by
    unfold test_upload_result
    simp only
    split_ifs <;> rfl
  have htr : (test_upload_result dev u ctrl tr).2.2 = tr ++ evs := by
    unfold test_upload_result
    simp only
    split_ifs <;> exact h1
  have hst : (test_upload_result dev u ctrl tr).2.1 = statusAfter u evs := by
    unfold test_upload_result
    simp only
    split_ifs <;> exact h4
  have hzero : (test_upload_result dev u ctrl tr).1 = 0 ↔
      (test_upload_poll dev ctrl LOOPNB u tr).1 &&& RESULT_BITMASK = RESULT_SUCCESS := by
    rw [hres]
    by_cases hs : (test_upload_poll dev ctrl LOOPNB u tr).1 &&& RESULT_BITMASK = RESULT_SUCCESS
    · simp [hs]
    · simp [hs]
  have hne : evs ≠ [] := h5 (by decide)
  have hsplit : ∀ pre e post, evs = pre ++ e :: post →
      ((0 ≤ e.rc ∧ statusAfter u (pre ++ [e]) &&& RESULT_BITMASK = RESULT_SUCCESS) ↔
        (post = [] ∧ (test_upload_result dev u ctrl tr).1 = 0)) := by
    intro pre e post h
    rw [hzero]
    exact h7 pre e post h
  refine ⟨evs, htr, ?_, h2, fun e he => (h3 e he).1, ?_, ?_, hsplit, ?_, hst, ?_, ?_, ?_⟩
  · cases evs with
    | nil => exact absurd rfl hne
    | cons a l => simp
  · rw [hres]
    split_ifs
    · exact Or.inr rfl
    · exact Or.inl rfl
  · constructor
    · intro h0
      rcases List.eq_nil_or_concat evs with hnil | ⟨L, b, hLb⟩
      · exact absurd hnil hne
      · have hLb2 : evs = L ++ b :: [] := by rw [hLb, List.concat_eq_append]
        obtain ⟨hb1, hb2⟩ := (hsplit L b [] hLb2).mpr ⟨rfl, h0⟩
        exact ⟨L, b, [], hLb2, hb1, hb2⟩
    · rintro ⟨pre, e, post, hev, hrc, hf⟩
      exact ((hsplit pre e post hev).mp ⟨hrc, hf⟩).2
  · intro hm1
    by_contra hlen
    have hlt : evs.length < LOOPNB := lt_of_le_of_ne h2 hlen
    have := hzero.mpr (h6 hlt)
    rw [this] at hm1
    exact absurd hm1 (by decide)
  · intro pre e hrc
    rw [statusAfter_snoc, if_pos hrc]
  · intro pre e hrc
    rw [statusAfter_snoc, if_neg (by omega)]
    exact storeBytes_four_low_and e.rc _ e.data RESULT_BITMASK hrc (by decide)
  · intro pre e hrc
    rw [statusAfter_snoc, if_neg (by omega)]
    exact storeBytes_four e.rc _ e.data hrc

/-- C4 fails as stated on the device whose 32-bit reads transfer nothing (each
returns 0), when the local `status` holds `0x10` before the first poll:
`test_upload_result` returns 0 after one poll although that poll delivered no
byte, so no poll has read the success code. -/
theorem C4_counterexample :
    test_upload_result noDataDev 0x10 EXT_ROM_CTRL_STATUS [] =
        (0, 0x10, [⟨.read32 EXT_ROM_CTRL_STATUS, 0, 0, .plain⟩]) ∧
      ∀ e ∈ (test_upload_result noDataDev 0x10 EXT_ROM_CTRL_STATUS []).2.2,
        e.rc = 0 ∧ e.data &&& RESULT_BITMASK ≠ RESULT_SUCCESS := by
  have h : test_upload_result noDataDev 0x10 EXT_ROM_CTRL_STATUS [] =
      (0, 0x10, [⟨.read32 EXT_ROM_CTRL_STATUS, 0, 0, .plain⟩]) := by rfl
  refine ⟨h, ?_⟩
  rw [h]
  intro e he
  simp only [List.mem_singleton] at he
  subst he
  exact ⟨rfl, by decide⟩

/-- C14. The enable call at the failing input: on the device whose 16-bit reads
fail after the access-enable bit was written, with 0 the content of the
uninitialised local `reg`, the EEPROM exists and the register writes
succeed, the one poll made returns -1 and transfers nothing, and the call
returns 0 after that poll: it reports success although no poll has read the
result field, where the claim has it fail after exactly 100,000 polls. -/
theorem C14_failing_input :
    (eeprom_exists pollFailDev 0 []).1 = 0 ∧
      (∀ h off v, 0 ≤ (pollFailDev h (.write32 off v)).1) ∧
      (∀ h off v, 0 ≤ (pollFailDev h (.write16 off v)).1) ∧
      external_rom_access pollFailDev 0 true [] =
        (0, [⟨.read16 EXT_ROM_CTRL_STATUS, 2, 0x8000, .bits 0x8000⟩,
          ⟨.write32 EXT_DATA0 0x53524F4D, 4, 0, .plain⟩,
          ⟨.read16 EXT_ROM_CTRL_STATUS, 2, 0x8000, .rmw 1⟩,
          ⟨.write16 EXT_ROM_CTRL_STATUS 0x8001, 2, 0, .rmw 1⟩,
          ⟨.read16 EXT_ROM_CTRL_STATUS, -1, 0xFFFF, .plain⟩]) ∧
      ∀ e ∈ (external_rom_access pollFailDev 0 true []).2,
        e.tag = .plain → e.acc = .read16 EXT_ROM_CTRL_STATUS → e.rc < 0 := by
  have h : external_rom_access pollFailDev 0 true [] =
      (0, [⟨.read16 EXT_ROM_CTRL_STATUS, 2, 0x8000, .bits 0x8000⟩,
        ⟨.write32 EXT_DATA0 0x53524F4D, 4, 0, .plain⟩,
        ⟨.read16 EXT_ROM_CTRL_STATUS, 2, 0x8000, .rmw 1⟩,
        ⟨.write16 EXT_ROM_CTRL_STATUS 0x8001, 2, 0, .rmw 1⟩,
        ⟨.read16 EXT_ROM_CTRL_STATUS, -1, 0xFFFF, .plain⟩]) := by rfl
  refine ⟨by rfl, fun _ _ _ => ?_, fun _ _ _ => ?_, h, ?_⟩
  · show (0 : Int) ≤ 4
    decide
  · show (0 : Int) ≤ 2
    decide
  · rw [h]
    intro e he htag hacc
    simp only [List.mem_cons, List.mem_singleton, List.not_mem_nil, or_false] at he
    rcases he with rfl | rfl | rfl | rfl | rfl
    · simp at htag
    · simp at hacc
    · simp at htag
    · simp at hacc
    · decide

end Upd72020x
